import Mathlib

/-!
Verification development for the diagram-generation server
(`Server/flowchart_generator.py` and `Server/app.py`).

Strings are modelled as `List Char`.  Python regular-expression
substitutions (`re.sub`) are modelled by a generic left-to-right scanner
`scanM`: at every position the scanner either consumes a matched span and
emits its replacement, or copies one character and moves on — exactly the
non-overlapping leftmost semantics of `re.sub`.  Each concrete pattern of
the source is translated into an explicit matcher function.  Character
classes (`\s`, `\d`, `\w`) are modelled over their ASCII members, which is
what all inputs of interest use.
-/

/-- Characters accepted by the regex class `\s` and by `str.strip()`
(ASCII part): space, tab, newline, carriage return, vertical tab, form
feed. -/
def isPyWs (c : Char) : Bool :=
  c = ' ' || c = '\t' || c = '\n' || c = '\r' || c = Char.ofNat 11 || c = Char.ofNat 12

/-- Characters accepted by the regex class `\w` (ASCII part): letters,
digits and underscore. -/
def isWordChar (c : Char) : Bool :=
  c.isAlphanum || c = '_'

/-- The left brace character (written by code point to keep brace
characters out of string literals). -/
def lbrace : Char := Char.ofNat 123

/-- The right brace character. -/
def rbrace : Char := Char.ofNat 125

/-- The backslash character. -/
def bslash : Char := Char.ofNat 92

/-- The single-quote character. -/
def squote : Char := Char.ofNat 39

/-- The double-quote character. -/
def dquote : Char := Char.ofNat 34

/-- List of characters of a string literal. -/
def chars (s : String) : List Char := s.data

/-- Python `str.strip()`: drop whitespace from both ends. -/
def pyStrip (s : List Char) : List Char :=
  ((s.dropWhile isPyWs).reverse.dropWhile isPyWs).reverse

/-- Split a character list at every newline character (the line structure
used by `^`/`$` in `re.MULTILINE` mode and by `"\n".join`). -/
def splitNl : List Char → List (List Char)
  | [] => [[]]
  | c :: rest =>
    if c = '\n' then [] :: splitNl rest
    else
      match splitNl rest with
      | [] => [[c]]
      | l :: ls => (c :: l) :: ls

/-- Join lines with a newline separator (Python `"\n".join`). -/
def joinNl : List (List Char) → List Char
  | [] => []
  | [l] => l
  | l :: ls => l ++ '\n' :: joinNl ls

/-- A matcher consumed by the generic scanner: given the scanner state and
the current suffix, it either fails or returns the replacement text, the
state after the match, and the suffix that remains after the matched
span. -/
def Matcher (σ : Type) : Type :=
  σ → List Char → Option (List Char × σ × List Char)

/-- Fueled worker of the generic scanner.  One unit of fuel is spent per
scanning step; a matcher that always consumes at least one character
therefore needs at most `s.length` units. -/
def scanGo {σ : Type} (m : Matcher σ) (st : σ → Char → σ) : Nat → σ → List Char → List Char
  | 0, _, s => s
  | Nat.succ _, _, [] => []
  | Nat.succ n, q, c :: rest =>
    match m q (c :: rest) with
    | some (r, q2, u) => r ++ scanGo m st n q2 u
    | none => c :: scanGo m st n (st q c) rest

/-- Generic left-to-right scan-and-replace, the model of `re.sub`. -/
def scanM {σ : Type} (m : Matcher σ) (st : σ → Char → σ) (q : σ) (s : List Char) : List Char :=
  scanGo m st s.length q s

/-- A matcher shrinks when every successful match consumes at least one
character of the input. -/
def Shrinking {σ : Type} (m : Matcher σ) : Prop :=
  ∀ q s r q2 u, m q s = some (r, q2, u) → u.length < s.length

/-! ### The dialect-specific repair functions of `flowchart_generator.py` -/

/-- Matcher of `re.sub(r'\s*--\s*', ' -- ', code)`: optional whitespace,
two dashes, optional whitespace; the whitespace runs are maximal by
greediness. -/
def mDash : Matcher Unit := fun _ s =>
  match s.dropWhile isPyWs with
  | '-' :: '-' :: t => some (chars " -- ", (), t.dropWhile isPyWs)
  | _ => none

/-- Matcher of `re.sub(r'\s*-->\s*', ' --> ', code)`. -/
def mArrow : Matcher Unit := fun _ s =>
  match s.dropWhile isPyWs with
  | '-' :: '-' :: '>' :: t => some (chars " --> ", (), t.dropWhile isPyWs)
  | _ => none

/-- Trivial state transition for stateless matchers. -/
def stU : Unit → Char → Unit := fun _ _ => ()

/-- `fix_sankey` of the source: normalize spacing around `--`, then
around `-->`. -/
def fix_sankey (code : List Char) : List Char :=
  scanM mArrow stU () (scanM mDash stU () code)

/-- Matcher of `re.sub(r'(quadrant)\s+(\d+):', r'\1\2:', code)`: the
literal `quadrant`, mandatory whitespace, digits, then a colon; the
replacement drops the whitespace. -/
def mQuad : Matcher Unit := fun _ s =>
  if (chars "quadrant").isPrefixOf s then
    let s1 := s.drop 8
    if s1.takeWhile isPyWs = [] then none
    else
      let s2 := s1.dropWhile isPyWs
      let d := s2.takeWhile Char.isDigit
      if d = [] then none
      else
        match s2.dropWhile Char.isDigit with
        | ':' :: u => some (chars "quadrant" ++ d ++ [':'], (), u)
        | _ => none
  else none

/-- `fix_quadrant_chart` of the source. -/
def fix_quadrant_chart (code : List Char) : List Char :=
  scanM mQuad stU () code

/-- Matcher of `re.sub(r'(xAxis|yAxis)\s+label:', r'\1 label:', code)`. -/
def mXY : Matcher Unit := fun _ s =>
  let go : List Char → Option (List Char × Unit × List Char) := fun tok =>
    let s1 := s.drop 5
    if s1.takeWhile isPyWs = [] then none
    else
      let s2 := s1.dropWhile isPyWs
      if (chars "label:").isPrefixOf s2 then
        some (tok ++ chars " label:", (), s2.drop 6)
      else none
  if (chars "xAxis").isPrefixOf s then go (chars "xAxis")
  else if (chars "yAxis").isPrefixOf s then go (chars "yAxis")
  else none

/-- `fix_xy_chart` of the source. -/
def fix_xy_chart (code : List Char) : List Char :=
  scanM mXY stU () code

/-- Matcher of `re.sub(r'\{\s*', '{\n  ', code)`: a left brace and the
(maximal) whitespace run after it. -/
def mOpenBrace : Matcher Unit := fun _ s =>
  match s with
  | c :: t => if c = lbrace then some ([lbrace, '\n', ' ', ' '], (), t.dropWhile isPyWs) else none
  | [] => none

/-- Matcher of `re.sub(r'\s*\}', '\n}', code)`: a (maximal) whitespace
run followed by a right brace. -/
def mCloseBrace : Matcher Unit := fun _ s =>
  match s.dropWhile isPyWs with
  | c :: t => if c = rbrace then some (['\n', rbrace], (), t) else none
  | [] => none

/-- `fix_requirement_diagram` of the source: apply the open-brace
substitution, then the close-brace substitution. -/
def fix_requirement_diagram (code : List Char) : List Char :=
  scanM mCloseBrace stU () (scanM mOpenBrace stU () code)

/-- Test for the member-marker class `[+\-#]` of the class-diagram
pattern. -/
def isMarker (c : Char) : Bool :=
  c = '+' || c = '-' || c = '#'

/-- Matcher of
`re.sub(r'^(class\s+\w+)([+\-#].+)$', repl, code, flags=re.MULTILINE)`:
at a line start (tracked by the scanner state), the literal `class`,
mandatory whitespace (which may span newlines), a word, a member marker
and at least one further character up to the end of the line.  The
replacement wraps the member text in braces unless the matched text
already contains a brace, exactly as `repl` does in the source. -/
def mClass : Matcher Bool := fun q s =>
  if q then
    if (chars "class").isPrefixOf s then
      let s1 := s.drop 5
      let w := s1.takeWhile isPyWs
      if w = [] then none
      else
        let s2 := s1.dropWhile isPyWs
        let wd := s2.takeWhile isWordChar
        if wd = [] then none
        else
          match s2.dropWhile isWordChar with
          | mk :: s3 =>
            if isMarker mk then
              let tl := s3.takeWhile (fun c => !(c = '\n'))
              if tl = [] then none
              else
                let u := s3.dropWhile (fun c => !(c = '\n'))
                let g0 := chars "class" ++ w ++ wd ++ mk :: tl
                let g1 := chars "class" ++ w ++ wd
                let g2 := mk :: tl
                some
                  ((if g0.contains lbrace then g0
                    else g1 ++ (' ' :: lbrace :: chars "\n  ") ++ g2 ++ ['\n', rbrace]),
                    false, u)
            else none
          | [] => none
    else none
  else none

/-- State transition tracking whether the next position is a line start
(for the `re.MULTILINE` anchor `^`). -/
def stLine : Bool → Char → Bool := fun _ c => c = '\n'

/-- The `fix_class_diagram_syntax` function of the source. -/
def fix_class_diagram_syntax (code : List Char) : List Char :=
  scanM mClass stLine true code

/-- Python `str.splitlines()` restricted to the line terminators that can
appear here: `\r\n`, `\r`, `\n`, vertical tab, form feed and the other
ASCII line breaks.  A trailing terminator does not open a final empty
line. -/
def isLineBreak (c : Char) : Bool :=
  c = '\n' || c = '\r' || c = Char.ofNat 11 || c = Char.ofNat 12 ||
  c = Char.ofNat 28 || c = Char.ofNat 29 || c = Char.ofNat 30 || c = Char.ofNat 133

/-- Worker for `pySplitlines`. -/
def splitlinesGo : List Char → List Char → List (List Char)
  | acc, [] => [acc.reverse]
  | acc, '\r' :: '\n' :: rest => acc.reverse :: splitlinesGo [] rest
  | acc, c :: rest =>
    if isLineBreak c then acc.reverse :: splitlinesGo [] rest
    else splitlinesGo (c :: acc) rest

/-- Python `str.splitlines()`: empty input gives no lines; otherwise
split at the terminators, a trailing terminator closing the last line. -/
def pySplitlines (s : List Char) : List (List Char) :=
  match s with
  | [] => []
  | _ =>
    match (splitlinesGo [] s).reverse with
    | [] :: rest => rest.reverse
    | ls => ls.reverse

/-- Split a line at every colon (Python `line.split(":")`). -/
def splitColon : List Char → List (List Char)
  | [] => [[]]
  | c :: rest =>
    if c = ':' then [] :: splitColon rest
    else
      match splitColon rest with
      | [] => [[c]]
      | l :: ls => (c :: l) :: ls

/-- Join fields with a colon (Python `":".join`). -/
def joinColon : List (List Char) → List Char
  | [] => []
  | [l] => l
  | l :: ls => l ++ ':' :: joinColon ls

/-- Test of `re.match(r'^\s+\S+', line)`: the line starts with whitespace
and contains a non-whitespace character. -/
def isIndentedStep (l : List Char) : Bool :=
  match l with
  | [] => false
  | c :: _ => isPyWs c && !(l.dropWhile isPyWs).isEmpty

/-- Per-line transformation of `fix_journey`: a line that looks like an
indented journey step and contains more than two colons is rebuilt from
its colon-separated fields, keeping only the last two fields distinct. -/
def journeyLine (l : List Char) : List Char :=
  if isIndentedStep l && 2 < l.count ':' then
    match (splitColon l).reverse with
    | a :: v :: restRev =>
      pyStrip (joinColon restRev.reverse) ++ chars ": " ++ pyStrip v ++ chars ": " ++ pyStrip a
    | _ => l
  else l

/-- The `fix_journey` function of the source: split into lines, fix the
step lines, and join the lines with newlines. -/
def fix_journey (code : List Char) : List Char :=
  joinNl ((pySplitlines code).map journeyLine)

/-- Prefix test used by `post_process_code` (`str.startswith`). -/
def startsWith (p : String) (s : List Char) : Bool :=
  (chars p).isPrefixOf s

/-- The `post_process_code` dispatcher of the source: each repair runs
when the current code text starts with its diagram keyword. -/
def post_process_code (code : List Char) : List Char :=
  let c1 := if startsWith "classDiagram" code then fix_class_diagram_syntax code else code
  let c2 := if startsWith "quadrantChart" c1 then fix_quadrant_chart c1 else c1
  let c3 := if startsWith "sankey" c2 then fix_sankey c2 else c2
  let c4 := if startsWith "journey" c3 then fix_journey c3 else c3
  let c5 := if startsWith "xyChart" c4 then fix_xy_chart c4 else c4
  if startsWith "requirementDiagram" c5 then fix_requirement_diagram c5 else c5

/-! ### The quote-normalization and fence-stripping steps of `process_query` -/

/-- Matcher of `re.sub(r"'(?=\s*:)", '"', cleaned)`: a single quote whose
lookahead (optional whitespace then a colon) succeeds; only the quote
itself is consumed. -/
def mQuote : Matcher Unit := fun _ s =>
  match s with
  | c :: t =>
    if c = squote then
      match t.dropWhile isPyWs with
      | d :: _ => if d = ':' then some ([dquote], (), t) else none
      | [] => none
    else none
  | [] => none

/-- Quote normalization (Step 2 of the pipeline). -/
def quoteNorm (s : List Char) : List Char :=
  scanM mQuote stU () s

/-- Case-insensitive test that `s` begins with the four letters `json`
(for the optional group of the fence pattern, compiled with
`re.IGNORECASE`). -/
def isJsonTag (s : List Char) : Bool :=
  ((s.take 4).map Char.toLower) = chars "json"

/-- Test of the `re.MULTILINE` anchor `$`: at the end of the text or just
before a newline. -/
def atLineEnd (s : List Char) : Bool :=
  match s with
  | [] => true
  | c :: _ => c = '\n'

/-- Matcher of
`re.sub(r'^```(json)?|```$', '', raw, flags=re.MULTILINE | re.IGNORECASE)`:
at a line start, three backticks with an optional case-insensitive `json`
tag; anywhere, three backticks at a line end.  The replacement is
empty. -/
def mFence : Matcher Bool := fun q s =>
  if q && (chars "```").isPrefixOf s then
    if isJsonTag (s.drop 3) then some ([], false, s.drop 7)
    else some ([], false, s.drop 3)
  else if (chars "```").isPrefixOf s && atLineEnd (s.drop 3) then
    some ([], false, s.drop 3)
  else none

/-- Fence stripping (Step 1 of the pipeline). -/
def stripFences (s : List Char) : List Char :=
  scanM mFence stLine true s

/-- Object extraction of Step 3, `re.search(r'({.*})', cleaned, re.DOTALL)`:
the span from the first left brace to the last right brace, provided the
first left brace precedes some right brace. -/
def extractJson (s : List Char) : Option (List Char) :=
  match s.dropWhile (fun c => !(c = lbrace)) with
  | [] => none
  | c :: t =>
    match ((c :: t).reverse.dropWhile (fun d => !(d = rbrace))) with
    | [] => none
    | r => some r.reverse

/-! ### JSON values and a strict JSON parser (model of `json.loads`) -/

/-- Python objects that can come out of `json.loads`, together with the
dictionaries built by the pipeline.  Numbers keep their source lexeme. -/
inductive JVal where
  | jnull : JVal
  | jbool : Bool → JVal
  | jnum : List Char → JVal
  | jstr : List Char → JVal
  | jarr : List JVal → JVal
  | jobj : List (List Char × JVal) → JVal

/-- Whitespace skipped by Python's JSON parser: space, tab, newline,
carriage return. -/
def isJsonWs (c : Char) : Bool :=
  c = ' ' || c = '\t' || c = '\n' || c = '\r'

/-- Insert a key/value pair as Python `dict` construction does: an
existing key keeps its position and receives the new value, a new key is
appended. -/
def objInsert (fs : List (List Char × JVal)) (k : List Char) (v : JVal) :
    List (List Char × JVal) :=
  if fs.any (fun p => p.1 = k) then
    fs.map (fun p => if p.1 = k then (k, v) else p)
  else fs ++ [(k, v)]

/-- Hexadecimal digit value, if any. -/
def hexVal (c : Char) : Option Nat :=
  let n := c.toNat
  if 48 ≤ n ∧ n ≤ 57 then some (n - 48)
  else if 97 ≤ n ∧ n ≤ 102 then some (n - 87)
  else if 65 ≤ n ∧ n ≤ 70 then some (n - 55)
  else none

/-- JSON number lexeme: optional minus, `0` or a nonzero-led digit run,
optional fraction, optional exponent.  Returns the lexeme and the rest. -/
def numLex (s : List Char) : Option (List Char × List Char) :=
  let core : List Char → Option (List Char × List Char) := fun t =>
    match t with
    | [] => none
    | c :: t2 =>
      if c = '0' then some ([c], t2)
      else if c.isDigit then
        some (c :: t2.takeWhile Char.isDigit, t2.dropWhile Char.isDigit)
      else none
  let frac : List Char → (List Char × List Char) := fun t =>
    match t with
    | '.' :: t2 =>
      match t2.takeWhile Char.isDigit with
      | [] => ([], t)
      | d => ('.' :: d, t2.dropWhile Char.isDigit)
    | _ => ([], t)
  let expo : List Char → (List Char × List Char) := fun t =>
    match t with
    | c :: t2 =>
      if c = 'e' || c = 'E' then
        let (sgn, t3) :=
          match t2 with
          | s2 :: t3 => if s2 = '+' || s2 = '-' then ([s2], t3) else ([], t2)
          | [] => ([], t2)
        match t3.takeWhile Char.isDigit with
        | [] => ([], t)
        | d => (c :: (sgn ++ d), t3.dropWhile Char.isDigit)
      else ([], t)
    | [] => ([], t)
  match s with
  | '-' :: t =>
    match core t with
    | some (ip, r1) =>
      let (fp, r2) := frac r1
      let (ep, r3) := expo r2
      some ('-' :: (ip ++ fp ++ ep), r3)
    | none => none
  | t =>
    match core t with
    | some (ip, r1) =>
      let (fp, r2) := frac r1
      let (ep, r3) := expo r2
      some (ip ++ fp ++ ep, r3)
    | none => none

mutual

/-- Fueled JSON value parser (strict JSON, as `json.loads`). -/
def parseVal : Nat → List Char → Except (List Char) (JVal × List Char)
  | 0, _ => .error (chars "fuel exhausted")
  | Nat.succ n, s =>
    match s.dropWhile isJsonWs with
    | [] => .error (chars "Expecting value")
    | c :: t =>
      if c = lbrace then
        match t.dropWhile isJsonWs with
        | c2 :: t2 =>
          if c2 = rbrace then .ok (.jobj [], t2)
          else parseMembers n [] (t.dropWhile isJsonWs)
        | [] => .error (chars "Expecting property name enclosed in double quotes")
      else if c = '[' then
        match t.dropWhile isJsonWs with
        | c2 :: t2 =>
          if c2 = ']' then .ok (.jarr [], t2)
          else parseElems n [] (t.dropWhile isJsonWs)
        | [] => .error (chars "Expecting value")
      else if c = dquote then
        match parseStrBody n t with
        | .ok (cs, rest) => .ok (.jstr cs, rest)
        | .error e => .error e
      else if c = 't' then
        if (chars "rue").isPrefixOf t then .ok (.jbool true, t.drop 3)
        else .error (chars "Expecting value")
      else if c = 'f' then
        if (chars "alse").isPrefixOf t then .ok (.jbool false, t.drop 4)
        else .error (chars "Expecting value")
      else if c = 'n' then
        if (chars "ull").isPrefixOf t then .ok (.jnull, t.drop 3)
        else .error (chars "Expecting value")
      else
        match numLex (c :: t) with
        | some (lex, rest) => .ok (.jnum lex, rest)
        | none => .error (chars "Expecting value")

/-- Fueled parser for the body of a JSON string (after the opening
quote), handling the escape sequences of strict JSON and rejecting raw
control characters. -/
def parseStrBody : Nat → List Char → Except (List Char) (List Char × List Char)
  | 0, _ => .error (chars "fuel exhausted")
  | Nat.succ n, s =>
    match s with
    | [] => .error (chars "Unterminated string")
    | c :: t =>
      if c = dquote then .ok ([], t)
      else if c = bslash then
        match t with
        | [] => .error (chars "Unterminated string")
        | e :: t2 =>
          let simple : Option Char :=
            if e = dquote then some dquote
            else if e = bslash then some bslash
            else if e = '/' then some '/'
            else if e = 'b' then some (Char.ofNat 8)
            else if e = 'f' then some (Char.ofNat 12)
            else if e = 'n' then some '\n'
            else if e = 'r' then some '\r'
            else if e = 't' then some '\t'
            else none
          match simple with
          | some d =>
            match parseStrBody n t2 with
            | .ok (cs, rest) => .ok (d :: cs, rest)
            | .error err => .error err
          | none =>
            if e = 'u' then
              match t2 with
              | h1 :: h2 :: h3 :: h4 :: t3 =>
                match hexVal h1, hexVal h2, hexVal h3, hexVal h4 with
                | some a, some b, some c3, some d4 =>
                  let code := ((a * 16 + b) * 16 + c3) * 16 + d4
                  let ch := if h : code.isValidChar then Char.ofNatAux code h else Char.ofNat 0
                  match parseStrBody n t3 with
                  | .ok (cs, rest) => .ok (ch :: cs, rest)
                  | .error err => .error err
                | _, _, _, _ => .error (chars "Invalid \\uXXXX escape")
              | _ => .error (chars "Invalid \\uXXXX escape")
            else .error (chars "Invalid \\escape")
      else if c.toNat < 32 then .error (chars "Invalid control character")
      else
        match parseStrBody n t with
        | .ok (cs, rest) => .ok (c :: cs, rest)
        | .error err => .error err

/-- Fueled parser for the members of a JSON object, positioned at a
property name. -/
def parseMembers : Nat → List (List Char × JVal) → List Char →
    Except (List Char) (JVal × List Char)
  | 0, _, _ => .error (chars "fuel exhausted")
  | Nat.succ n, acc, s =>
    match s with
    | c :: t =>
      if c = dquote then
        match parseStrBody n t with
        | .error e => .error e
        | .ok (key, r1) =>
          match r1.dropWhile isJsonWs with
          | ':' :: r2 =>
            match parseVal n r2 with
            | .error e => .error e
            | .ok (v, r3) =>
              let acc2 := objInsert acc key v
              match r3.dropWhile isJsonWs with
              | ',' :: r4 => parseMembers n acc2 (r4.dropWhile isJsonWs)
              | c5 :: r5 =>
                if c5 = rbrace then .ok (.jobj acc2, r5)
                else .error (chars "Expecting ',' delimiter")
              | [] => .error (chars "Expecting ',' delimiter")
          | _ => .error (chars "Expecting ':' delimiter")
      else .error (chars "Expecting property name enclosed in double quotes")
    | [] => .error (chars "Expecting property name enclosed in double quotes")

/-- Fueled parser for the elements of a JSON array, positioned at a
value. -/
def parseElems : Nat → List JVal → List Char → Except (List Char) (JVal × List Char)
  | 0, _, _ => .error (chars "fuel exhausted")
  | Nat.succ n, acc, s =>
    match parseVal n s with
    | .error e => .error e
    | .ok (v, r1) =>
      match r1.dropWhile isJsonWs with
      | ',' :: r2 => parseElems n (acc ++ [v]) r2
      | c3 :: r3 =>
        if c3 = ']' then .ok (.jarr (acc ++ [v]), r3)
        else .error (chars "Expecting ',' delimiter")
      | [] => .error (chars "Expecting ',' delimiter")

end

/-- Model of `json.loads`: parse one value and require only whitespace
after it. -/
def json_loads (s : List Char) : Except (List Char) JVal :=
  match parseVal (s.length + 1) s with
  | .ok (v, rest) =>
    if rest.dropWhile isJsonWs = [] then .ok v else .error (chars "Extra data")
  | .error e => .error e

/-! ### The remaining steps of `process_query` and the HTTP-layer check -/

/-- Python type name of a `JVal` (used in `AttributeError` messages). -/
def pyTypeName : JVal → List Char
  | .jnull => chars "NoneType"
  | .jbool _ => chars "bool"
  | .jnum lex =>
    if lex.any (fun c => c = '.' || c = 'e' || c = 'E') then chars "float" else chars "int"
  | .jstr _ => chars "str"
  | .jarr _ => chars "list"
  | .jobj _ => chars "dict"

/-- Substring test (Python `in` on strings). -/
def isSubstring (p s : List Char) : Bool :=
  p.isPrefixOf s ||
    match s with
    | [] => false
    | _ :: t => isSubstring p t

/-- Python `key in data`: key membership for dictionaries, element
equality for lists, substring for strings; other values raise
`TypeError`. -/
def py_in (key : List Char) : JVal → Except (List Char) Bool
  | .jobj fs => .ok (fs.any (fun p => p.1 = key))
  | .jarr xs =>
    .ok (xs.any (fun x => match x with | .jstr s => s = key | _ => false))
  | .jstr s => .ok (isSubstring key s)
  | v => .error (chars "argument of type '" ++ pyTypeName v ++ chars "' is not iterable")

/-- Python `data[key]` subscription: dictionary lookup (`KeyError` when
absent), `TypeError` on the other values that can reach this point. -/
def objGetE (key : List Char) : JVal → Except (List Char) JVal
  | .jobj fs =>
    match fs.find? (fun p => p.1 = key) with
    | some p => .ok p.2
    | none => .error (squote :: key ++ [squote])
  | .jstr _ => .error (chars "string indices must be integers")
  | .jarr _ => .error (chars "list indices must be integers or slices, not str")
  | v => .error (squote :: pyTypeName v ++ chars "' object is not subscriptable")

/-- Python `value.replace(...)` receiver check: only strings have
`replace`; anything else raises `AttributeError`. -/
def asStr : JVal → Except (List Char) (List Char)
  | .jstr s => .ok s
  | v => .error (squote :: pyTypeName v ++ chars "' object has no attribute 'replace'")

/-- Field lookup in a parsed object (value of the first binding of the
key). -/
def getField (fs : List (List Char × JVal)) (k : List Char) : Option JVal :=
  (fs.find? (fun p => p.1 = k)).map (fun p => p.2)

/-- Python `data[k] = v` on a dictionary: replace the value of an
existing key in place, append a new key at the end. -/
def objSet (fs : List (List Char × JVal)) (k : List Char) (v : JVal) :
    List (List Char × JVal) :=
  if fs.any (fun p => p.1 = k) then fs.map (fun p => if p.1 = k then (k, v) else p)
  else fs ++ [(k, v)]

/-- Python `code.replace('\\n', '\n')`: every two-character sequence
backslash–`n` becomes a newline. -/
def replaceBackslashN : List Char → List Char
  | [] => []
  | [c] => [c]
  | a :: b :: t =>
    if a = bslash && b = 'n' then '\n' :: replaceBackslashN t
    else a :: replaceBackslashN (b :: t)

/-- The recognized diagram-type keywords of the validation regex (same
list in `process_query` and in `validate_mermaid`). -/
def mermaidKeywords : List (List Char) :=
  [chars "graph", chars "classDiagram", chars "sequenceDiagram", chars "erDiagram",
   chars "gantt", chars "mindmap", chars "stateDiagram-v2", chars "timeline",
   chars "gitGraph", chars "C4Context", chars "sankey", chars "flowchart",
   chars "pie", chars "quadrantChart", chars "requirementDiagram", chars "journey",
   chars "xyChart"]

/-- Test that a text begins, after optional whitespace, with one of the
recognized keywords (the pattern `^\s*(graph|...|xyChart)`). -/
def startsKW (t : List Char) : Bool :=
  mermaidKeywords.any (fun k => k.isPrefixOf (t.dropWhile isPyWs))

/-- The Step 7 validation of `process_query`:
`re.search(r'^\s*(graph|...)', code)` without `re.MULTILINE`, so the
anchor `^` only matches at the very start of the text. -/
def validSyntax (code : List Char) : Bool :=
  startsKW code

/-- The `validate_mermaid` function of `app.py`: the same pattern
compiled with `re.MULTILINE`, so the anchor matches at every line start;
the search succeeds exactly when some line passes the prefix test. -/
def validate_mermaid (code : List Char) : Bool :=
  (splitNl code).any startsKW

/-- Dictionary carrying one `error` entry. -/
def errorObj (msg : List Char) : JVal :=
  .jobj [(chars "error", .jstr msg)]

/-- The fallible part of `process_query` on the text of the LLM response:
steps 1–7 of the pipeline.  A `.error` result is a Python exception that
the surrounding `try` of the source converts into a `Processing Error`
dictionary; `.ok` results are the explicit returns of the source. -/
def pipeline (resp : List Char) : Except (List Char) JVal :=
  let raw := pyStrip resp
  let cleaned := quoteNorm (stripFences raw)
  match extractJson cleaned with
  | none => .ok (errorObj (chars "Could not find valid JSON in response:\n" ++ cleaned))
  | some json_str =>
    match json_loads json_str with
    | .error e =>
      .ok (errorObj (chars "JSON Error: " ++ e ++ chars "\nExtracted JSON: " ++ json_str))
    | .ok data =>
      match py_in (chars "code") data with
      | .error e => .error e
      | .ok false => .ok data
      | .ok true =>
        match objGetE (chars "code") data with
        | .error e => .error e
        | .ok v =>
          match asStr v with
          | .error e => .error e
          | .ok code0 =>
            let code2 := post_process_code (replaceBackslashN code0)
            match data with
            | .jobj fs =>
              if validSyntax code2 then .ok (.jobj (objSet fs (chars "code") (.jstr code2)))
              else .ok (errorObj (chars "Invalid diagram syntax"))
            | _ => .error (chars "unreachable")

/-- The `process_query` function of the source, as a function of the LLM
response text: the `try`/`except` of the source catches every exception
of steps 1–7 and wraps its message in a `Processing Error` dictionary. -/
def process_query (resp : List Char) : JVal :=
  match pipeline resp with
  | .ok v => v
  | .error e => errorObj (chars "Processing Error: " ++ e)

/-- Charwise description of quote normalization: a single quote is
replaced exactly when it is followed by optional whitespace and then a
colon; every other character is kept. -/
def quoteSpec : List Char → List Char
  | [] => []
  | c :: t =>
    (if c = squote &&
        (match t.dropWhile isPyWs with
         | d :: _ => d = ':'
         | [] => false)
      then dquote else c) :: quoteSpec t

/-- The reformatting of a journey step line as the specification words
it: the last and second-to-last colon-separated fields become value and
actor, everything before them is rejoined into the step description, and
each piece is trimmed. -/
def journeySpec (l : List Char) : List Char :=
  let parts := splitColon l
  pyStrip (joinColon parts.dropLast.dropLast) ++ chars ": " ++
    pyStrip ((parts.dropLast.getLast?).getD []) ++ chars ": " ++
    pyStrip ((parts.getLast?).getD [])

/-! ### Normal-form predicates used in the idempotence proofs -/

/-- Every character of the list satisfies the class test. -/
def AllB (p : Char → Bool) (l : List Char) : Prop :=
  ∀ c ∈ l, p c = true

/-- Match of `\s*--\s*` somewhere at the head of `s` (possibly after
leading whitespace): exactly the condition under which `mDash` fires. -/
def DashAt (s : List Char) : Prop :=
  ∃ t, s.dropWhile isPyWs = '-' :: '-' :: t

/-- Match of `\s*\}` at the head of `s`. -/
def CloseAt (s : List Char) : Prop :=
  ∃ t, s.dropWhile isPyWs = rbrace :: t

mutual

/-- Normal forms of the `\s*--\s*` substitution: outputs of the scan,
built from copied characters (at which no match starts) and emitted
blocks. -/
inductive GSd : List Char → Prop where
  | nil : GSd []
  | copy : ∀ c z, GSd z → ¬ DashAt (c :: z) → GSd (c :: z)
  | blk : ∀ z, BSd z → GSd z

/-- Block-led normal forms: an emitted ` -- ` block followed by a legal
follower (nothing, a non-whitespace copy, or another block). -/
inductive BSd : List Char → Prop where
  | mkNil : BSd (chars " -- ")
  | mkCons : ∀ c t, GSd (c :: t) → isPyWs c = false → ¬ DashAt (c :: t) →
      BSd (chars " -- " ++ c :: t)
  | mkChain : ∀ z, BSd z → BSd (chars " -- " ++ z)

end

/-- Normal forms of `fix_requirement_diagram`: the image of the composed
open-brace and close-brace substitutions. -/
inductive GoodReq : List Char → Prop where
  | nil : GoodReq []
  | copy : ∀ c z, GoodReq z → ¬ c = lbrace → ¬ CloseAt (c :: z) → GoodReq (c :: z)
  | openBlk : ∀ z, GoodReq z →
      (z = [] ∨ ∃ c t, z = c :: t ∧ isPyWs c = false ∧ ¬ c = rbrace) →
      GoodReq (lbrace :: '\n' :: ' ' :: ' ' :: z)
  | openClose : ∀ z, GoodReq z → GoodReq (lbrace :: '\n' :: rbrace :: z)
  | closeBlk : ∀ z, GoodReq z → GoodReq ('\n' :: rbrace :: z)

/-- Digit stage of the quadrant pattern: `\d*` then the colon. -/
def QD (s : List Char) : Prop :=
  ∃ d u, s = d ++ ':' :: u ∧ AllB Char.isDigit d

/-- Whitespace-star stage of the quadrant pattern: `\s*\d+:`. -/
def QS (s : List Char) : Prop :=
  ∃ w d u, s = w ++ d ++ ':' :: u ∧ AllB isPyWs w ∧ d ≠ [] ∧ AllB Char.isDigit d

/-- Mandatory-whitespace stage of the quadrant pattern: `\s+\d+:`. -/
def QW (s : List Char) : Prop :=
  ∃ w d u, s = w ++ d ++ ':' :: u ∧ w ≠ [] ∧ AllB isPyWs w ∧ d ≠ [] ∧ AllB Char.isDigit d

/-- Literal stage of the quadrant pattern: a suffix of `quadrant`
followed by `\s+\d+:`. -/
def QLit (lit s : List Char) : Prop :=
  ∃ rest, s = lit ++ rest ∧ QW rest

/-- Trailing-literal stage of the axis-label pattern: a suffix of
`label:`. -/
def XL (lit s : List Char) : Prop :=
  ∃ u, s = lit ++ u

/-- Whitespace-star stage of the axis-label pattern: `\s*label:`. -/
def XS (s : List Char) : Prop :=
  ∃ w u, s = w ++ chars "label:" ++ u ∧ AllB isPyWs w

/-- Mandatory-whitespace stage of the axis-label pattern: `\s+label:`. -/
def XW (s : List Char) : Prop :=
  ∃ w u, s = w ++ chars "label:" ++ u ∧ w ≠ [] ∧ AllB isPyWs w

/-- Leading-literal stage of the axis-label pattern: a suffix of `xAxis`
or of `yAxis` followed by `\s+label:`. -/
def XLit (lit s : List Char) : Prop :=
  ∃ rest, s = lit ++ rest ∧ XW rest

/-- Line-end condition of the `$` anchor after the class-member text. -/
def LineEndAt (u : List Char) : Prop :=
  u = [] ∨ ∃ t, u = '\n' :: t

/-- Tail stage of the class pattern: `.+$`. -/
def CT (s : List Char) : Prop :=
  ∃ tl u, s = tl ++ u ∧ tl ≠ [] ∧ AllB (fun c => !(c = '\n')) tl ∧ LineEndAt u

/-- Marker-and-tail stage of the class pattern: `\w*[+\-#].+$`. -/
def CWd (s : List Char) : Prop :=
  ∃ wd mk tl u, s = wd ++ mk :: tl ++ u ∧ AllB isWordChar wd ∧ isMarker mk = true ∧
    tl ≠ [] ∧ AllB (fun c => !(c = '\n')) tl ∧ LineEndAt u

/-- Whitespace-star stage of the class pattern: `\s*\w+[+\-#].+$`. -/
def CS (s : List Char) : Prop :=
  ∃ w wd mk tl u, s = w ++ wd ++ mk :: tl ++ u ∧ AllB isPyWs w ∧
    wd ≠ [] ∧ AllB isWordChar wd ∧ isMarker mk = true ∧
    tl ≠ [] ∧ AllB (fun c => !(c = '\n')) tl ∧ LineEndAt u

/-- Mandatory-whitespace stage of the class pattern: `\s+\w+[+\-#].+$`. -/
def CW (s : List Char) : Prop :=
  ∃ w wd mk tl u, s = w ++ wd ++ mk :: tl ++ u ∧ w ≠ [] ∧ AllB isPyWs w ∧
    wd ≠ [] ∧ AllB isWordChar wd ∧ isMarker mk = true ∧
    tl ≠ [] ∧ AllB (fun c => !(c = '\n')) tl ∧ LineEndAt u

/-- Literal stage of the class pattern: a suffix of `class` followed by
the rest of the member pattern. -/
def CLit (lit s : List Char) : Prop :=
  ∃ rest, s = lit ++ rest ∧ CW rest

/-- Position-by-position absence of matches along a segment, tracking the
scanner state through the segment's characters. -/
def NoMatchSeg {σ : Type} (m : Matcher σ) (st : σ → Char → σ) :
    σ → List Char → List Char → Prop
  | _, [], _ => True
  | q, c :: a, t => m q (c :: (a ++ t)) = none ∧ NoMatchSeg m st (st q c) a t

/-- The replacement block emitted by the class-diagram matcher for a
match with whitespace `w`, word `wd`, marker `mk` and member text `tl`. -/
def classBlk (w wd : List Char) (mk : Char) (tl : List Char) : List Char :=
  if (chars "class" ++ w ++ wd ++ mk :: tl).contains lbrace then
    chars "class" ++ w ++ wd ++ mk :: tl
  else
    (chars "class" ++ w ++ wd) ++ (' ' :: lbrace :: chars "\n  ") ++ (mk :: tl) ++
      ['\n', rbrace]

/-! ## Theorems about the claims -/

/-! ### Basic properties of the generic scanner -/

theorem length_dropWhile_le (p : Char → Bool) (l : List Char) :
    (l.dropWhile p).length ≤ l.length := by
  induction l with
  | nil => simp [List.dropWhile]
  | cons a t ih =>
    by_cases h : p a
    · simp only [List.dropWhile_cons_of_pos h]
      exact Nat.le_succ_of_le ih
    · simp [List.dropWhile_cons_of_neg h]

theorem scanGo_fuel {σ : Type} (m : Matcher σ) (st : σ → Char → σ) (hm : Shrinking m) :
    ∀ n1 n2 q s, s.length ≤ n1 → s.length ≤ n2 →
      scanGo m st n1 q s = scanGo m st n2 q s := by
  intro n1
  induction n1 with
  | zero =>
    intro n2 q s h1 _
    have hs : s = [] := List.length_eq_zero.mp (Nat.le_zero.mp h1)
    subst hs
    cases n2 <;> rfl
  | succ n ih =>
    intro n2 q s h1 h2
    cases s with
    | nil => cases n2 <;> rfl
    | cons c rest =>
      cases n2 with
      | zero => exact absurd h2 (by simp)
      | succ n2' =>
        simp only [scanGo]
        cases hmc : m q (c :: rest) with
        | none =>
          simp only [List.length_cons] at h1 h2
          rw [ih n2' (st q c) rest (Nat.lt_succ_iff.mp h1) (Nat.lt_succ_iff.mp h2)]
        | some t =>
          obtain ⟨r, q2, u⟩ := t
          have hu : u.length < (c :: rest).length := hm q (c :: rest) r q2 u hmc
          simp only [List.length_cons] at hu h1 h2
          show r ++ scanGo m st n q2 u = r ++ scanGo m st n2' q2 u
          rw [ih n2' q2 u (by omega) (by omega)]

theorem scanM_nil {σ : Type} (m : Matcher σ) (st : σ → Char → σ) (q : σ) :
    scanM m st q [] = [] := rfl

theorem scanM_match {σ : Type} (m : Matcher σ) (st : σ → Char → σ) (hm : Shrinking m)
    {q : σ} {c : Char} {s : List Char} {r : List Char} {q2 : σ} {u : List Char}
    (h : m q (c :: s) = some (r, q2, u)) :
    scanM m st q (c :: s) = r ++ scanM m st q2 u := by
  have hu : u.length < (c :: s).length := hm q (c :: s) r q2 u h
  simp only [scanM, List.length_cons, scanGo, h]
  rw [scanGo_fuel m st hm s.length u.length q2 u (by simpa [Nat.lt_succ_iff] using hu) le_rfl]

theorem scanM_nomatch {σ : Type} (m : Matcher σ) (st : σ → Char → σ)
    {q : σ} {c : Char} {s : List Char}
    (h : m q (c :: s) = none) :
    scanM m st q (c :: s) = c :: scanM m st (st q c) s := by
  simp only [scanM, List.length_cons, scanGo, h]


/-! ### Shrinking of the concrete matchers -/

theorem mDash_shrink : Shrinking mDash := by
  intro q s r q2 u h
  simp only [mDash] at h
  split at h
  next t hd =>
    simp only [Option.some.injEq, Prod.mk.injEq] at h
    obtain ⟨-, -, hu⟩ := h
    have h1 : t.length + 2 ≤ s.length := by
      have := length_dropWhile_le isPyWs s
      rw [hd] at this
      simpa using this
    have h2 : u.length ≤ t.length := by
      rw [← hu]; exact length_dropWhile_le isPyWs t
    omega
  next => exact absurd h (by simp)

theorem mArrow_shrink : Shrinking mArrow := by
  intro q s r q2 u h
  simp only [mArrow] at h
  split at h
  next t hd =>
    simp only [Option.some.injEq, Prod.mk.injEq] at h
    obtain ⟨-, -, hu⟩ := h
    have h1 : t.length + 3 ≤ s.length := by
      have := length_dropWhile_le isPyWs s
      rw [hd] at this
      simpa using this
    have h2 : u.length ≤ t.length := by
      rw [← hu]; exact length_dropWhile_le isPyWs t
    omega
  next => exact absurd h (by simp)

theorem mQuad_shrink : Shrinking mQuad := by
  intro q s r q2 u h
  simp only [mQuad] at h
  split at h
  next hp =>
    split at h
    next => exact absurd h (by simp)
    next hw =>
      split at h
      next => exact absurd h (by simp)
      next hdd =>
        split at h
        next t hdm =>
          simp only [Option.some.injEq, Prod.mk.injEq] at h
          obtain ⟨-, -, hu⟩ := h
          subst hu
          have h8 : 8 ≤ s.length := by
            have := List.IsPrefix.length_le (List.isPrefixOf_iff_prefix.mp hp)
            simpa [chars] using this
          have h1 : (s.drop 8).length = s.length - 8 := List.length_drop 8 s
          have h2 : ((s.drop 8).dropWhile isPyWs).length + 1 ≤ (s.drop 8).length := by
            rcases hwc : (s.drop 8) with _ | ⟨b, t2⟩
            · rw [hwc] at hw; exact absurd rfl hw
            · by_cases hb : isPyWs b
              · have := length_dropWhile_le isPyWs t2
                simp [List.dropWhile_cons_of_pos hb]
                omega
              · rw [hwc] at hw
                rw [List.takeWhile_cons_of_neg hb] at hw
                exact absurd rfl hw
          have h3 : t.length + 1 ≤ ((s.drop 8).dropWhile isPyWs).length := by
            have := length_dropWhile_le Char.isDigit ((s.drop 8).dropWhile isPyWs)
            rw [hdm] at this
            simpa using this
          omega
        next => exact absurd h (by simp)
  next => exact absurd h (by simp)

theorem mXY_shrink : Shrinking mXY := by
  intro q s r q2 u h
  simp only [mXY] at h
  have main : ∀ tok : List Char,
      (if (s.drop 5).takeWhile isPyWs = [] then none
       else
        if (chars "label:").isPrefixOf ((s.drop 5).dropWhile isPyWs) then
          some (tok ++ chars " label:", (), ((s.drop 5).dropWhile isPyWs).drop 6)
        else none) = some (r, q2, u) →
      u.length < s.length := by
    intro tok hh
    split at hh
    next => exact absurd hh (by simp)
    next hw =>
      split at hh
      next hl =>
        simp only [Option.some.injEq, Prod.mk.injEq] at hh
        obtain ⟨-, -, hu⟩ := hh
        have h2 : ((s.drop 5).dropWhile isPyWs).length + 1 ≤ (s.drop 5).length := by
          rcases hwc : (s.drop 5) with _ | ⟨b, t2⟩
          · rw [hwc] at hw; exact absurd rfl hw
          · by_cases hb : isPyWs b
            · have := length_dropWhile_le isPyWs t2
              simp [List.dropWhile_cons_of_pos hb]
              omega
            · rw [hwc] at hw
              rw [List.takeWhile_cons_of_neg hb] at hw
              exact absurd rfl hw
        have h3 : u.length = ((s.drop 5).dropWhile isPyWs).length - 6 := by
          rw [← hu]; exact List.length_drop 6 _
        have h4 : (s.drop 5).length ≤ s.length := by
          rw [List.length_drop]; omega
        have h6 : 6 ≤ ((s.drop 5).dropWhile isPyWs).length := by
          have := List.IsPrefix.length_le (List.isPrefixOf_iff_prefix.mp hl)
          simpa [chars] using this
        omega
      next => exact absurd hh (by simp)
  split at h
  next => exact main _ h
  next =>
    split at h
    next => exact main _ h
    next => exact absurd h (by simp)

theorem mOpenBrace_shrink : Shrinking mOpenBrace := by
  intro q s r q2 u h
  simp only [mOpenBrace] at h
  split at h
  next c t =>
    split at h
    next =>
      simp only [Option.some.injEq, Prod.mk.injEq] at h
      obtain ⟨-, -, hu⟩ := h
      have h0 := length_dropWhile_le isPyWs t
      have h2 : u.length ≤ t.length := by rw [← hu]; exact h0
      simp only [List.length_cons]
      omega
    next => exact absurd h (by simp)
  next => exact absurd h (by simp)

theorem mCloseBrace_shrink : Shrinking mCloseBrace := by
  intro q s r q2 u h
  simp only [mCloseBrace] at h
  split at h
  next a t hd =>
    split at h
    next =>
      simp only [Option.some.injEq, Prod.mk.injEq] at h
      obtain ⟨-, -, hu⟩ := h
      have h1 : t.length + 1 ≤ s.length := by
        have := length_dropWhile_le isPyWs s
        rw [hd] at this
        simpa using this
      have h2 : u.length ≤ t.length := by rw [← hu]
      omega
    next => exact absurd h (by simp)
  next => exact absurd h (by simp)

theorem mQuote_shrink : Shrinking mQuote := by
  intro q s r q2 u h
  simp only [mQuote] at h
  split at h
  next c t =>
    split at h
    next =>
      split at h
      next d t2 hd =>
        split at h
        next =>
          simp only [Option.some.injEq, Prod.mk.injEq] at h
          obtain ⟨-, -, hu⟩ := h
          subst hu
          simp
        next => exact absurd h (by simp)
      next => exact absurd h (by simp)
    next => exact absurd h (by simp)
  next => exact absurd h (by simp)

theorem mFence_shrink : Shrinking mFence := by
  intro q s r q2 u h
  simp only [mFence] at h
  have hpl : (chars "```").isPrefixOf s = true → 3 ≤ s.length := by
    intro hb
    have := List.IsPrefix.length_le (List.isPrefixOf_iff_prefix.mp hb)
    simpa [chars] using this
  split at h
  next h1 =>
    simp only [Bool.and_eq_true] at h1
    have h3 : 3 ≤ s.length := hpl h1.2
    split at h
    next hj =>
      simp only [Option.some.injEq, Prod.mk.injEq] at h
      obtain ⟨-, -, hu⟩ := h
      have hul : u.length = s.length - 7 := by rw [← hu]; exact List.length_drop 7 s
      have h7 : 4 ≤ (s.drop 3).length := by
        simp only [isJsonTag, decide_eq_true_eq] at hj
        have hj2 : (((s.drop 3).take 4).map Char.toLower).length = (chars "json").length :=
          congrArg List.length hj
        simp only [List.length_map, List.length_take, chars] at hj2
        have hmin := Nat.min_le_right 4 (s.drop 3).length
        have hj3 : min 4 (s.drop 3).length = 4 := by simpa using hj2
        omega
      rw [List.length_drop] at h7
      omega
    next =>
      simp only [Option.some.injEq, Prod.mk.injEq] at h
      obtain ⟨-, -, hu⟩ := h
      have hul : u.length = s.length - 3 := by rw [← hu]; exact List.length_drop 3 s
      omega
  next =>
    split at h
    next h2 =>
      simp only [Bool.and_eq_true] at h2
      have h3 : 3 ≤ s.length := hpl h2.1
      simp only [Option.some.injEq, Prod.mk.injEq] at h
      obtain ⟨-, -, hu⟩ := h
      have hul : u.length = s.length - 3 := by rw [← hu]; exact List.length_drop 3 s
      omega
    next => exact absurd h (by simp)

theorem mClass_shrink : Shrinking mClass := by
  intro q s r q2 u h
  simp only [mClass] at h
  split at h
  next =>
    split at h
    next hp =>
      split at h
      next => exact absurd h (by simp)
      next hw =>
        split at h
        next => exact absurd h (by simp)
        next hwd =>
          split at h
          next mk s3 hdm =>
            split at h
            next hmk =>
              split at h
              next => exact absurd h (by simp)
              next htl =>
                simp only [Option.some.injEq, Prod.mk.injEq] at h
                obtain ⟨-, -, hu⟩ := h
                have h5 : 5 ≤ s.length := by
                  have := List.IsPrefix.length_le (List.isPrefixOf_iff_prefix.mp hp)
                  simpa [chars] using this
                have hd5 : (s.drop 5).length = s.length - 5 := List.length_drop 5 s
                have h2 : ((s.drop 5).dropWhile isPyWs).length + 1 ≤ (s.drop 5).length := by
                  rcases hwc : (s.drop 5) with _ | ⟨b, t2⟩
                  · rw [hwc] at hw; exact absurd rfl hw
                  · by_cases hb : isPyWs b
                    · have := length_dropWhile_le isPyWs t2
                      simp [List.dropWhile_cons_of_pos hb]
                      omega
                    · rw [hwc] at hw
                      rw [List.takeWhile_cons_of_neg hb] at hw
                      exact absurd rfl hw
                have h3 : s3.length + 1 ≤ ((s.drop 5).dropWhile isPyWs).length := by
                  have := length_dropWhile_le isWordChar ((s.drop 5).dropWhile isPyWs)
                  rw [hdm] at this
                  simpa using this
                have h4 : u.length ≤ s3.length := by
                  rw [← hu]; exact length_dropWhile_le _ s3
                omega
            next => exact absurd h (by simp)
          next => exact absurd h (by simp)
    next => exact absurd h (by simp)
  next => exact absurd h (by simp)

/-- C3 evidence: `fix_sankey` does normalize a bare `--`, but the `-->`
of the second example is broken apart into `-- >` because the `--`
substitution runs first and consumes the dashes of every arrow; the
specified result `A --> B` is never produced. -/
theorem fix_sankey_arrow_mangled :
    fix_sankey (chars "A--B") = chars "A -- B" ∧
      fix_sankey (chars "A  -->  B") = chars "A -- >  B" ∧
      fix_sankey (chars "A  -->  B") ≠ chars "A --> B" := by
  refine ⟨rfl, rfl, ?_⟩
  decide

/-- C7 counterexample: in the text consisting of a single quote, a space
and a colon, the quote does not immediately precede the colon, yet Step 2
rewrites it to a double quote, so the step changes a character that the
claim says is left alone. -/
theorem quoteNorm_changes_spaced_quote :
    quoteNorm (chars "' :") = [dquote, ' ', ':'] ∧
      quoteNorm (chars "' :") ≠ chars "' :" := by
  refine ⟨rfl, ?_⟩
  decide

/-- C7 as amended: Step 2 rewrites to a double quote exactly those
single quotes that are followed by optional whitespace and then a colon,
and keeps every other character unchanged. -/
theorem quoteNorm_eq_quoteSpec : ∀ s, quoteNorm s = quoteSpec s := by
  intro s
  induction s with
  | nil => rfl
  | cons c t ih =>
    by_cases hq : c = squote
    · subst hq
      cases hd : t.dropWhile isPyWs with
      | nil =>
        have hm : mQuote () (squote :: t) = none := by
          simp [mQuote, hd]
        rw [quoteNorm, scanM_nomatch mQuote stU hm, ← quoteNorm, ih, quoteSpec, hd]
        simp
      | cons d t2 =>
        by_cases hcolon : d = ':'
        · subst hcolon
          have hm : mQuote () (squote :: t) = some ([dquote], (), t) := by
            simp [mQuote, hd]
          rw [quoteNorm, scanM_match mQuote stU mQuote_shrink hm, ← quoteNorm, ih,
            quoteSpec, hd]
          simp
        · have hm : mQuote () (squote :: t) = none := by
            simp [mQuote, hd, hcolon]
          rw [quoteNorm, scanM_nomatch mQuote stU hm, ← quoteNorm, ih, quoteSpec, hd]
          simp [hcolon]
    · have hm : mQuote () (c :: t) = none := by
        simp [mQuote, hq]
      rw [quoteNorm, scanM_nomatch mQuote stU hm, ← quoteNorm, ih, quoteSpec]
      simp [hq]

/-! ### Helper lemmas about lines and keywords -/

theorem splitNl_ne_nil (s : List Char) : splitNl s ≠ [] := by
  cases s with
  | nil => simp [splitNl]
  | cons c t =>
    simp only [splitNl]
    split
    · simp
    · split <;> simp

theorem joinNl_splitNl (s : List Char) : joinNl (splitNl s) = s := by
  induction s with
  | nil => rfl
  | cons c t ih =>
    simp only [splitNl]
    by_cases hc : c = '\n'
    · rw [if_pos hc]
      cases hsp : splitNl t with
      | nil => exact absurd hsp (splitNl_ne_nil t)
      | cons l ls =>
        rw [hsp] at ih
        simp only [joinNl, hc, ← ih]
        simp
    · rw [if_neg hc]
      cases hsp : splitNl t with
      | nil => exact absurd hsp (splitNl_ne_nil t)
      | cons l ls =>
        rw [hsp] at ih
        cases ls with
        | nil => simp only [joinNl] at ih ⊢; rw [ih]
        | cons l2 ls2 => simp only [joinNl] at ih ⊢; rw [List.cons_append, ih]

theorem prefix_of_append_newline {p a b : List Char} (hnl : '\n' ∉ p)
    (h : p <+: a ++ '\n' :: b) : p <+: a := by
  induction p generalizing a with
  | nil => exact List.nil_prefix
  | cons c p' ih =>
    cases a with
    | nil =>
      obtain ⟨t, ht⟩ := h
      simp only [List.nil_append, List.cons_append, List.cons.injEq] at ht
      simp only [List.mem_cons, not_or] at hnl
      exact absurd ht.1.symm hnl.1
    | cons x a' =>
      obtain ⟨t, ht⟩ := h
      simp only [List.cons_append, List.cons.injEq] at ht
      obtain ⟨hx, ht2⟩ := ht
      have hp' : p' <+: a' ++ '\n' :: b := ⟨t, ht2⟩
      have hres := ih (fun hm => hnl (List.mem_cons_of_mem c hm)) hp'
      rw [hx]
      exact (List.prefix_cons_inj x).mpr hres

theorem startsKW_cons_ws {c : Char} (t : List Char) (hc : isPyWs c = true) :
    startsKW (c :: t) = startsKW t := by
  simp only [startsKW, List.dropWhile_cons_of_pos hc]

theorem keywords_no_newline : ∀ k ∈ mermaidKeywords, '\n' ∉ k := by
  decide

/-- C4 counterexample: the two validations disagree on `junk\ngraph`:
Step 7 of `process_query` anchors at the start of the whole text and
rejects it, while `validate_mermaid` is compiled with `re.MULTILINE` and
accepts the keyword at the start of the second line. -/
theorem validate_mermaid_not_eq_validSyntax :
    validate_mermaid (chars "junk\ngraph") = true ∧
      validSyntax (chars "junk\ngraph") = false := by
  decide

/-- C4 as amended: `validate_mermaid` accepts every text that Step 7
accepts (the HTTP layer never rejects a code text that passed the
component's own validation), but it is strictly more permissive because
its `re.MULTILINE` anchor also matches at later line starts. -/
theorem validSyntax_imp_validate_mermaid :
    ∀ code, validSyntax code = true → validate_mermaid code = true := by
  intro code
  induction code with
  | nil => intro h; exact absurd h (by decide)
  | cons c t ih =>
    intro h
    by_cases hnl : c = '\n'
    · subst hnl
      have hv : validSyntax t = true := by
        rw [validSyntax, ← startsKW_cons_ws t (show isPyWs '\n' = true by decide)]
        exact h
      have hvm := ih hv
      have hsplit : splitNl ('\n' :: t) = [] :: splitNl t := by
        simp [splitNl]
      simp only [validate_mermaid] at hvm ⊢
      rw [hsplit, List.any_cons, hvm]
      simp
    · have hsplit : splitNl (c :: t) =
          (match splitNl t with
           | [] => [[c]]
           | l :: ls => (c :: l) :: ls) := by
        simp [splitNl, hnl]
      by_cases hws : isPyWs c
      · rw [validSyntax, startsKW_cons_ws t hws] at h
        have hvm := ih h
        simp only [validate_mermaid] at hvm ⊢
        cases hsp : splitNl t with
        | nil => exact absurd hsp (splitNl_ne_nil t)
        | cons l ls =>
          rw [hsp] at hvm hsplit
          rw [hsplit]
          simp only [List.any_cons, Bool.or_eq_true] at hvm ⊢
          rcases hvm with hl | hls
          · exact Or.inl (by rw [startsKW_cons_ws l hws]; exact hl)
          · exact Or.inr hls
      · have hws' : ¬ isPyWs c = true := hws
        rw [validSyntax, startsKW] at h
        rw [List.dropWhile_cons_of_neg hws'] at h
        simp only [validate_mermaid]
        cases hsp : splitNl t with
        | nil => exact absurd hsp (splitNl_ne_nil t)
        | cons l ls =>
          rw [hsp] at hsplit
          rw [hsplit]
          simp only [List.any_cons, Bool.or_eq_true]
          refine Or.inl ?_
          rw [startsKW, List.dropWhile_cons_of_neg hws']
          simp only [List.any_eq_true] at h ⊢
          obtain ⟨k, hk, hkp⟩ := h
          refine ⟨k, hk, ?_⟩
          cases ls with
          | nil =>
            have ht : t = l := by
              have hjs := joinNl_splitNl t
              rw [hsp] at hjs
              simpa [joinNl] using hjs.symm
            rw [← ht]
            exact hkp
          | cons l2 ls2 =>
            have ht : t = l ++ '\n' :: joinNl (l2 :: ls2) := by
              have hjs := joinNl_splitNl t
              rw [hsp] at hjs
              simpa [joinNl] using hjs.symm
            rw [List.isPrefixOf_iff_prefix] at hkp ⊢
            rw [ht] at hkp
            have hkc : k <+: (c :: l) ++ '\n' :: joinNl (l2 :: ls2) := by
              simpa using hkp
            exact prefix_of_append_newline (keywords_no_newline k hk) hkc

theorem splitColon_length (l : List Char) :
    (splitColon l).length = l.count ':' + 1 := by
  induction l with
  | nil => simp [splitColon]
  | cons c t ih =>
    simp only [splitColon]
    by_cases hc : c = ':'
    · rw [if_pos hc, List.length_cons, ih]
      subst hc
      rw [List.count_cons_self]
    · rw [if_neg hc]
      cases hsp : splitColon t with
      | nil =>
        exfalso
        have := congrArg List.length hsp
        rw [ih] at this
        simp at this
      | cons p ps =>
        rw [hsp] at ih
        simp only [List.length_cons] at ih ⊢
        rw [ih, List.count_cons_of_ne (fun he => hc he.symm)]

/-- C6: `fix_journey` works line by line; a line with at most two colons
is left unchanged, and an indented line with more than two colons is
rebuilt as `<step>: <value>: <actor>` where actor and value are the
trimmed last and second-to-last colon-separated fields and the step is
the trimmed colon-rejoined concatenation of the earlier fields. -/
theorem fix_journey_linewise :
    (∀ T, fix_journey T = joinNl ((pySplitlines T).map journeyLine)) ∧
      (∀ l, l.count ':' ≤ 2 → journeyLine l = l) ∧
      (∀ l, isIndentedStep l = true → 2 < l.count ':' →
        journeyLine l = journeySpec l) := by
  refine ⟨fun T => rfl, fun l hle => ?_, fun l hind hgt => ?_⟩
  · have : (isIndentedStep l && decide (2 < l.count ':')) = false := by
      have : ¬ (2 < l.count ':') := by omega
      simp [this]
    rw [journeyLine, if_neg (by simp_all)]
  · have hlen : 4 ≤ (splitColon l).length := by
      rw [splitColon_length]; omega
    have hrev : 4 ≤ (splitColon l).reverse.length := by
      rw [List.length_reverse]; exact hlen
    obtain ⟨a, r1, h1⟩ : ∃ a r1, (splitColon l).reverse = a :: r1 := by
      cases hc : (splitColon l).reverse with
      | nil => rw [hc] at hrev; simp at hrev
      | cons a r1 => exact ⟨a, r1, rfl⟩
    obtain ⟨v, r2, h2⟩ : ∃ v r2, r1 = v :: r2 := by
      cases hc : r1 with
      | nil => rw [hc] at h1; rw [h1] at hrev; simp at hrev
      | cons v r2 => exact ⟨v, r2, rfl⟩
    subst h2
    have hparts : splitColon l = r2.reverse ++ [v, a] := by
      have := congrArg List.reverse h1
      simpa using this
    rw [journeyLine, if_pos (by simp [hind, hgt]), h1]
    rw [journeySpec, hparts]
    have hd1 : (r2.reverse ++ [v, a]).dropLast = r2.reverse ++ [v] := by
      have : r2.reverse ++ [v, a] = (r2.reverse ++ [v]) ++ [a] := by simp
      rw [this, List.dropLast_concat]
    have hd2 : (r2.reverse ++ [v]).dropLast = r2.reverse := List.dropLast_concat
    have hg1 : (r2.reverse ++ [v, a]).getLast? = some a := by
      have : r2.reverse ++ [v, a] = (r2.reverse ++ [v]) ++ [a] := by simp
      rw [this, List.getLast?_concat]
    have hg2 : (r2.reverse ++ [v]).getLast? = some v := List.getLast?_concat _
    rw [hd1, hd2, hg1, hg2]
    rfl

theorem isPrefixOf_append_self (a b : List Char) : a.isPrefixOf (a ++ b) = true := by
  rw [List.isPrefixOf_iff_prefix]
  exact List.prefix_append a b

theorem keywords_head_not_ws :
    ∀ k ∈ mermaidKeywords, ∃ c k2, k = c :: k2 ∧ isPyWs c = false := by
  intro k hk
  fin_cases hk <;> exact ⟨_, _, rfl, by decide⟩

/-- C10: the final keyword validation is a bare literal-prefix test with
no word boundary after the keyword, so every extension of a keyword
passes — e.g. `gitGraphs` and `piechart` — and a parsed `code` of that
shape is returned as a success result. -/
theorem validSyntax_prefix_only :
    (∀ k s, k ∈ mermaidKeywords → validSyntax (k ++ s) = true) ∧
      validSyntax (chars "gitGraphs") = true ∧
      validSyntax (chars "piechart") = true ∧
      process_query (chars "\x7b\"code\": \"piechart\"\x7d") =
        .jobj [(chars "code", .jstr (chars "piechart"))] := by
  refine ⟨fun k s hk => ?_, by decide, by decide, rfl⟩
  obtain ⟨c, k2, hck, hcw⟩ := keywords_head_not_ws k hk
  rw [validSyntax, startsKW]
  rw [List.any_eq_true]
  refine ⟨k, hk, ?_⟩
  subst hck
  rw [List.cons_append, List.dropWhile_cons_of_neg (by simp [hcw])]
  exact isPrefixOf_append_self _ _

/-! ### Shape of the parsed object and field-lookup lemmas -/

theorem parseMembers_jobj :
    ∀ n acc s v rest, parseMembers n acc s = .ok (v, rest) → ∃ fs, v = .jobj fs := by
  intro n
  induction n with
  | zero => intro acc s v rest h; exact absurd h (by simp [parseMembers])
  | succ n ih =>
    intro acc s v rest h
    simp only [parseMembers] at h
    split at h
    next c t =>
      split at h
      next =>
        split at h
        next => exact absurd h (by simp)
        next key r1 hsb =>
          split at h
          next r2 hdw =>
            split at h
            next => exact absurd h (by simp)
            next v2 r3 hpv =>
              split at h
              next r4 hr4 => exact ih _ _ _ _ h
              next c5 r5 hr5 =>
                split at h
                next =>
                  simp only [Except.ok.injEq, Prod.mk.injEq] at h
                  exact ⟨_, h.1.symm⟩
                next => exact absurd h (by simp)
              next => exact absurd h (by simp)
          next => exact absurd h (by simp)
      next => exact absurd h (by simp)
    next => exact absurd h (by simp)

theorem parseVal_lbrace :
    ∀ n t v rest, parseVal n (lbrace :: t) = .ok (v, rest) → ∃ fs, v = .jobj fs := by
  intro n t v rest h
  cases n with
  | zero => exact absurd h (by simp [parseVal])
  | succ n =>
    simp only [parseVal,
      List.dropWhile_cons_of_neg (show ¬ isJsonWs lbrace = true by decide), if_true] at h
    split at h
    next c2 t2 =>
      split at h
      next =>
        simp only [Except.ok.injEq, Prod.mk.injEq] at h
        exact ⟨_, h.1.symm⟩
      next => exact parseMembers_jobj _ _ _ _ _ h
    next => exact absurd h (by simp)

theorem dropWhile_suffix_char (p : Char → Bool) (l : List Char) :
    l.dropWhile p <:+ l := by
  induction l with
  | nil => simp [List.dropWhile]
  | cons c t ih =>
    by_cases hc : p c
    · rw [List.dropWhile_cons_of_pos hc]
      exact ih.trans (List.suffix_cons c t)
    · rw [List.dropWhile_cons_of_neg hc]

theorem extractJson_lbrace {s span : List Char} (h : extractJson s = some span) :
    ∃ t, span = lbrace :: t := by
  simp only [extractJson] at h
  split at h
  next => exact absurd h (by simp)
  next c t hdw =>
    have hc : c = lbrace := by
      have hh := List.head?_dropWhile_not (fun c => !(c = lbrace)) s
      rw [hdw] at hh
      simp only [List.head?_cons] at hh
      simpa using hh
    split at h
    next => exact absurd h (by simp)
    next r0 hr0 =>
      simp only [Option.some.injEq] at h
      have hsuf : ((c :: t).reverse.dropWhile (fun d => !(d = rbrace))) <:+ (c :: t).reverse :=
        dropWhile_suffix_char _ _
      have hpre : ((c :: t).reverse.dropWhile (fun d => !(d = rbrace))).reverse <+: (c :: t) := by
        have := List.reverse_prefix.mpr hsuf
        simpa using this
      obtain ⟨t2, ht2⟩ := hpre
      cases hrv : ((c :: t).reverse.dropWhile (fun d => !(d = rbrace))).reverse with
      | nil =>
        exfalso
        apply hr0
        simpa using congrArg List.reverse hrv
      | cons y ys =>
        rw [hrv] at ht2 h
        simp only [List.cons_append, List.cons.injEq] at ht2
        refine ⟨ys, ?_⟩
        rw [← h, ht2.1, hc]

theorem json_loads_lbrace {t : List Char} {v : JVal}
    (h : json_loads (lbrace :: t) = .ok v) : ∃ fs, v = .jobj fs := by
  simp only [json_loads] at h
  split at h
  next v2 rest hpv =>
    split at h
    next =>
      simp only [Except.ok.injEq] at h
      obtain ⟨fs, hfs⟩ := parseVal_lbrace _ _ _ _ hpv
      exact ⟨fs, h ▸ hfs⟩
    next => exact absurd h (by simp)
  next => exact absurd h (by simp)

theorem getField_none_of_any_false {fs : List (List Char × JVal)} {k : List Char}
    (h : fs.any (fun p => p.1 = k) = false) : getField fs k = none := by
  cases hf : fs.find? (fun p => p.1 = k) with
  | none => simp [getField, hf]
  | some p =>
    exfalso
    have hmem := List.mem_of_find?_eq_some hf
    have hpk := List.find?_some hf
    simp only [List.any_eq_false] at h
    exact absurd hpk (by simpa using h p hmem)

theorem getField_any_true {fs : List (List Char × JVal)} {k : List Char} {v : JVal}
    (h : getField fs k = some v) : fs.any (fun p => p.1 = k) = true := by
  simp only [getField] at h
  cases hf : fs.find? (fun p => p.1 = k) with
  | none => rw [hf] at h; simp at h
  | some p =>
    have hmem := List.mem_of_find?_eq_some hf
    have hpk := List.find?_some hf
    rw [List.any_eq_true]
    exact ⟨p, hmem, hpk⟩

theorem getField_objSet {fs : List (List Char × JVal)} {k : List Char} (v : JVal)
    (h : fs.any (fun p => p.1 = k) = true) :
    getField (objSet fs k v) k = some v := by
  simp only [objSet, if_pos h]
  induction fs with
  | nil => simp at h
  | cons p fs' ih =>
    by_cases hp : p.1 = k
    · simp only [List.map_cons, if_pos hp, getField, List.find?]
      simp
    · simp only [List.map_cons, if_neg hp]
      simp only [List.any_cons] at h
      have h' : fs'.any (fun p => p.1 = k) = true := by
        rcases Bool.or_eq_true_iff.mp h with h1 | h2
        · exact absurd (by simpa using h1) hp
        · exact h2
      have := ih h'
      simp only [getField, List.find?] at this ⊢
      rw [show ((fun q : List Char × JVal => q.1 = k) p : Bool) = false by simpa using hp]
      exact this

theorem py_in_jobj (fs : List (List Char × JVal)) (k : List Char) :
    py_in k (.jobj fs) = .ok (fs.any (fun p => p.1 = k)) := rfl

theorem pipeline_ok_shape :
    ∀ resp v, pipeline resp = .ok v →
      (∃ m, v = errorObj m) ∨
      (∃ fs, v = .jobj fs ∧ fs.any (fun p => p.1 = chars "code") = false) ∨
      (∃ fs code2, v = .jobj (objSet fs (chars "code") (.jstr code2)) ∧
        validSyntax code2 = true ∧ fs.any (fun p => p.1 = chars "code") = true) := by
  intro resp v h
  simp only [pipeline] at h
  split at h
  next =>
    simp only [Except.ok.injEq] at h
    exact Or.inl ⟨_, h.symm⟩
  next span hext =>
    split at h
    next e hjson =>
      simp only [Except.ok.injEq] at h
      exact Or.inl ⟨_, h.symm⟩
    next data hjson =>
      obtain ⟨t, hspan⟩ := extractJson_lbrace hext
      obtain ⟨fs, hfs⟩ := json_loads_lbrace (hspan ▸ hjson)
      subst hfs
      split at h
      next e hin => exact absurd h (by simp)
      next hin =>
        rw [py_in_jobj] at hin
        simp only [Except.ok.injEq] at hin h
        exact Or.inr (Or.inl ⟨fs, h.symm, hin⟩)
      next hin =>
        rw [py_in_jobj] at hin
        simp only [Except.ok.injEq] at hin
        split at h
        next e hget => exact absurd h (by simp)
        next v2 hget =>
          split at h
          next e hstr => exact absurd h (by simp)
          next code0 hstr =>
            split at h
            next fs2 heq =>
              injection heq with heq2
              subst heq2
              split at h
              next hvalid =>
                simp only [Except.ok.injEq] at h
                exact Or.inr (Or.inr ⟨fs, _, h.symm, hvalid, hin⟩)
              next =>
                simp only [Except.ok.injEq] at h
                exact Or.inl ⟨_, h.symm⟩
            next hne => exact absurd rfl (hne fs)

theorem getField_cons_ne {k1 k : List Char} (v1 : JVal) (fs : List (List Char × JVal))
    (h : ¬ k1 = k) : getField ((k1, v1) :: fs) k = getField fs k := by
  simp only [getField]
  rw [List.find?_cons_of_neg]
  simpa using h

theorem errorObj_getField_code (m : List Char) :
    getField [(chars "error", JVal.jstr m)] (chars "code") = none := by
  rw [getField_cons_ne _ _ (by decide)]
  rfl

theorem process_query_total :
    ∀ resp, (∃ fs, process_query resp = .jobj fs) ∧
      (∀ e, pipeline resp = .error e →
        process_query resp = errorObj (chars "Processing Error: " ++ e)) := by
  intro resp
  constructor
  · cases hp : pipeline resp with
    | error e =>
      refine ⟨[(chars "error", JVal.jstr (chars "Processing Error: " ++ e))], ?_⟩
      simp only [process_query, hp]
      rfl
    | ok v =>
      rcases pipeline_ok_shape resp v hp with ⟨m, hm⟩ | ⟨fs, hfs, -⟩ | ⟨fs, code2, hfs, -, -⟩
      · refine ⟨[(chars "error", JVal.jstr m)], ?_⟩
        simp only [process_query, hp, hm]
        rfl
      · refine ⟨fs, ?_⟩
        simp only [process_query, hp, hfs]
      · refine ⟨objSet fs (chars "code") (JVal.jstr code2), ?_⟩
        simp only [process_query, hp, hfs]
  · intro e he
    simp only [process_query, he]

theorem objGetE_of_getField {fs : List (List Char × JVal)} {k : List Char} {v : JVal}
    (h : getField fs k = some v) : objGetE k (.jobj fs) = .ok v := by
  simp only [getField] at h
  cases hf : fs.find? (fun p => p.1 = k) with
  | none => rw [hf] at h; simp at h
  | some p =>
    rw [hf] at h
    simp only [Option.map_some'] at h
    simp only [objGetE, hf]
    rw [Option.some.injEq] at h
    rw [h]

/-- C8: when the extracted span parses as an object without a `code`
key, `process_query` returns that parsed mapping unmodified — no
repair, no validation, and no error. -/
theorem process_query_no_code_passthrough :
    ∀ resp span fs,
      extractJson (quoteNorm (stripFences (pyStrip resp))) = some span →
      json_loads span = .ok (.jobj fs) →
      fs.any (fun p => p.1 = chars "code") = false →
      process_query resp = .jobj fs := by
  intro resp span fs hext hjson hany
  have hpipe : pipeline resp = .ok (.jobj fs) := by
    simp only [pipeline, hext, hjson, py_in_jobj, hany]
  simp only [process_query, hpipe]

/-- C9: when the parsed object carries a `code` key whose value is not a
string, the per-step string operation faults and the outer handler turns
the fault into a `Processing Error: ...` dictionary; `process_query`
neither raises nor returns a success result. -/
theorem process_query_nonstring_code :
    ∀ resp span fs v,
      extractJson (quoteNorm (stripFences (pyStrip resp))) = some span →
      json_loads span = .ok (.jobj fs) →
      getField fs (chars "code") = some v →
      (∀ c, v ≠ .jstr c) →
      ∃ msg, process_query resp = errorObj (chars "Processing Error: " ++ msg) := by
  intro resp span fs v hext hjson hget hnstr
  have hany := getField_any_true hget
  have hobj := objGetE_of_getField hget
  obtain ⟨msg, hmsg⟩ : ∃ msg, asStr v = .error msg := by
    cases v with
    | jstr s => exact absurd rfl (hnstr s)
    | jnull => exact ⟨_, rfl⟩
    | jbool b => exact ⟨_, rfl⟩
    | jnum lex => exact ⟨_, rfl⟩
    | jarr xs => exact ⟨_, rfl⟩
    | jobj fs2 => exact ⟨_, rfl⟩
  have hpipe : pipeline resp = .error msg := by
    simp only [pipeline, hext, hjson, py_in_jobj, hany, hobj, hmsg]
  exact ⟨msg, by simp only [process_query, hpipe]⟩

/-- C1: the keyword gate of `process_query`.  First part: a returned
mapping that carries a `code` key and no `error` key holds a string
beginning (after optional whitespace) with a recognized keyword.  Second
part: when the parsed object has a string `code` whose repaired value
fails the keyword test, `process_query` returns the
`Invalid diagram syntax` failure mapping. -/
theorem process_query_keyword_gate :
    ∀ resp,
      (∀ fs v, process_query resp = .jobj fs →
        getField fs (chars "code") = some v →
        getField fs (chars "error") = none →
        ∃ c, v = .jstr c ∧ validSyntax c = true) ∧
      (∀ span fs v,
        extractJson (quoteNorm (stripFences (pyStrip resp))) = some span →
        json_loads span = .ok (.jobj fs) →
        getField fs (chars "code") = some (.jstr v) →
        validSyntax (post_process_code (replaceBackslashN v)) = false →
        process_query resp = errorObj (chars "Invalid diagram syntax")) := by
  intro resp
  constructor
  · intro fs v hpq hcode herr
    cases hp : pipeline resp with
    | error e =>
      rw [process_query, hp] at hpq
      simp only [errorObj, JVal.jobj.injEq] at hpq
      rw [← hpq] at hcode
      rw [errorObj_getField_code] at hcode
      exact absurd hcode (by simp)
    | ok w =>
      rw [process_query, hp] at hpq
      subst hpq
      rcases pipeline_ok_shape resp _ hp with ⟨m, hm⟩ | ⟨fs2, hfs2, hany⟩ |
        ⟨fs2, code2, hfs2, hvalid, hany⟩
      · simp only [errorObj, JVal.jobj.injEq] at hm
        rw [hm, errorObj_getField_code] at hcode
        exact absurd hcode (by simp)
      · simp only [JVal.jobj.injEq] at hfs2
        subst hfs2
        rw [getField_none_of_any_false hany] at hcode
        exact absurd hcode (by simp)
      · simp only [JVal.jobj.injEq] at hfs2
        subst hfs2
        rw [getField_objSet (JVal.jstr code2) hany] at hcode
        rw [Option.some.injEq] at hcode
        exact ⟨code2, hcode.symm, hvalid⟩
  · intro span fs v hext hjson hget hvalid
    have hany := getField_any_true hget
    have hobj := objGetE_of_getField hget
    have hpipe : pipeline resp = .ok (errorObj (chars "Invalid diagram syntax")) := by
      simp only [pipeline, hext, hjson, py_in_jobj, hany, hobj, asStr, hvalid]
      simp
    simp only [process_query, hpipe]

/-! ### Witnesses: the theorems applied at concrete inputs -/

/-- Witness for C1 at two concrete responses: a valid `graph TD` code is
returned with a keyword-prefixed string, and a `zzz` code yields the
`Invalid diagram syntax` failure mapping. -/
theorem process_query_keyword_gate_witness :
    (∃ c, JVal.jstr (chars "graph TD") = .jstr c ∧ validSyntax c = true) ∧
      process_query (chars "\x7b\"code\": \"zzz\"\x7d") =
        errorObj (chars "Invalid diagram syntax") := by
  constructor
  · exact (process_query_keyword_gate (chars "\x7b\"code\": \"graph TD\"\x7d")).1
      [(chars "code", JVal.jstr (chars "graph TD"))] (JVal.jstr (chars "graph TD")) rfl rfl rfl
  · exact (process_query_keyword_gate (chars "\x7b\"code\": \"zzz\"\x7d")).2
      (chars "\x7b\"code\": \"zzz\"\x7d") [(chars "code", JVal.jstr (chars "zzz"))]
      (chars "zzz") rfl rfl rfl rfl

/-- Witness for C2 at a concrete response whose `code` value is a
boolean: the pipeline raises and the fault is wrapped. -/
theorem process_query_total_witness :
    (∃ fs, process_query (chars "\x7b\"code\": true\x7d") = .jobj fs) ∧
      process_query (chars "\x7b\"code\": true\x7d") =
        errorObj (chars "Processing Error: " ++
          (squote :: (chars "bool" ++ chars "' object has no attribute 'replace'"))) :=
  ⟨(process_query_total (chars "\x7b\"code\": true\x7d")).1,
    (process_query_total (chars "\x7b\"code\": true\x7d")).2 _ rfl⟩

/-- Witness for C4's amended statement at the code `graph`. -/
theorem validSyntax_imp_validate_mermaid_witness :
    validate_mermaid (chars "graph") = true :=
  validSyntax_imp_validate_mermaid (chars "graph") rfl

/-- Witness for C6 on a two-colon line and on an indented three-colon
step line. -/
theorem fix_journey_linewise_witness :
    journeyLine (chars "x: y") = chars "x: y" ∧
      journeyLine (chars "  a: b: 1: Me") = journeySpec (chars "  a: b: 1: Me") :=
  ⟨fix_journey_linewise.2.1 (chars "x: y") (by decide),
    fix_journey_linewise.2.2 (chars "  a: b: 1: Me") rfl (by decide)⟩

/-- Witness for C8: an object without a `code` key is passed through. -/
theorem process_query_no_code_passthrough_witness :
    process_query (chars "\x7b\"a\": 1\x7d") = .jobj [(chars "a", JVal.jnum (chars "1"))] :=
  process_query_no_code_passthrough (chars "\x7b\"a\": 1\x7d") (chars "\x7b\"a\": 1\x7d")
    [(chars "a", JVal.jnum (chars "1"))] rfl rfl rfl

/-- Witness for C9: a numeric `code` value produces a wrapped
processing error. -/
theorem process_query_nonstring_code_witness :
    ∃ msg, process_query (chars "\x7b\"code\": 1\x7d") =
      errorObj (chars "Processing Error: " ++ msg) :=
  process_query_nonstring_code (chars "\x7b\"code\": 1\x7d") (chars "\x7b\"code\": 1\x7d")
    [(chars "code", JVal.jnum (chars "1"))] (JVal.jnum (chars "1")) rfl rfl rfl
    (fun c h => JVal.noConfusion h)

/-- Witness for C10 at the keyword `gitGraph` with suffix `s`. -/
theorem validSyntax_prefix_only_witness :
    validSyntax (chars "gitGraph" ++ chars "s") = true :=
  validSyntax_prefix_only.1 (chars "gitGraph") (chars "s") (by decide)

/-! ### Generic helpers for the idempotence proofs -/

theorem scanM_seg {σ : Type} (m : Matcher σ) (st : σ → Char → σ) :
    ∀ a q t, NoMatchSeg m st q a t →
      scanM m st q (a ++ t) = a ++ scanM m st (a.foldl st q) t := by
  intro a
  induction a with
  | nil => intro q t _; rfl
  | cons c a' ih =>
    intro q t h
    obtain ⟨h0, hrest⟩ := h
    rw [List.cons_append, scanM_nomatch m st h0, ih (st q c) t hrest]
    rfl

theorem ws_cases {c : Char} (h : isPyWs c = true) :
    c = ' ' ∨ c = '\t' ∨ c = '\n' ∨ c = '\r' ∨ c = Char.ofNat 11 ∨ c = Char.ofNat 12 := by
  simp only [isPyWs, Bool.or_eq_true, decide_eq_true_eq] at h
  tauto

theorem ws_not_digit {c : Char} (h : isPyWs c = true) : c.isDigit = false := by
  rcases ws_cases h with h1 | h1 | h1 | h1 | h1 | h1 <;> subst h1 <;> decide

theorem ws_not_word {c : Char} (h : isPyWs c = true) : isWordChar c = false := by
  rcases ws_cases h with h1 | h1 | h1 | h1 | h1 | h1 <;> subst h1 <;> decide

theorem ws_ne_of_not_ws {c d : Char} (h : isPyWs c = true) (hd : isPyWs d = false) :
    ¬ c = d := by
  intro he
  rw [he] at h
  rw [h] at hd
  exact absurd hd (by simp)

theorem digit_not_ws {c : Char} (h : c.isDigit = true) : isPyWs c = false := by
  cases hw : isPyWs c with
  | false => rfl
  | true => rw [ws_not_digit hw] at h; exact absurd h Bool.false_ne_true

theorem word_not_ws {c : Char} (h : isWordChar c = true) : isPyWs c = false := by
  cases hw : isPyWs c with
  | false => rfl
  | true => rw [ws_not_word hw] at h; exact absurd h Bool.false_ne_true

theorem marker_cases {c : Char} (h : isMarker c = true) :
    c = '+' ∨ c = '-' ∨ c = '#' := by
  simp only [isMarker, Bool.or_eq_true, decide_eq_true_eq] at h
  tauto

theorem marker_not_ws {c : Char} (h : isMarker c = true) : isPyWs c = false := by
  rcases marker_cases h with h1 | h1 | h1 <;> subst h1 <;> decide

theorem marker_not_word {c : Char} (h : isMarker c = true) : isWordChar c = false := by
  rcases marker_cases h with h1 | h1 | h1 <;> subst h1 <;> decide

theorem digit_ne {c d : Char} (h : c.isDigit = true) (hd : d.isDigit = false) : ¬ c = d := by
  intro he
  rw [he] at h
  rw [h] at hd
  exact absurd hd (by simp)

theorem takeWhile_append_of_all (p : Char → Bool) :
    ∀ w rest, AllB p w → (rest = [] ∨ ∃ c t, rest = c :: t ∧ p c = false) →
      (w ++ rest).takeWhile p = w ∧ (w ++ rest).dropWhile p = rest := by
  intro w
  induction w with
  | nil =>
    intro rest _ hr
    rcases hr with h | ⟨c, t, hct, hc⟩
    · subst h; exact ⟨rfl, rfl⟩
    · subst hct
      exact ⟨List.takeWhile_cons_of_neg (by simp [hc]), List.dropWhile_cons_of_neg (by simp [hc])⟩
  | cons c w' ih =>
    intro rest hall hr
    have hc : p c = true := hall c (List.mem_cons_self c w')
    have hall' : AllB p w' := fun d hd => hall d (List.mem_cons_of_mem c hd)
    obtain ⟨h1, h2⟩ := ih rest hall' hr
    constructor
    · rw [List.cons_append, List.takeWhile_cons_of_pos hc, h1]
    · rw [List.cons_append, List.dropWhile_cons_of_pos hc, h2]

theorem allB_takeWhile (p : Char → Bool) (l : List Char) : AllB p (l.takeWhile p) :=
  fun _ hc => List.mem_takeWhile_imp hc

theorem takeWhile_ne_nil_head {p : Char → Bool} {l : List Char}
    (h : l.takeWhile p ≠ []) : ∃ c t, l = c :: t ∧ p c = true := by
  cases l with
  | nil => simp [List.takeWhile] at h
  | cons c t =>
    by_cases hc : p c
    · exact ⟨c, t, rfl, hc⟩
    · rw [List.takeWhile_cons_of_neg hc] at h
      exact absurd rfl h

theorem dropWhile_head_shape {p : Char → Bool} {l rest : List Char} {c : Char}
    (h : l.dropWhile p = c :: rest) : p c = false := by
  have hh := List.head?_dropWhile_not p l
  rw [h] at hh
  simpa using hh

/-! ### Idempotence of `fix_quadrant_chart` -/

theorem isPrefixOf_cons_false {c : Char} {p : Char} {ps t : List Char} (hc : ¬ p = c) :
    (p :: ps).isPrefixOf (c :: t) = false := by
  simp only [List.isPrefixOf, Bool.and_eq_false_iff]
  left
  simpa using hc

theorem mQuad_none_of_head {c : Char} (t : List Char) (hc : ¬ c = 'q') :
    mQuad () (c :: t) = none := by
  have hpre : (chars "quadrant").isPrefixOf (c :: t) = false := by
    rw [show chars "quadrant" = 'q' :: chars "uadrant" from rfl]
    exact isPrefixOf_cons_false (fun h => hc h.symm)
  simp [mQuad, hpre]

theorem scQ_copy : ∀ (a z : List Char), (∀ ch ∈ a, ¬ ch = 'q') →
    scanM mQuad stU () (a ++ z) = a ++ scanM mQuad stU () z := by
  intro a
  induction a with
  | nil => intro z _; rfl
  | cons c a' ih =>
    intro z h
    rw [List.cons_append,
      scanM_nomatch mQuad stU (mQuad_none_of_head _ (h c (List.mem_cons_self c a'))),
      ih z (fun d hd => h d (List.mem_cons_of_mem c hd))]
    rfl

theorem drop8_quadrant (x : List Char) : (chars "quadrant" ++ x).drop 8 = x := by
  rw [show (8 : Nat) = (chars "quadrant").length from rfl, List.drop_left]

theorem mQuad_block_none {d : List Char} (z : List Char) (hd : d ≠ [])
    (hdig : AllB Char.isDigit d) :
    mQuad () (chars "quadrant" ++ d ++ ':' :: z) = none := by
  obtain ⟨d0, d', hd0⟩ : ∃ d0 d', d = d0 :: d' := by
    cases d with
    | nil => exact absurd rfl hd
    | cons a b => exact ⟨a, b, rfl⟩
  subst hd0
  have hw : isPyWs d0 = false := digit_not_ws (hdig d0 (List.mem_cons_self d0 d'))
  simp only [mQuad, List.append_assoc]
  rw [if_pos (isPrefixOf_append_self _ _), drop8_quadrant]
  rw [List.cons_append, List.takeWhile_cons_of_neg (by simp [hw])]
  simp

theorem scQ_block {d : List Char} (z : List Char) (hd : d ≠ [])
    (hdig : AllB Char.isDigit d) :
    scanM mQuad stU () (chars "quadrant" ++ d ++ ':' :: z) =
      chars "quadrant" ++ d ++ ':' :: scanM mQuad stU () z := by
  have hstep : chars "quadrant" ++ d ++ ':' :: z =
      'q' :: ((chars "uadrant" ++ d ++ [':']) ++ z) := by
    simp [chars]
  rw [hstep, scanM_nomatch mQuad stU]
  · rw [scQ_copy]
    · simp [chars]
    · intro ch hch hq
      subst hq
      simp only [List.mem_append, List.mem_singleton] at hch
      rcases hch with (h1 | h1) | h1
      · exact absurd h1 (by decide)
      · exact absurd (hdig _ h1) (by decide)
      · exact absurd h1 (by decide)
  · have := mQuad_block_none z hd hdig
    rw [hstep] at this
    exact this

theorem isPrefixOf_decomp {p s : List Char} (h : p.isPrefixOf s = true) :
    ∃ t, s = p ++ t := by
  obtain ⟨t, ht⟩ := List.isPrefixOf_iff_prefix.mp h
  exact ⟨t, ht.symm⟩

theorem mQuad_some_iff {s r u : List Char} :
    mQuad () s = some (r, (), u) ↔
      ∃ w d, s = chars "quadrant" ++ w ++ d ++ ':' :: u ∧
        w ≠ [] ∧ AllB isPyWs w ∧ d ≠ [] ∧ AllB Char.isDigit d ∧
        r = chars "quadrant" ++ d ++ [':'] := by
  constructor
  · intro h
    simp only [mQuad] at h
    split at h
    next hp =>
      split at h
      next => exact absurd h (by simp)
      next hw =>
        split at h
        next => exact absurd h (by simp)
        next hdd =>
          split at h
          next t2 hdm =>
            simp only [Option.some.injEq, Prod.mk.injEq] at h
            obtain ⟨hr, -, hu⟩ := h
            obtain ⟨rest, hrest⟩ := isPrefixOf_decomp hp
            subst hrest
            rw [drop8_quadrant] at hw hdd hdm hr
            subst hu
            generalize hdws : rest.dropWhile isPyWs = dws at hdd hdm hr
            refine ⟨rest.takeWhile isPyWs, dws.takeWhile Char.isDigit,
              ?_, hw, allB_takeWhile _ _, hdd, allB_takeWhile _ _, hr.symm⟩
            have a2 : dws = dws.takeWhile Char.isDigit ++ ':' :: t2 := by
              have a0 := (List.takeWhile_append_dropWhile Char.isDigit dws).symm
              rw [hdm] at a0
              exact a0
            have a1 : rest = rest.takeWhile isPyWs ++ dws := by
              rw [← hdws]
              exact (List.takeWhile_append_dropWhile isPyWs rest).symm
            rw [a2] at a1
            conv_lhs => rw [a1]
            simp
          next => exact absurd h (by simp)
    next => exact absurd h (by simp)
  · rintro ⟨w, d, hs, hwne, hwall, hdne, hdall, hr⟩
    obtain ⟨w0, w', hw0⟩ : ∃ w0 w', w = w0 :: w' := by
      cases w with
      | nil => exact absurd rfl hwne
      | cons a b => exact ⟨a, b, rfl⟩
    obtain ⟨d0, d', hd0⟩ : ∃ d0 d', d = d0 :: d' := by
      cases d with
      | nil => exact absurd rfl hdne
      | cons a b => exact ⟨a, b, rfl⟩
    have htw : (w ++ (d ++ ':' :: u)).takeWhile isPyWs = w ∧
        (w ++ (d ++ ':' :: u)).dropWhile isPyWs = d ++ ':' :: u := by
      refine takeWhile_append_of_all isPyWs w (d ++ ':' :: u) hwall ?_
      right
      refine ⟨d0, d' ++ ':' :: u, by simp [hd0], ?_⟩
      exact digit_not_ws (hdall d0 (by simp [hd0]))
    have htd : (d ++ ':' :: u).takeWhile Char.isDigit = d ∧
        (d ++ ':' :: u).dropWhile Char.isDigit = ':' :: u := by
      refine takeWhile_append_of_all Char.isDigit d (':' :: u) hdall ?_
      right
      exact ⟨':', u, rfl, by decide⟩
    simp only [mQuad]
    rw [hs]
    rw [if_pos (by rw [List.append_assoc, List.append_assoc]
                   exact isPrefixOf_append_self _ _)]
    rw [show (chars "quadrant" ++ w ++ d ++ ':' :: u).drop 8 = w ++ (d ++ ':' :: u) by
      rw [List.append_assoc, List.append_assoc]
      exact drop8_quadrant _]
    rw [htw.1, htw.2]
    rw [if_neg (by rw [hw0]; simp)]
    rw [htd.1, htd.2]
    rw [if_neg (by rw [hd0]; simp)]
    rw [hr]
    rfl

theorem scQ_match_decomp {c : Char} {s r u : List Char} {q2 : Unit}
    (hm : mQuad () (c :: s) = some (r, q2, u)) :
    ∃ w d, c :: s = chars "quadrant" ++ w ++ d ++ ':' :: u ∧
      w ≠ [] ∧ AllB isPyWs w ∧ d ≠ [] ∧ AllB Char.isDigit d ∧
      scanM mQuad stU () (c :: s) =
        chars "quadrant" ++ d ++ ':' :: scanM mQuad stU () u := by
  cases q2
  obtain ⟨w, d, hs, hwne, hwall, hdne, hdall, hr⟩ := mQuad_some_iff.mp hm
  refine ⟨w, d, hs, hwne, hwall, hdne, hdall, ?_⟩
  rw [scanM_match mQuad stU mQuad_shrink hm, hr]
  simp

theorem QD_block_elim {d z u2 : List Char} (hd : AllB Char.isDigit d)
    (hz : chars "quadrant" ++ d ++ ':' :: z = u2) (hq : QD u2) : False := by
  obtain ⟨d2, u3, he, hdig2⟩ := hq
  rw [← hz] at he
  cases d2 with
  | nil =>
    rw [List.nil_append] at he
    rw [show chars "quadrant" ++ d ++ ':' :: z =
      'q' :: (chars "uadrant" ++ d ++ ':' :: z) by simp [chars]] at he
    exact absurd (List.head_eq_of_cons_eq he) (by decide)
  | cons e d2' =>
    rw [show chars "quadrant" ++ d ++ ':' :: z =
      'q' :: (chars "uadrant" ++ d ++ ':' :: z) by simp [chars]] at he
    rw [List.cons_append] at he
    have he2 := List.head_eq_of_cons_eq he
    rw [← he2] at hdig2
    exact absurd (hdig2 'q' (List.mem_cons_self _ _)) (by decide)

theorem quadTD : ∀ n s, s.length ≤ n → QD (scanM mQuad stU () s) → QD s := by
  intro n
  induction n with
  | zero =>
    intro s hlen hq
    have : s = [] := List.length_eq_zero.mp (Nat.le_zero.mp hlen)
    subst this
    exact hq
  | succ n ih =>
    intro s hlen hq
    cases s with
    | nil => exact hq
    | cons c rest =>
      cases hm : mQuad () (c :: rest) with
      | some val =>
        obtain ⟨r, q2, u⟩ := val
        obtain ⟨w, d, hs, -, -, -, hdall, hsc⟩ := scQ_match_decomp hm
        rw [hsc] at hq
        exact absurd (QD_block_elim hdall rfl hq) (by simp)
      | none =>
        rw [scanM_nomatch mQuad stU hm] at hq
        obtain ⟨d2, u2, hz, hdig2⟩ := hq
        cases d2 with
        | nil =>
          rw [List.nil_append] at hz
          have hc : c = ':' := List.head_eq_of_cons_eq hz
          exact ⟨[], rest, by rw [hc]; rfl, fun x hx => absurd hx (List.not_mem_nil x)⟩
        | cons e d2' =>
          rw [List.cons_append] at hz
          have hc : c = e := List.head_eq_of_cons_eq hz
          have htl : scanM mQuad stU () rest = d2' ++ ':' :: u2 :=
            List.tail_eq_of_cons_eq hz
          have hrec : QD rest := by
            apply ih rest (by simp only [List.length_cons] at hlen; omega)
            exact ⟨d2', u2, htl, fun x hx => hdig2 x (List.mem_cons_of_mem e hx)⟩
          obtain ⟨d3, u3, hz3, hdig3⟩ := hrec
          refine ⟨c :: d3, u3, by rw [hz3]; rfl, ?_⟩
          intro x hx
          rcases List.mem_cons.mp hx with h1 | h1
          · rw [h1, hc]
            exact hdig2 e (List.mem_cons_self e d2')
          · exact hdig3 x h1

theorem cons_ne_nil_elim {α : Type} {c : Char} : (c :: ([] : List Char)) ≠ [] := by simp

theorem quadTS : ∀ n s, s.length ≤ n → QS (scanM mQuad stU () s) → QS s := by
  intro n
  induction n with
  | zero =>
    intro s hlen hq
    have : s = [] := List.length_eq_zero.mp (Nat.le_zero.mp hlen)
    subst this
    exact hq
  | succ n ih =>
    intro s hlen hq
    cases s with
    | nil => exact hq
    | cons c rest =>
      cases hm : mQuad () (c :: rest) with
      | some val =>
        obtain ⟨r, q2, u⟩ := val
        obtain ⟨w, d, hs, -, -, -, hdall, hsc⟩ := scQ_match_decomp hm
        rw [hsc] at hq
        obtain ⟨w2, d2, u2, hz, hwall2, hdne2, hdall2⟩ := hq
        exfalso
        rw [show chars "quadrant" ++ d ++ ':' :: scanM mQuad stU () u =
          'q' :: (chars "uadrant" ++ d ++ ':' :: scanM mQuad stU () u) by simp [chars]] at hz
        cases w2 with
        | nil =>
          rw [List.nil_append] at hz
          cases d2 with
          | nil => exact hdne2 rfl
          | cons e d2' =>
            rw [List.cons_append] at hz
            have he := List.head_eq_of_cons_eq hz
            rw [← he] at hdall2
            exact absurd (hdall2 'q' (List.mem_cons_self _ _)) (by decide)
        | cons w0 w' =>
          rw [List.cons_append] at hz
          have he := List.head_eq_of_cons_eq hz
          rw [← he] at hwall2
          exact absurd (hwall2 'q' (List.mem_cons_self _ _)) (by decide)
      | none =>
        rw [scanM_nomatch mQuad stU hm] at hq
        obtain ⟨w2, d2, u2, hz, hwall2, hdne2, hdall2⟩ := hq
        have hlen' : rest.length ≤ n := by simp only [List.length_cons] at hlen; omega
        cases w2 with
        | nil =>
          rw [List.nil_append] at hz
          cases d2 with
          | nil => exact absurd rfl hdne2
          | cons e d2' =>
            rw [List.cons_append] at hz
            have hc := List.head_eq_of_cons_eq hz
            have htl : scanM mQuad stU () rest = d2' ++ ':' :: u2 :=
              List.tail_eq_of_cons_eq hz
            have hrec : QD rest := by
              apply quadTD rest.length rest le_rfl
              exact ⟨d2', u2, htl, fun x hx => hdall2 x (List.mem_cons_of_mem e hx)⟩
            obtain ⟨d3, u3, hz3, hdig3⟩ := hrec
            refine ⟨[], c :: d3, u3, by rw [hz3]; rfl, fun x hx => absurd hx (List.not_mem_nil x),
              by simp, ?_⟩
            intro x hx
            rcases List.mem_cons.mp hx with h1 | h1
            · rw [h1, hc]
              exact hdall2 e (List.mem_cons_self e d2')
            · exact hdig3 x h1
        | cons w0 w' =>
          rw [List.cons_append] at hz
          have hc := List.head_eq_of_cons_eq hz
          have htl : scanM mQuad stU () rest = w' ++ d2 ++ ':' :: u2 :=
            List.tail_eq_of_cons_eq hz
          have hrec : QS rest := by
            apply ih rest hlen'
            exact ⟨w', d2, u2, htl, fun x hx => hwall2 x (List.mem_cons_of_mem w0 hx),
              hdne2, hdall2⟩
          obtain ⟨w3, d3, u3, hz3, hwall3, hdne3, hdall3⟩ := hrec
          refine ⟨c :: w3, d3, u3, by rw [hz3]; rfl, ?_, hdne3, hdall3⟩
          intro x hx
          rcases List.mem_cons.mp hx with h1 | h1
          · rw [h1, hc]
            exact hwall2 w0 (List.mem_cons_self w0 w')
          · exact hwall3 x h1

theorem quadTW : ∀ n s, s.length ≤ n → QW (scanM mQuad stU () s) → QW s := by
  intro n
  induction n with
  | zero =>
    intro s hlen hq
    have : s = [] := List.length_eq_zero.mp (Nat.le_zero.mp hlen)
    subst this
    exact hq
  | succ n ih =>
    intro s hlen hq
    cases s with
    | nil => exact hq
    | cons c rest =>
      cases hm : mQuad () (c :: rest) with
      | some val =>
        obtain ⟨r, q2, u⟩ := val
        obtain ⟨w, d, hs, -, -, -, hdall, hsc⟩ := scQ_match_decomp hm
        rw [hsc] at hq
        obtain ⟨w2, d2, u2, hz, hwne2, hwall2, hdne2, hdall2⟩ := hq
        exfalso
        rw [show chars "quadrant" ++ d ++ ':' :: scanM mQuad stU () u =
          'q' :: (chars "uadrant" ++ d ++ ':' :: scanM mQuad stU () u) by simp [chars]] at hz
        cases w2 with
        | nil => exact hwne2 rfl
        | cons w0 w' =>
          rw [List.cons_append] at hz
          have he := List.head_eq_of_cons_eq hz
          rw [← he] at hwall2
          exact absurd (hwall2 'q' (List.mem_cons_self _ _)) (by decide)
      | none =>
        rw [scanM_nomatch mQuad stU hm] at hq
        obtain ⟨w2, d2, u2, hz, hwne2, hwall2, hdne2, hdall2⟩ := hq
        have hlen' : rest.length ≤ n := by simp only [List.length_cons] at hlen; omega
        cases w2 with
        | nil => exact absurd rfl hwne2
        | cons w0 w' =>
          rw [List.cons_append] at hz
          have hc := List.head_eq_of_cons_eq hz
          have htl : scanM mQuad stU () rest = w' ++ d2 ++ ':' :: u2 :=
            List.tail_eq_of_cons_eq hz
          have hrec : QS rest := by
            apply quadTS rest.length rest le_rfl
            exact ⟨w', d2, u2, htl, fun x hx => hwall2 x (List.mem_cons_of_mem w0 hx),
              hdne2, hdall2⟩
          obtain ⟨w3, d3, u3, hz3, hwall3, hdne3, hdall3⟩ := hrec
          refine ⟨c :: w3, d3, u3, by rw [hz3]; rfl, by simp, ?_, hdne3, hdall3⟩
          intro x hx
          rcases List.mem_cons.mp hx with h1 | h1
          · rw [h1, hc]
            exact hwall2 w0 (List.mem_cons_self w0 w')
          · exact hwall3 x h1

theorem quad_suffix_cases {lit : List Char} (h : lit <:+ chars "quadrant") :
    lit = [] ∨ lit = chars "quadrant" ∨ ∃ c t, lit = c :: t ∧ ¬ c = 'q' := by
  rw [show chars "quadrant" = 'q' :: chars "uadrant" from rfl] at h
  rcases List.suffix_cons_iff.mp h with h1 | h
  · right; left; exact h1
  rcases List.suffix_cons_iff.mp h with h1 | h
  · right; right; exact ⟨_, _, h1, by decide⟩
  rcases List.suffix_cons_iff.mp h with h1 | h
  · right; right; exact ⟨_, _, h1, by decide⟩
  rcases List.suffix_cons_iff.mp h with h1 | h
  · right; right; exact ⟨_, _, h1, by decide⟩
  rcases List.suffix_cons_iff.mp h with h1 | h
  · right; right; exact ⟨_, _, h1, by decide⟩
  rcases List.suffix_cons_iff.mp h with h1 | h
  · right; right; exact ⟨_, _, h1, by decide⟩
  rcases List.suffix_cons_iff.mp h with h1 | h
  · right; right; exact ⟨_, _, h1, by decide⟩
  rcases List.suffix_cons_iff.mp h with h1 | h
  · right; right; exact ⟨_, _, h1, by decide⟩
  left
  exact List.suffix_nil.mp h

theorem QLit_nil_iff (z : List Char) : QLit [] z ↔ QW z := by
  constructor
  · rintro ⟨rest, hz, hq⟩
    rw [List.nil_append] at hz
    rw [hz]
    exact hq
  · intro hq
    exact ⟨z, rfl, hq⟩

theorem QLit_cons_iff {l0 : Char} {lit' : List Char} {x : Char} {z : List Char} :
    QLit (l0 :: lit') (x :: z) ↔ x = l0 ∧ QLit lit' z := by
  constructor
  · rintro ⟨rest, hz, hq⟩
    rw [List.cons_append] at hz
    refine ⟨List.head_eq_of_cons_eq hz, rest, List.tail_eq_of_cons_eq hz, hq⟩
  · rintro ⟨hx, rest, hz, hq⟩
    exact ⟨rest, by rw [hx, hz]; rfl, hq⟩

theorem quadTL : ∀ n s lit, s.length ≤ n → lit <:+ chars "quadrant" →
    QLit lit (scanM mQuad stU () s) → QLit lit s := by
  intro n
  induction n with
  | zero =>
    intro s lit hlen _ hq
    have : s = [] := List.length_eq_zero.mp (Nat.le_zero.mp hlen)
    subst this
    exact hq
  | succ n ih =>
    intro s lit hlen hsuf hq
    cases s with
    | nil => exact hq
    | cons c rest =>
      rcases quad_suffix_cases hsuf with hnil | hfull | ⟨c0, t0, hct, hc0⟩
      · subst hnil
        rw [QLit_nil_iff] at hq ⊢
        exact quadTW (c :: rest).length (c :: rest) le_rfl hq
      · cases hm : mQuad () (c :: rest) with
        | some val =>
          obtain ⟨r, q2, u⟩ := val
          obtain ⟨w, d, hs, hwne, hwall, hdne, hdall, hsc⟩ := scQ_match_decomp hm
          -- the source itself carries the full pattern
          subst hfull
          refine ⟨w ++ d ++ ':' :: u, by rw [hs]; simp, ?_⟩
          exact ⟨w, d, u, by simp, hwne, hwall, hdne, hdall⟩
        | none =>
          rw [scanM_nomatch mQuad stU hm] at hq
          subst hfull
          rw [show chars "quadrant" = 'q' :: chars "uadrant" from rfl] at hq ⊢
          rw [QLit_cons_iff] at hq
          obtain ⟨hcq, hq2⟩ := hq
          rw [QLit_cons_iff]
          have hlen' : rest.length ≤ n := by simp only [List.length_cons] at hlen; omega
          exact ⟨hcq, ih rest (chars "uadrant") hlen' ⟨['q'], rfl⟩ hq2⟩
      · subst hct
        cases hm : mQuad () (c :: rest) with
        | some val =>
          obtain ⟨r, q2, u⟩ := val
          obtain ⟨w, d, hs, -, -, -, -, hsc⟩ := scQ_match_decomp hm
          rw [hsc,
            show chars "quadrant" ++ d ++ ':' :: scanM mQuad stU () u =
              'q' :: (chars "uadrant" ++ d ++ ':' :: scanM mQuad stU () u) by simp [chars],
            QLit_cons_iff] at hq
          exact absurd hq.1.symm hc0
        | none =>
          rw [scanM_nomatch mQuad stU hm, QLit_cons_iff] at hq
          obtain ⟨hcc, hq2⟩ := hq
          have hsuf' : t0 <:+ chars "quadrant" := by
            obtain ⟨pre, hpre⟩ := hsuf
            exact ⟨pre ++ [c0], by rw [← hpre]; simp⟩
          have hlen' : rest.length ≤ n := by simp only [List.length_cons] at hlen; omega
          rw [QLit_cons_iff]
          exact ⟨hcc, ih rest t0 hlen' hsuf' hq2⟩

theorem QLit_full_to_some {s : List Char} (h : QLit (chars "quadrant") s) :
    ∃ r u, mQuad () s = some (r, (), u) := by
  obtain ⟨rest, hs, w, d, u0, hrest, hwne, hwall, hdne, hdall⟩ := h
  refine ⟨chars "quadrant" ++ d ++ [':'], u0, mQuad_some_iff.mpr ⟨w, d, ?_, hwne, hwall,
    hdne, hdall, rfl⟩⟩
  rw [hs, hrest]
  simp

theorem quad_idem_aux : ∀ n s, s.length ≤ n →
    scanM mQuad stU () (scanM mQuad stU () s) = scanM mQuad stU () s := by
  intro n
  induction n with
  | zero =>
    intro s hlen
    have : s = [] := List.length_eq_zero.mp (Nat.le_zero.mp hlen)
    subst this
    rfl
  | succ n ih =>
    intro s hlen
    cases s with
    | nil => rfl
    | cons c rest =>
      cases hm : mQuad () (c :: rest) with
      | some val =>
        obtain ⟨r, q2, u⟩ := val
        obtain ⟨w, d, hs, -, -, hdne, hdall, hsc⟩ := scQ_match_decomp hm
        have hu : u.length ≤ n := by
          have := mQuad_shrink () (c :: rest) r q2 u hm
          simp only [List.length_cons] at this hlen
          omega
        rw [hsc, scQ_block _ hdne hdall, ih u hu]
      | none =>
        rw [scanM_nomatch mQuad stU hm]
        have hm2 : mQuad () (c :: scanM mQuad stU (stU () c) rest) = none := by
          cases hm2 : mQuad () (c :: scanM mQuad stU (stU () c) rest) with
          | none => rfl
          | some val2 =>
            exfalso
            obtain ⟨r2, q22, u2⟩ := val2
            obtain ⟨w2, d2, hs2, hwne2, hwall2, hdne2, hdall2, -⟩ := mQuad_some_iff.mp
              (by cases q22; exact hm2)
            have hql : QLit (chars "quadrant") (c :: scanM mQuad stU (stU () c) rest) := by
              refine ⟨w2 ++ d2 ++ ':' :: u2, by rw [hs2]; simp, ?_⟩
              exact ⟨w2, d2, u2, by simp, hwne2, hwall2, hdne2, hdall2⟩
            rw [show chars "quadrant" = 'q' :: chars "uadrant" from rfl, QLit_cons_iff] at hql
            obtain ⟨hcq, hql2⟩ := hql
            have hql3 : QLit (chars "uadrant") rest :=
              quadTL rest.length rest (chars "uadrant") le_rfl ⟨['q'], rfl⟩ hql2
            have hqlfull : QLit (chars "quadrant") (c :: rest) := by
              rw [show chars "quadrant" = 'q' :: chars "uadrant" from rfl, QLit_cons_iff]
              exact ⟨hcq, hql3⟩
            obtain ⟨r3, u3, hm3⟩ := QLit_full_to_some hqlfull
            rw [hm3] at hm
            exact absurd hm (by simp)
        rw [scanM_nomatch mQuad stU hm2]
        have hlen' : rest.length ≤ n := by simp only [List.length_cons] at hlen; omega
        rw [ih rest hlen']

/-- Idempotence of the quadrant repair. -/
theorem fix_quadrant_chart_idem (s : List Char) :
    fix_quadrant_chart (fix_quadrant_chart s) = fix_quadrant_chart s :=
  quad_idem_aux s.length s le_rfl

/-! ### Idempotence of `fix_xy_chart` -/

theorem drop5_tok {tok : List Char} (hlen : tok.length = 5) (x : List Char) :
    (tok ++ x).drop 5 = x := by
  rw [← hlen, List.drop_left]

theorem drop6_label (x : List Char) : (chars "label:" ++ x).drop 6 = x := by
  rw [show (6 : Nat) = (chars "label:").length from rfl, List.drop_left]

theorem mXY_some_iff {s r u : List Char} :
    mXY () s = some (r, (), u) ↔
      ∃ tok w, (tok = chars "xAxis" ∨ tok = chars "yAxis") ∧
        s = tok ++ w ++ chars "label:" ++ u ∧ w ≠ [] ∧ AllB isPyWs w ∧
        r = tok ++ chars " label:" := by
  constructor
  · intro h
    simp only [mXY] at h
    have main : ∀ tok : List Char, tok.length = 5 → tok.isPrefixOf s = true →
        (if (s.drop 5).takeWhile isPyWs = [] then none
         else
          if (chars "label:").isPrefixOf ((s.drop 5).dropWhile isPyWs) then
            some (tok ++ chars " label:", (), ((s.drop 5).dropWhile isPyWs).drop 6)
          else none) = some (r, (), u) →
        ∃ w, s = tok ++ w ++ chars "label:" ++ u ∧ w ≠ [] ∧ AllB isPyWs w ∧
          r = tok ++ chars " label:" := by
      intro tok hlen5 hpre hh
      split at hh
      next => exact absurd hh (by simp)
      next hw =>
        split at hh
        next hl =>
          simp only [Option.some.injEq, Prod.mk.injEq] at hh
          obtain ⟨hr, -, hu⟩ := hh
          obtain ⟨rest, hrest⟩ := isPrefixOf_decomp hpre
          subst hrest
          rw [drop5_tok hlen5] at hw hl hu
          obtain ⟨lrest, hlrest⟩ := isPrefixOf_decomp hl
          rw [hlrest, drop6_label] at hu
          refine ⟨rest.takeWhile isPyWs, ?_, hw, allB_takeWhile _ _, hr.symm⟩
          have a1 : rest = rest.takeWhile isPyWs ++ rest.dropWhile isPyWs :=
            (List.takeWhile_append_dropWhile isPyWs rest).symm
          rw [hlrest, hu] at a1
          conv_lhs => rw [a1]
          simp
        next => exact absurd hh (by simp)
    split at h
    next hx =>
      obtain ⟨w, hw⟩ := main (chars "xAxis") rfl hx h
      exact ⟨chars "xAxis", w, Or.inl rfl, hw⟩
    next hx =>
      split at h
      next hy =>
        obtain ⟨w, hw⟩ := main (chars "yAxis") rfl hy h
        exact ⟨chars "yAxis", w, Or.inr rfl, hw⟩
      next => exact absurd h (by simp)
  · rintro ⟨tok, w, htok, hs, hwne, hwall, hr⟩
    obtain ⟨w0, w', hw0⟩ : ∃ w0 w', w = w0 :: w' := by
      cases w with
      | nil => exact absurd rfl hwne
      | cons a b => exact ⟨a, b, rfl⟩
    have htw : (w ++ (chars "label:" ++ u)).takeWhile isPyWs = w ∧
        (w ++ (chars "label:" ++ u)).dropWhile isPyWs = chars "label:" ++ u := by
      refine takeWhile_append_of_all isPyWs w (chars "label:" ++ u) hwall ?_
      right
      exact ⟨'l', chars "abel:" ++ u, by simp [chars], by decide⟩
    simp only [mXY]
    rcases htok with hx | hy
    · subst hx
      rw [if_pos (by rw [hs, List.append_assoc, List.append_assoc]
                     exact isPrefixOf_append_self _ _)]
      rw [show s.drop 5 = w ++ (chars "label:" ++ u) by
        rw [hs, List.append_assoc, List.append_assoc]
        exact drop5_tok (show (chars "xAxis").length = 5 from rfl) _]
      rw [htw.1, htw.2]
      rw [if_neg (by rw [hw0]; simp)]
      rw [if_pos (isPrefixOf_append_self _ _), drop6_label, hr]
    · subst hy
      have hnx : (chars "xAxis").isPrefixOf s = false := by
        rw [hs]
        rw [show chars "yAxis" ++ w ++ chars "label:" ++ u =
          'y' :: (chars "Axis" ++ w ++ chars "label:" ++ u) by simp [chars]]
        rw [show chars "xAxis" = 'x' :: chars "Axis" from rfl]
        exact isPrefixOf_cons_false (by decide)
      rw [hnx]
      simp only [Bool.false_eq_true, if_false]
      rw [if_pos (by rw [hs, List.append_assoc, List.append_assoc]
                     exact isPrefixOf_append_self _ _)]
      rw [show s.drop 5 = w ++ (chars "label:" ++ u) by
        rw [hs, List.append_assoc, List.append_assoc]
        exact drop5_tok (show (chars "yAxis").length = 5 from rfl) _]
      rw [htw.1, htw.2]
      rw [if_neg (by rw [hw0]; simp)]
      rw [if_pos (isPrefixOf_append_self _ _), drop6_label, hr]

theorem scanM_match_ne {σ : Type} (m : Matcher σ) (st : σ → Char → σ) (hm : Shrinking m)
    {q : σ} {s r : List Char} {q2 : σ} {u : List Char} (hs : s ≠ [])
    (h : m q s = some (r, q2, u)) :
    scanM m st q s = r ++ scanM m st q2 u := by
  cases s with
  | nil => exact absurd rfl hs
  | cons c t => exact scanM_match m st hm h

theorem mXY_block_match {tok : List Char} (z : List Char)
    (htok : tok = chars "xAxis" ∨ tok = chars "yAxis") :
    mXY () (tok ++ chars " label:" ++ z) = some (tok ++ chars " label:", (), z) := by
  apply mXY_some_iff.mpr
  refine ⟨tok, [' '], htok, ?_, by simp, ?_, rfl⟩
  · rcases htok with h | h <;> subst h <;> simp [chars]
  · intro x hx
    simp only [List.mem_singleton] at hx
    subst hx
    decide

theorem scX_block {tok : List Char} (z : List Char)
    (htok : tok = chars "xAxis" ∨ tok = chars "yAxis") :
    scanM mXY stU () (tok ++ chars " label:" ++ z) =
      tok ++ chars " label:" ++ scanM mXY stU () z := by
  have hne : tok ++ chars " label:" ++ z ≠ [] := by
    rcases htok with h | h <;> subst h <;> simp [chars]
  exact scanM_match_ne mXY stU mXY_shrink hne (mXY_block_match z htok)

theorem scX_match_decomp {c : Char} {rest r : List Char} {q2 : Unit} {u : List Char}
    (hm : mXY () (c :: rest) = some (r, q2, u)) :
    ∃ tok w, (tok = chars "xAxis" ∨ tok = chars "yAxis") ∧
      c :: rest = tok ++ w ++ chars "label:" ++ u ∧ w ≠ [] ∧ AllB isPyWs w ∧
      scanM mXY stU () (c :: rest) = tok ++ chars " label:" ++ scanM mXY stU () u := by
  cases q2
  obtain ⟨tok, w, htok, hs, hwne, hwall, hr⟩ := mXY_some_iff.mp hm
  refine ⟨tok, w, htok, hs, hwne, hwall, ?_⟩
  rw [scanM_match mXY stU mXY_shrink hm, hr, List.append_assoc]

theorem block_cons {tok : List Char} (htok : tok = chars "xAxis" ∨ tok = chars "yAxis")
    (z : List Char) :
    ∃ c0 t0, tok ++ chars " label:" ++ z = c0 :: t0 ∧ (c0 = 'x' ∨ c0 = 'y') := by
  rcases htok with h | h <;> subst h
  · exact ⟨'x', chars "Axis label:" ++ z, by simp [chars], Or.inl rfl⟩
  · exact ⟨'y', chars "Axis label:" ++ z, by simp [chars], Or.inr rfl⟩

theorem label_suffix_cases {lit : List Char} (h : lit <:+ chars "label:") :
    lit = [] ∨ ∃ c t, lit = c :: t ∧ ¬ c = 'x' ∧ ¬ c = 'y' := by
  rw [show chars "label:" = 'l' :: chars "abel:" from rfl] at h
  rcases List.suffix_cons_iff.mp h with h1 | h
  · right; exact ⟨_, _, h1, by decide, by decide⟩
  rcases List.suffix_cons_iff.mp h with h1 | h
  · right; exact ⟨_, _, h1, by decide, by decide⟩
  rcases List.suffix_cons_iff.mp h with h1 | h
  · right; exact ⟨_, _, h1, by decide, by decide⟩
  rcases List.suffix_cons_iff.mp h with h1 | h
  · right; exact ⟨_, _, h1, by decide, by decide⟩
  rcases List.suffix_cons_iff.mp h with h1 | h
  · right; exact ⟨_, _, h1, by decide, by decide⟩
  rcases List.suffix_cons_iff.mp h with h1 | h
  · right; exact ⟨_, _, h1, by decide, by decide⟩
  left
  exact List.suffix_nil.mp h

theorem axis_suffix_cases {lit : List Char}
    (h : lit <:+ chars "xAxis" ∨ lit <:+ chars "yAxis") :
    lit = [] ∨ lit = chars "xAxis" ∨ lit = chars "yAxis" ∨ lit = chars "xis" ∨
      ∃ c t, lit = c :: t ∧ ¬ c = 'x' ∧ ¬ c = 'y' := by
  rcases h with h | h
  · rw [show chars "xAxis" = 'x' :: chars "Axis" from rfl] at h
    rcases List.suffix_cons_iff.mp h with h1 | h
    · right; left; exact h1
    rcases List.suffix_cons_iff.mp h with h1 | h
    · right; right; right; right; exact ⟨_, _, h1, by decide, by decide⟩
    rcases List.suffix_cons_iff.mp h with h1 | h
    · right; right; right; left; exact h1
    rcases List.suffix_cons_iff.mp h with h1 | h
    · right; right; right; right; exact ⟨_, _, h1, by decide, by decide⟩
    rcases List.suffix_cons_iff.mp h with h1 | h
    · right; right; right; right; exact ⟨_, _, h1, by decide, by decide⟩
    left
    exact List.suffix_nil.mp h
  · rw [show chars "yAxis" = 'y' :: chars "Axis" from rfl] at h
    rcases List.suffix_cons_iff.mp h with h1 | h
    · right; right; left; exact h1
    rcases List.suffix_cons_iff.mp h with h1 | h
    · right; right; right; right; exact ⟨_, _, h1, by decide, by decide⟩
    rcases List.suffix_cons_iff.mp h with h1 | h
    · right; right; right; left; exact h1
    rcases List.suffix_cons_iff.mp h with h1 | h
    · right; right; right; right; exact ⟨_, _, h1, by decide, by decide⟩
    rcases List.suffix_cons_iff.mp h with h1 | h
    · right; right; right; right; exact ⟨_, _, h1, by decide, by decide⟩
    left
    exact List.suffix_nil.mp h

theorem XLit_nil_iff (z : List Char) : XLit [] z ↔ XW z := by
  constructor
  · rintro ⟨rest, hz, hq⟩
    rw [List.nil_append] at hz
    rw [hz]
    exact hq
  · intro hq
    exact ⟨z, rfl, hq⟩

theorem XLit_cons_iff {l0 : Char} {lit' : List Char} {x : Char} {z : List Char} :
    XLit (l0 :: lit') (x :: z) ↔ x = l0 ∧ XLit lit' z := by
  constructor
  · rintro ⟨rest, hz, hq⟩
    rw [List.cons_append] at hz
    refine ⟨List.head_eq_of_cons_eq hz, rest, List.tail_eq_of_cons_eq hz, hq⟩
  · rintro ⟨hx, rest, hz, hq⟩
    exact ⟨rest, by rw [hx, hz]; rfl, hq⟩

theorem XLit_full_to_some {tok s : List Char}
    (htok : tok = chars "xAxis" ∨ tok = chars "yAxis") (h : XLit tok s) :
    ∃ r u, mXY () s = some (r, (), u) := by
  obtain ⟨rest, hs, w, u0, hrest, hwne, hwall⟩ := h
  exact ⟨tok ++ chars " label:", u0,
    mXY_some_iff.mpr ⟨tok, w, htok, by rw [hs, hrest]; simp, hwne, hwall, rfl⟩⟩

theorem xyTLab : ∀ n s lit, s.length ≤ n → lit <:+ chars "label:" →
    XL lit (scanM mXY stU () s) → XL lit s := by
  intro n
  induction n with
  | zero =>
    intro s lit hlen _ hq
    have : s = [] := List.length_eq_zero.mp (Nat.le_zero.mp hlen)
    subst this
    exact hq
  | succ n ih =>
    intro s lit hlen hsuf hq
    cases s with
    | nil => exact hq
    | cons c rest =>
      rcases label_suffix_cases hsuf with hnil | ⟨c0, t0, hct, hc0x, hc0y⟩
      · subst hnil
        exact ⟨c :: rest, by simp⟩
      · subst hct
        cases hm : mXY () (c :: rest) with
        | some val =>
          obtain ⟨r, q2, u⟩ := val
          obtain ⟨tok, w, htok, hs, -, -, hsc⟩ := scX_match_decomp hm
          rw [hsc] at hq
          obtain ⟨c1, t1, hbc, hc1⟩ := block_cons htok (scanM mXY stU () u)
          rw [hbc] at hq
          obtain ⟨u2, hz⟩ := hq
          rw [List.cons_append] at hz
          have he := List.head_eq_of_cons_eq hz
          rcases hc1 with h | h <;> rw [h] at he
          · exact absurd he.symm hc0x
          · exact absurd he.symm hc0y
        | none =>
          rw [scanM_nomatch mXY stU hm] at hq
          obtain ⟨u2, hz⟩ := hq
          rw [List.cons_append] at hz
          have hc := List.head_eq_of_cons_eq hz
          have htl : scanM mXY stU () rest = t0 ++ u2 := List.tail_eq_of_cons_eq hz
          have hsuf' : t0 <:+ chars "label:" := by
            obtain ⟨pre, hpre⟩ := hsuf
            exact ⟨pre ++ [c0], by rw [← hpre]; simp⟩
          have hlen' : rest.length ≤ n := by simp only [List.length_cons] at hlen; omega
          obtain ⟨u3, h3⟩ := ih rest t0 hlen' hsuf' ⟨u2, htl⟩
          exact ⟨u3, by rw [h3, hc]; rfl⟩

theorem xyTS : ∀ n s, s.length ≤ n → XS (scanM mXY stU () s) → XS s := by
  intro n
  induction n with
  | zero =>
    intro s hlen hq
    have : s = [] := List.length_eq_zero.mp (Nat.le_zero.mp hlen)
    subst this
    exact hq
  | succ n ih =>
    intro s hlen hq
    cases s with
    | nil => exact hq
    | cons c rest =>
      cases hm : mXY () (c :: rest) with
      | some val =>
        obtain ⟨r, q2, u⟩ := val
        obtain ⟨tok, w, htok, hs, -, -, hsc⟩ := scX_match_decomp hm
        rw [hsc] at hq
        obtain ⟨c1, t1, hbc, hc1⟩ := block_cons htok (scanM mXY stU () u)
        rw [hbc] at hq
        obtain ⟨w2, u2, hz, hwall2⟩ := hq
        exfalso
        cases w2 with
        | nil =>
          rw [List.nil_append, show chars "label:" = 'l' :: chars "abel:" from rfl,
            List.cons_append] at hz
          have he := List.head_eq_of_cons_eq hz
          rcases hc1 with h | h <;> rw [h] at he <;> exact absurd he (by decide)
        | cons w0 w' =>
          rw [List.cons_append, List.cons_append] at hz
          have he := List.head_eq_of_cons_eq hz
          have hws := hwall2 w0 (List.mem_cons_self w0 w')
          rw [← he] at hws
          rcases hc1 with h | h <;> rw [h] at hws <;> exact absurd hws (by decide)
      | none =>
        rw [scanM_nomatch mXY stU hm] at hq
        obtain ⟨w2, u2, hz, hwall2⟩ := hq
        have hlen' : rest.length ≤ n := by simp only [List.length_cons] at hlen; omega
        cases w2 with
        | nil =>
          rw [List.nil_append, show chars "label:" = 'l' :: chars "abel:" from rfl,
            List.cons_append] at hz
          have hc := List.head_eq_of_cons_eq hz
          have htl : scanM mXY stU () rest = chars "abel:" ++ u2 :=
            List.tail_eq_of_cons_eq hz
          obtain ⟨u3, h3⟩ := xyTLab rest.length rest (chars "abel:") le_rfl
            ⟨['l'], by simp [chars]⟩ ⟨u2, htl⟩
          refine ⟨[], u3, ?_, fun x hx => absurd hx (List.not_mem_nil x)⟩
          rw [h3, hc]
          simp [chars]
        | cons w0 w' =>
          rw [List.cons_append, List.cons_append] at hz
          have hc := List.head_eq_of_cons_eq hz
          have htl : scanM mXY stU () rest = w' ++ chars "label:" ++ u2 :=
            List.tail_eq_of_cons_eq hz
          have hrec : XS rest := by
            apply ih rest hlen'
            exact ⟨w', u2, htl, fun x hx => hwall2 x (List.mem_cons_of_mem w0 hx)⟩
          obtain ⟨w3, u3, hz3, hwall3⟩ := hrec
          refine ⟨c :: w3, u3, by rw [hz3]; rfl, ?_⟩
          intro x hx
          rcases List.mem_cons.mp hx with h1 | h1
          · rw [h1, hc]
            exact hwall2 w0 (List.mem_cons_self w0 w')
          · exact hwall3 x h1

theorem xyTW : ∀ n s, s.length ≤ n → XW (scanM mXY stU () s) → XW s := by
  intro n
  induction n with
  | zero =>
    intro s hlen hq
    have : s = [] := List.length_eq_zero.mp (Nat.le_zero.mp hlen)
    subst this
    exact hq
  | succ n ih =>
    intro s hlen hq
    cases s with
    | nil => exact hq
    | cons c rest =>
      cases hm : mXY () (c :: rest) with
      | some val =>
        obtain ⟨r, q2, u⟩ := val
        obtain ⟨tok, w, htok, hs, -, -, hsc⟩ := scX_match_decomp hm
        rw [hsc] at hq
        obtain ⟨c1, t1, hbc, hc1⟩ := block_cons htok (scanM mXY stU () u)
        rw [hbc] at hq
        obtain ⟨w2, u2, hz, hwne2, hwall2⟩ := hq
        exfalso
        cases w2 with
        | nil => exact hwne2 rfl
        | cons w0 w' =>
          rw [List.cons_append, List.cons_append] at hz
          have he := List.head_eq_of_cons_eq hz
          have hws := hwall2 w0 (List.mem_cons_self w0 w')
          rw [← he] at hws
          rcases hc1 with h | h <;> rw [h] at hws <;> exact absurd hws (by decide)
      | none =>
        rw [scanM_nomatch mXY stU hm] at hq
        obtain ⟨w2, u2, hz, hwne2, hwall2⟩ := hq
        cases w2 with
        | nil => exact absurd rfl hwne2
        | cons w0 w' =>
          rw [List.cons_append, List.cons_append] at hz
          have hc := List.head_eq_of_cons_eq hz
          have htl : scanM mXY stU () rest = w' ++ chars "label:" ++ u2 :=
            List.tail_eq_of_cons_eq hz
          have hrec : XS rest := by
            apply xyTS rest.length rest le_rfl
            exact ⟨w', u2, htl, fun x hx => hwall2 x (List.mem_cons_of_mem w0 hx)⟩
          obtain ⟨w3, u3, hz3, hwall3⟩ := hrec
          refine ⟨c :: w3, u3, by rw [hz3]; rfl, by simp, ?_⟩
          intro x hx
          rcases List.mem_cons.mp hx with h1 | h1
          · rw [h1, hc]
            exact hwall2 w0 (List.mem_cons_self w0 w')
          · exact hwall3 x h1

theorem xyTLit : ∀ n s lit, s.length ≤ n →
    (lit <:+ chars "xAxis" ∨ lit <:+ chars "yAxis") →
    XLit lit (scanM mXY stU () s) → XLit lit s := by
  intro n
  induction n with
  | zero =>
    intro s lit hlen _ hq
    have : s = [] := List.length_eq_zero.mp (Nat.le_zero.mp hlen)
    subst this
    exact hq
  | succ n ih =>
    intro s lit hlen hsuf hq
    cases s with
    | nil => exact hq
    | cons c rest =>
      have hlen' : rest.length ≤ n := by simp only [List.length_cons] at hlen; omega
      rcases axis_suffix_cases hsuf with hnil | hfx | hfy | hxis | ⟨c0, t0, hct, hc0x, hc0y⟩
      · subst hnil
        rw [XLit_nil_iff] at hq ⊢
        exact xyTW (c :: rest).length (c :: rest) le_rfl hq
      · subst hfx
        cases hm : mXY () (c :: rest) with
        | some val =>
          obtain ⟨r, q2, u⟩ := val
          obtain ⟨tok, w, htok, hs, hwne, hwall, hsc⟩ := scX_match_decomp hm
          rcases htok with h | h <;> subst h
          · refine ⟨w ++ chars "label:" ++ u, by rw [hs]; simp, w, u, rfl, hwne, hwall⟩
          · rw [hsc, show chars "yAxis" ++ chars " label:" ++ scanM mXY stU () u =
              'y' :: (chars "Axis label:" ++ scanM mXY stU () u) by simp [chars],
              show chars "xAxis" = 'x' :: chars "Axis" from rfl, XLit_cons_iff] at hq
            exact absurd hq.1 (by decide)
        | none =>
          rw [scanM_nomatch mXY stU hm] at hq
          rw [show chars "xAxis" = 'x' :: chars "Axis" from rfl, XLit_cons_iff] at hq ⊢
          exact ⟨hq.1, ih rest (chars "Axis") hlen'
            (Or.inl ⟨['x'], by simp [chars]⟩) hq.2⟩
      · subst hfy
        cases hm : mXY () (c :: rest) with
        | some val =>
          obtain ⟨r, q2, u⟩ := val
          obtain ⟨tok, w, htok, hs, hwne, hwall, hsc⟩ := scX_match_decomp hm
          rcases htok with h | h <;> subst h
          · rw [hsc, show chars "xAxis" ++ chars " label:" ++ scanM mXY stU () u =
              'x' :: (chars "Axis label:" ++ scanM mXY stU () u) by simp [chars],
              show chars "yAxis" = 'y' :: chars "Axis" from rfl, XLit_cons_iff] at hq
            exact absurd hq.1 (by decide)
          · refine ⟨w ++ chars "label:" ++ u, by rw [hs]; simp, w, u, rfl, hwne, hwall⟩
        | none =>
          rw [scanM_nomatch mXY stU hm] at hq
          rw [show chars "yAxis" = 'y' :: chars "Axis" from rfl, XLit_cons_iff] at hq ⊢
          exact ⟨hq.1, ih rest (chars "Axis") hlen'
            (Or.inr ⟨['y'], by simp [chars]⟩) hq.2⟩
      · subst hxis
        cases hm : mXY () (c :: rest) with
        | some val =>
          obtain ⟨r, q2, u⟩ := val
          obtain ⟨tok, w, htok, hs, hwne, hwall, hsc⟩ := scX_match_decomp hm
          rcases htok with h | h <;> subst h
          · rw [hsc, show chars "xAxis" ++ chars " label:" ++ scanM mXY stU () u =
              'x' :: 'A' :: (chars "xis label:" ++ scanM mXY stU () u) by simp [chars],
              show chars "xis" = 'x' :: 'i' :: chars "s" from rfl, XLit_cons_iff] at hq
            have h2 := hq.2
            rw [XLit_cons_iff] at h2
            exact absurd h2.1 (by decide)
          · rw [hsc, show chars "yAxis" ++ chars " label:" ++ scanM mXY stU () u =
              'y' :: (chars "Axis label:" ++ scanM mXY stU () u) by simp [chars],
              show chars "xis" = 'x' :: chars "is" from rfl, XLit_cons_iff] at hq
            exact absurd hq.1 (by decide)
        | none =>
          rw [scanM_nomatch mXY stU hm] at hq
          rw [show chars "xis" = 'x' :: chars "is" from rfl, XLit_cons_iff] at hq ⊢
          exact ⟨hq.1, ih rest (chars "is") hlen'
            (Or.inl ⟨chars "xAx", by simp [chars]⟩) hq.2⟩
      · subst hct
        cases hm : mXY () (c :: rest) with
        | some val =>
          obtain ⟨r, q2, u⟩ := val
          obtain ⟨tok, w, htok, hs, -, -, hsc⟩ := scX_match_decomp hm
          rw [hsc] at hq
          obtain ⟨c1, t1, hbc, hc1⟩ := block_cons htok (scanM mXY stU () u)
          rw [hbc, XLit_cons_iff] at hq
          rcases hc1 with h | h <;> rw [h] at hq
          · exact absurd hq.1.symm hc0x
          · exact absurd hq.1.symm hc0y
        | none =>
          rw [scanM_nomatch mXY stU hm, XLit_cons_iff] at hq
          have hsuf' : t0 <:+ chars "xAxis" ∨ t0 <:+ chars "yAxis" := by
            rcases hsuf with h | h
            · obtain ⟨pre, hpre⟩ := h
              exact Or.inl ⟨pre ++ [c0], by rw [← hpre]; simp⟩
            · obtain ⟨pre, hpre⟩ := h
              exact Or.inr ⟨pre ++ [c0], by rw [← hpre]; simp⟩
          rw [XLit_cons_iff]
          exact ⟨hq.1, ih rest t0 hlen' hsuf' hq.2⟩

theorem xy_idem_aux : ∀ n s, s.length ≤ n →
    scanM mXY stU () (scanM mXY stU () s) = scanM mXY stU () s := by
  intro n
  induction n with
  | zero =>
    intro s hlen
    have : s = [] := List.length_eq_zero.mp (Nat.le_zero.mp hlen)
    subst this
    rfl
  | succ n ih =>
    intro s hlen
    cases s with
    | nil => rfl
    | cons c rest =>
      cases hm : mXY () (c :: rest) with
      | some val =>
        obtain ⟨r, q2, u⟩ := val
        obtain ⟨tok, w, htok, hs, -, -, hsc⟩ := scX_match_decomp hm
        have hu : u.length ≤ n := by
          have := mXY_shrink () (c :: rest) r q2 u hm
          simp only [List.length_cons] at this hlen
          omega
        rw [hsc, scX_block (scanM mXY stU () u) htok, ih u hu]
      | none =>
        rw [scanM_nomatch mXY stU hm]
        have hm2 : mXY () (c :: scanM mXY stU (stU () c) rest) = none := by
          cases hm2 : mXY () (c :: scanM mXY stU (stU () c) rest) with
          | none => rfl
          | some val2 =>
            exfalso
            obtain ⟨r2, q22, u2⟩ := val2
            obtain ⟨tok2, w2, htok2, hs2, hwne2, hwall2, -⟩ := mXY_some_iff.mp
              (by cases q22; exact hm2)
            have hxl : XLit tok2 (c :: scanM mXY stU (stU () c) rest) :=
              ⟨w2 ++ chars "label:" ++ u2, by rw [hs2]; simp, w2, u2, rfl, hwne2, hwall2⟩
            rcases htok2 with h | h <;> subst h
            · rw [show chars "xAxis" = 'x' :: chars "Axis" from rfl, XLit_cons_iff] at hxl
              have h3 := xyTLit rest.length rest (chars "Axis") le_rfl
                (Or.inl ⟨['x'], by simp [chars]⟩) hxl.2
              have hfull : XLit (chars "xAxis") (c :: rest) := by
                rw [show chars "xAxis" = 'x' :: chars "Axis" from rfl, XLit_cons_iff]
                exact ⟨hxl.1, h3⟩
              obtain ⟨r3, u3, hm3⟩ := XLit_full_to_some (Or.inl rfl) hfull
              rw [hm3] at hm
              exact absurd hm (by simp)
            · rw [show chars "yAxis" = 'y' :: chars "Axis" from rfl, XLit_cons_iff] at hxl
              have h3 := xyTLit rest.length rest (chars "Axis") le_rfl
                (Or.inr ⟨['y'], by simp [chars]⟩) hxl.2
              have hfull : XLit (chars "yAxis") (c :: rest) := by
                rw [show chars "yAxis" = 'y' :: chars "Axis" from rfl, XLit_cons_iff]
                exact ⟨hxl.1, h3⟩
              obtain ⟨r3, u3, hm3⟩ := XLit_full_to_some (Or.inr rfl) hfull
              rw [hm3] at hm
              exact absurd hm (by simp)
        rw [scanM_nomatch mXY stU hm2]
        have hlen' : rest.length ≤ n := by simp only [List.length_cons] at hlen; omega
        rw [ih rest hlen']

/-- Idempotence of the axis-label repair. -/
theorem fix_xy_chart_idem (s : List Char) :
    fix_xy_chart (fix_xy_chart s) = fix_xy_chart s :=
  xy_idem_aux s.length s le_rfl

/-! ### Idempotence of `fix_sankey` (as composed in the source) -/

theorem dropWhile_head_false {p : Char → Bool} :
    ∀ {l : List Char} {c : Char} {t : List Char}, l.dropWhile p = c :: t → p c = false := by
  intro l
  induction l with
  | nil => intro c t h; simp at h
  | cons a l' ih =>
    intro c t h
    by_cases hpa : p a = true
    · rw [List.dropWhile_cons_of_pos hpa] at h
      exact ih h
    · rw [List.dropWhile_cons_of_neg hpa] at h
      have hc : a = c := List.head_eq_of_cons_eq h
      rw [← hc]
      simpa using hpa

theorem mDash_some_of {s t : List Char} (h : s.dropWhile isPyWs = '-' :: '-' :: t) :
    mDash () s = some (chars " -- ", (), t.dropWhile isPyWs) := by
  simp only [mDash]
  rw [h]
  rfl

theorem mDash_some_elim {s r : List Char} {q2 : Unit} {u : List Char}
    (h : mDash () s = some (r, q2, u)) :
    ∃ t, s.dropWhile isPyWs = '-' :: '-' :: t ∧ r = chars " -- " ∧
      u = t.dropWhile isPyWs := by
  simp only [mDash] at h
  split at h
  next t hd =>
    simp only [Option.some.injEq, Prod.mk.injEq] at h
    obtain ⟨hr, -, hu⟩ := h
    exact ⟨t, hd, hr.symm, hu.symm⟩
  next => exact absurd h (by simp)

theorem DashAt_of_some {s r : List Char} {q2 : Unit} {u : List Char}
    (h : mDash () s = some (r, q2, u)) : DashAt s := by
  obtain ⟨t, hd, -, -⟩ := mDash_some_elim h
  exact ⟨t, hd⟩

theorem DashAt_some {s : List Char} (h : DashAt s) :
    ∃ r u, mDash () s = some (r, (), u) := by
  obtain ⟨t, ht⟩ := h
  exact ⟨_, _, mDash_some_of ht⟩

theorem mDash_none_of_not {s : List Char} (h : ¬ DashAt s) : mDash () s = none := by
  cases hm : mDash () s with
  | none => rfl
  | some val =>
    obtain ⟨r, q2, u⟩ := val
    exact absurd (DashAt_of_some hm) h

theorem mArrow_none_of (s : List Char)
    (h : ∀ t, s.dropWhile isPyWs ≠ '-' :: '-' :: '>' :: t) : mArrow () s = none := by
  simp only [mArrow]

theorem BSd_ne_nil {z : List Char} (h : BSd z) : z ≠ [] := by
  cases h <;> simp [chars]

theorem BSd_head {z : List Char} (h : BSd z) :
    ∃ w, z = ' ' :: '-' :: '-' :: ' ' :: w := by
  cases h with
  | mkNil => exact ⟨[], by simp [chars]⟩
  | mkCons c t hg hws hnd => exact ⟨c :: t, by simp [chars]⟩
  | mkChain z' hb => exact ⟨z', by simp [chars]⟩

theorem TDashF : ∀ n s, s.length ≤ n →
    DashAt (scanM mDash stU () s) → DashAt s := by
  intro n
  induction n with
  | zero =>
    intro s hlen hq
    have : s = [] := List.length_eq_zero.mp (Nat.le_zero.mp hlen)
    subst this
    exact hq
  | succ n ih =>
    intro s hlen hq
    cases s with
    | nil => exact hq
    | cons c rest =>
      have hlen' : rest.length ≤ n := by simp only [List.length_cons] at hlen; omega
      cases hm : mDash () (c :: rest) with
      | some val =>
        obtain ⟨r, q2, u⟩ := val
        exact DashAt_of_some hm
      | none =>
        rw [scanM_nomatch mDash stU hm] at hq
        by_cases hw : isPyWs c = true
        · obtain ⟨t, ht⟩ := hq
          rw [List.dropWhile_cons_of_pos hw] at ht
          obtain ⟨t2, ht2⟩ := ih rest hlen' ⟨t, ht⟩
          exact ⟨t2, by rw [List.dropWhile_cons_of_pos hw]; exact ht2⟩
        · obtain ⟨t, ht⟩ := hq
          rw [List.dropWhile_cons_of_neg hw] at ht
          have hc : c = '-' := List.head_eq_of_cons_eq ht
          have htl : scanM mDash stU () rest = '-' :: t := List.tail_eq_of_cons_eq ht
          cases rest with
          | nil =>
            rw [scanM_nil] at htl
            simp at htl
          | cons d r2 =>
            cases hm2 : mDash () (d :: r2) with
            | some val2 =>
              obtain ⟨r2', q2', u2'⟩ := val2
              rw [scanM_match mDash stU mDash_shrink hm2] at htl
              obtain ⟨t2, -, hr2, -⟩ := mDash_some_elim hm2
              rw [hr2, show chars " -- " ++ scanM mDash stU () u2' =
                ' ' :: (chars "-- " ++ scanM mDash stU () u2') by simp [chars]] at htl
              exact absurd (List.head_eq_of_cons_eq htl) (by decide)
            | none =>
              rw [scanM_nomatch mDash stU hm2] at htl
              have hd : d = '-' := List.head_eq_of_cons_eq htl
              refine ⟨r2, ?_⟩
              rw [List.dropWhile_cons_of_neg hw, hc, hd]

theorem sankey_image : ∀ n s, s.length ≤ n →
    GSd (scanM mDash stU () s) ∧ (DashAt s → BSd (scanM mDash stU () s)) := by
  intro n
  induction n with
  | zero =>
    intro s hlen
    have : s = [] := List.length_eq_zero.mp (Nat.le_zero.mp hlen)
    subst this
    exact ⟨GSd.nil, fun hd => absurd hd (by rintro ⟨t, ht⟩; simp at ht)⟩
  | succ n ih =>
    intro s hlen
    cases s with
    | nil => exact ⟨GSd.nil, fun hd => absurd hd (by rintro ⟨t, ht⟩; simp at ht)⟩
    | cons c rest =>
      have hlen' : rest.length ≤ n := by simp only [List.length_cons] at hlen; omega
      cases hm : mDash () (c :: rest) with
      | some val =>
        obtain ⟨r, q2, u⟩ := val
        obtain ⟨t, hdw, hr, hu⟩ := mDash_some_elim hm
        have hsc := scanM_match mDash stU mDash_shrink hm
        rw [hr] at hsc
        have hul : u.length ≤ n := by
          have := mDash_shrink () (c :: rest) r q2 u hm
          simp only [List.length_cons] at this hlen
          omega
        obtain ⟨hg, hbs⟩ := ih u hul
        have hB : BSd (chars " -- " ++ scanM mDash stU () u) := by
          by_cases hd : DashAt u
          · exact BSd.mkChain _ (hbs hd)
          · cases hscu : scanM mDash stU () u with
            | nil => rw [List.append_nil]; exact BSd.mkNil
            | cons c' t' =>
              apply BSd.mkCons
              · rw [← hscu]; exact hg
              · cases hu4 : u with
                | nil =>
                  rw [hu4, scanM_nil] at hscu
                  simp at hscu
                | cons u0 u2 =>
                  have hun : mDash () (u0 :: u2) = none := by
                    rw [← hu4]
                    exact mDash_none_of_not hd
                  rw [hu4, scanM_nomatch mDash stU hun] at hscu
                  have hc'u0 : u0 = c' := List.head_eq_of_cons_eq hscu
                  have hws : isPyWs u0 = false :=
                    dropWhile_head_false (by rw [← hu, hu4] : t.dropWhile isPyWs = u0 :: u2)
                  rw [← hc'u0]
                  exact hws
              · rw [← hscu]
                intro hda
                exact hd (TDashF u.length u le_rfl hda)
        rw [hsc]
        exact ⟨GSd.blk _ hB, fun _ => hB⟩
      | none =>
        have hsc := scanM_nomatch mDash stU hm
        have hnd : ¬ DashAt (c :: rest) := by
          intro hdd
          obtain ⟨r', u', hm'⟩ := DashAt_some hdd
          rw [hm'] at hm
          exact absurd hm (by simp)
        rw [hsc]
        refine ⟨GSd.copy c _ (ih rest hlen').1 ?_, fun hdd => absurd hdd hnd⟩
        intro hda
        apply hnd
        exact TDashF (c :: rest).length (c :: rest) le_rfl (by rw [hsc]; exact hda)

theorem sankey_nf_fixed : ∀ n z, z.length ≤ n →
    (GSd z → scanM mDash stU () z = z) ∧
    (BSd z → scanM mDash stU () z = z ∧ scanM mDash stU () (z.drop 1) = z) := by
  intro n
  induction n with
  | zero =>
    intro z hlen
    have : z = [] := List.length_eq_zero.mp (Nat.le_zero.mp hlen)
    subst this
    exact ⟨fun _ => rfl, fun hb => absurd rfl (BSd_ne_nil hb)⟩
  | succ n ih =>
    intro z hlen
    have hB : BSd z → scanM mDash stU () z = z ∧ scanM mDash stU () (z.drop 1) = z := by
      intro hb
      cases hb with
      | mkNil => exact ⟨rfl, rfl⟩
      | mkCons c t hg hws hnd =>
        have hlen4 : (chars " -- " ++ (c :: t)).length = 4 + (c :: t).length := by
          simp [chars]
          omega
        rw [hlen4] at hlen
        have hlt : (c :: t).length ≤ n := by omega
        have hfix : scanM mDash stU () (c :: t) = c :: t := (ih (c :: t) hlt).1 hg
        have hdw : (chars " -- " ++ c :: t).dropWhile isPyWs = '-' :: '-' :: (' ' :: c :: t) := by
          rw [show chars " -- " ++ c :: t = ' ' :: '-' :: '-' :: ' ' :: c :: t by simp [chars],
            List.dropWhile_cons_of_pos (by decide),
            List.dropWhile_cons_of_neg (by decide)]
        have hu : (' ' :: c :: t).dropWhile isPyWs = c :: t := by
          rw [List.dropWhile_cons_of_pos (by decide),
            List.dropWhile_cons_of_neg (by simp [hws])]
        have hm := mDash_some_of hdw
        rw [hu] at hm
        constructor
        · rw [scanM_match_ne mDash stU mDash_shrink (by simp [chars]) hm, hfix]
        · rw [show (chars " -- " ++ c :: t).drop 1 = '-' :: '-' :: ' ' :: c :: t by
            simp [chars]]
          have hdw2 : ('-' :: '-' :: ' ' :: c :: t).dropWhile isPyWs =
              '-' :: '-' :: (' ' :: c :: t) := by
            rw [List.dropWhile_cons_of_neg (by decide)]
          have hm2 := mDash_some_of hdw2
          rw [hu] at hm2
          rw [scanM_match mDash stU mDash_shrink hm2, hfix]
      | mkChain z' hbz =>
        have hlen4 : (chars " -- " ++ z').length = 4 + z'.length := by
          simp [chars]
          omega
        rw [hlen4] at hlen
        have hlt : z'.length ≤ n := by omega
        obtain ⟨hz1, hz2⟩ := (ih z' hlt).2 hbz
        obtain ⟨w', hw'⟩ := BSd_head hbz
        have hdrop : z'.drop 1 = '-' :: '-' :: ' ' :: w' := by
          rw [hw']
          rfl
        have hu : (' ' :: z').dropWhile isPyWs = '-' :: '-' :: ' ' :: w' := by
          rw [hw', List.dropWhile_cons_of_pos (by decide),
            List.dropWhile_cons_of_pos (by decide),
            List.dropWhile_cons_of_neg (by decide)]
        have hdw : (chars " -- " ++ z').dropWhile isPyWs = '-' :: '-' :: (' ' :: z') := by
          rw [show chars " -- " ++ z' = ' ' :: '-' :: '-' :: ' ' :: z' by simp [chars],
            List.dropWhile_cons_of_pos (by decide),
            List.dropWhile_cons_of_neg (by decide)]
        have hm := mDash_some_of hdw
        rw [hu, ← hdrop] at hm
        constructor
        · rw [scanM_match_ne mDash stU mDash_shrink (by simp [chars]) hm, hz2]
        · rw [show (chars " -- " ++ z').drop 1 = '-' :: '-' :: ' ' :: z' by simp [chars]]
          have hdw2 : ('-' :: '-' :: ' ' :: z').dropWhile isPyWs =
              '-' :: '-' :: (' ' :: z') := by
            rw [List.dropWhile_cons_of_neg (by decide)]
          have hm2 := mDash_some_of hdw2
          rw [hu, ← hdrop] at hm2
          rw [scanM_match mDash stU mDash_shrink hm2, hz2]
    refine ⟨?_, hB⟩
    intro hg
    cases hg with
    | nil => rfl
    | copy c z' hgz hnd =>
      have hm : mDash () (c :: z') = none := mDash_none_of_not hnd
      have hlen' : z'.length ≤ n := by simp only [List.length_cons] at hlen; omega
      rw [scanM_nomatch mDash stU hm, (ih z' hlen').1 hgz]
    | blk z'' hb => exact (hB hb).1

theorem scB_block (X : List Char) (hX : scanM mArrow stU () X = X)
    (hnm3 : mArrow () (' ' :: X) = none) :
    scanM mArrow stU () (' ' :: '-' :: '-' :: ' ' :: X) = ' ' :: '-' :: '-' :: ' ' :: X := by
  have hnm2 : mArrow () ('-' :: ' ' :: X) = none := by
    apply mArrow_none_of
    intro t' ht'
    rw [List.dropWhile_cons_of_neg (by decide)] at ht'
    simp at ht'
  have hnm1 : mArrow () ('-' :: '-' :: ' ' :: X) = none := by
    apply mArrow_none_of
    intro t' ht'
    rw [List.dropWhile_cons_of_neg (by decide)] at ht'
    simp at ht'
  have hnm0 : mArrow () (' ' :: '-' :: '-' :: ' ' :: X) = none := by
    apply mArrow_none_of
    intro t' ht'
    rw [List.dropWhile_cons_of_pos (by decide),
      List.dropWhile_cons_of_neg (by decide)] at ht'
    simp at ht'
  rw [scanM_nomatch mArrow stU hnm0, scanM_nomatch mArrow stU hnm1,
    scanM_nomatch mArrow stU hnm2, scanM_nomatch mArrow stU hnm3, hX]

theorem sankey_noarrow : ∀ n z, z.length ≤ n →
    (GSd z → scanM mArrow stU () z = z) ∧
    (BSd z → scanM mArrow stU () z = z) := by
  intro n
  induction n with
  | zero =>
    intro z hlen
    have : z = [] := List.length_eq_zero.mp (Nat.le_zero.mp hlen)
    subst this
    exact ⟨fun _ => rfl, fun hb => absurd rfl (BSd_ne_nil hb)⟩
  | succ n ih =>
    intro z hlen
    have hB : BSd z → scanM mArrow stU () z = z := by
      intro hb
      cases hb with
      | mkNil => rfl
      | mkCons c t hg hws hnd =>
        have hlen4 : (chars " -- " ++ (c :: t)).length = 4 + (c :: t).length := by
          simp [chars]
          omega
        rw [hlen4] at hlen
        have hfix : scanM mArrow stU () (c :: t) = c :: t :=
          (ih (c :: t) (by omega)).1 hg
        have hnm3 : mArrow () (' ' :: c :: t) = none := by
          apply mArrow_none_of
          intro t' ht'
          rw [List.dropWhile_cons_of_pos (by decide),
            List.dropWhile_cons_of_neg (by simp [hws])] at ht'
          apply hnd
          refine ⟨'>' :: t', ?_⟩
          rw [List.dropWhile_cons_of_neg (by simp [hws]), ht']
        have := scB_block (c :: t) hfix hnm3
        rw [show chars " -- " ++ c :: t = ' ' :: '-' :: '-' :: ' ' :: c :: t by
          simp [chars]]
        exact this
      | mkChain z' hbz =>
        have hlen4 : (chars " -- " ++ z').length = 4 + z'.length := by
          simp [chars]
          omega
        rw [hlen4] at hlen
        have hfix : scanM mArrow stU () z' = z' := (ih z' (by omega)).2 hbz
        obtain ⟨w', hw'⟩ := BSd_head hbz
        have hnm3 : mArrow () (' ' :: z') = none := by
          apply mArrow_none_of
          intro t' ht'
          rw [hw', List.dropWhile_cons_of_pos (by decide),
            List.dropWhile_cons_of_pos (by decide),
            List.dropWhile_cons_of_neg (by decide)] at ht'
          simp at ht'
        have := scB_block z' hfix hnm3
        rw [show chars " -- " ++ z' = ' ' :: '-' :: '-' :: ' ' :: z' by simp [chars]]
        exact this
    refine ⟨?_, hB⟩
    intro hg
    cases hg with
    | nil => rfl
    | copy c z' hgz hnd =>
      have hm : mArrow () (c :: z') = none := by
        apply mArrow_none_of
        intro t' ht'
        exact hnd ⟨'>' :: t', ht'⟩
      have hlen' : z'.length ≤ n := by simp only [List.length_cons] at hlen; omega
      rw [scanM_nomatch mArrow stU hm, (ih z' hlen').1 hgz]
    | blk z'' hb => exact hB hb

theorem fix_sankey_idem (s : List Char) :
    fix_sankey (fix_sankey s) = fix_sankey s := by
  have hA : GSd (scanM mDash stU () s) := (sankey_image s.length s le_rfl).1
  have e1 : scanM mArrow stU () (scanM mDash stU () s) = scanM mDash stU () s :=
    (sankey_noarrow (scanM mDash stU () s).length _ le_rfl).1 hA
  have e2 : scanM mDash stU () (scanM mDash stU () s) = scanM mDash stU () s :=
    (sankey_nf_fixed (scanM mDash stU () s).length _ le_rfl).1 hA
  simp only [fix_sankey]
  rw [e1, e2, e1]

/-! ### Idempotence of `fix_requirement_diagram` -/

theorem mOpen_some (t : List Char) :
    mOpenBrace () (lbrace :: t) =
      some ([lbrace, '\n', ' ', ' '], (), t.dropWhile isPyWs) := by
  simp [mOpenBrace]

theorem mOpen_none {c : Char} (t : List Char) (h : ¬ c = lbrace) :
    mOpenBrace () (c :: t) = none := by
  simp [mOpenBrace, h]

theorem mClose_some_of {s t : List Char} (h : s.dropWhile isPyWs = rbrace :: t) :
    mCloseBrace () s = some (['\n', rbrace], (), t) := by
  simp only [mCloseBrace]
  rw [h]
  simp

theorem mClose_some_elim {s r : List Char} {q2 : Unit} {u : List Char}
    (h : mCloseBrace () s = some (r, q2, u)) :
    ∃ t, s.dropWhile isPyWs = rbrace :: t ∧ r = ['\n', rbrace] ∧ u = t := by
  simp only [mCloseBrace] at h
  split at h
  next c t hdw =>
    split at h
    next hcr =>
      simp only [Option.some.injEq, Prod.mk.injEq] at h
      obtain ⟨hr, -, hu⟩ := h
      subst hcr
      exact ⟨t, hdw, hr.symm, hu.symm⟩
    next => exact absurd h (by simp)
  next => exact absurd h (by simp)

theorem CloseAt_of_some {s r : List Char} {q2 : Unit} {u : List Char}
    (h : mCloseBrace () s = some (r, q2, u)) : CloseAt s := by
  obtain ⟨t, hdw, -, -⟩ := mClose_some_elim h
  exact ⟨t, hdw⟩

theorem mClose_none_of_not {s : List Char} (h : ¬ CloseAt s) : mCloseBrace () s = none := by
  cases hm : mCloseBrace () s with
  | none => rfl
  | some val =>
    obtain ⟨r, q2, u⟩ := val
    exact absurd (CloseAt_of_some hm) h

theorem notCloseAt_nil : ¬ CloseAt ([] : List Char) := by
  rintro ⟨t, ht⟩
  simp at ht

theorem closeAt_cons_elim {c : Char} {Y : List Char} (h : CloseAt (c :: Y)) :
    (isPyWs c = true ∧ CloseAt Y) ∨ (isPyWs c = false ∧ c = rbrace) := by
  obtain ⟨t, ht⟩ := h
  by_cases hw : isPyWs c = true
  · rw [List.dropWhile_cons_of_pos hw] at ht
    exact Or.inl ⟨hw, t, ht⟩
  · rw [List.dropWhile_cons_of_neg hw] at ht
    exact Or.inr ⟨by simpa using hw, List.head_eq_of_cons_eq ht⟩

theorem closeAt_ws_cons {c : Char} {Y : List Char} (hw : isPyWs c = true)
    (h : CloseAt Y) : CloseAt (c :: Y) := by
  obtain ⟨t, ht⟩ := h
  exact ⟨t, by rw [List.dropWhile_cons_of_pos hw]; exact ht⟩

theorem closeAt_rbrace (Y : List Char) : CloseAt (rbrace :: Y) :=
  ⟨Y, by rw [List.dropWhile_cons_of_neg (by decide)]⟩

theorem notCloseAt_ws_cons {c : Char} {Y : List Char} (hw : isPyWs c = true)
    (h : ¬ CloseAt Y) : ¬ CloseAt (c :: Y) := by
  intro hc
  rcases closeAt_cons_elim hc with ⟨-, h2⟩ | ⟨hw2, -⟩
  · exact h h2
  · rw [hw] at hw2
    exact absurd hw2 (by simp)

theorem notCloseAt_head {c : Char} {Y : List Char} (hnw : isPyWs c = false)
    (hcr : ¬ c = rbrace) : ¬ CloseAt (c :: Y) := by
  intro hc
  rcases closeAt_cons_elim hc with ⟨hw, -⟩ | ⟨-, h2⟩
  · rw [hw] at hnw
    exact absurd hnw (by simp)
  · exact hcr h2

theorem notCloseAt_lbrace (Y : List Char) : ¬ CloseAt (lbrace :: Y) :=
  notCloseAt_head (by decide) (by decide)

theorem TCloseF : ∀ n z, z.length ≤ n →
    CloseAt (scanM mOpenBrace stU () z) → CloseAt z := by
  intro n
  induction n with
  | zero =>
    intro z hlen hq
    have : z = [] := List.length_eq_zero.mp (Nat.le_zero.mp hlen)
    subst this
    exact hq
  | succ n ih =>
    intro z hlen hq
    cases z with
    | nil => exact hq
    | cons c rest =>
      have hlen' : rest.length ≤ n := by simp only [List.length_cons] at hlen; omega
      by_cases hcl : c = lbrace
      · subst hcl
        rw [scanM_match mOpenBrace stU mOpenBrace_shrink (mOpen_some rest)] at hq
        exact absurd hq (notCloseAt_lbrace _)
      · rw [scanM_nomatch mOpenBrace stU (mOpen_none rest hcl)] at hq
        rcases closeAt_cons_elim hq with ⟨hw, h2⟩ | ⟨hnw, h2⟩
        · exact closeAt_ws_cons hw (ih rest hlen' h2)
        · subst h2
          exact closeAt_rbrace rest

theorem TCloseB : ∀ n z, z.length ≤ n →
    CloseAt (scanM mCloseBrace stU () z) → CloseAt z := by
  intro n
  induction n with
  | zero =>
    intro z hlen hq
    have : z = [] := List.length_eq_zero.mp (Nat.le_zero.mp hlen)
    subst this
    exact hq
  | succ n ih =>
    intro z hlen hq
    cases z with
    | nil => exact hq
    | cons x X =>
      have hlen' : X.length ≤ n := by simp only [List.length_cons] at hlen; omega
      cases hm : mCloseBrace () (x :: X) with
      | some val =>
        obtain ⟨r, q2, u⟩ := val
        exact CloseAt_of_some hm
      | none =>
        rw [scanM_nomatch mCloseBrace stU hm] at hq
        rcases closeAt_cons_elim hq with ⟨hw, h2⟩ | ⟨hnw, h2⟩
        · exact closeAt_ws_cons hw (ih X hlen' h2)
        · subst h2
          exact closeAt_rbrace X

theorem closeShape : ∀ n z, z.length ≤ n →
    CloseAt (scanM mOpenBrace stU () z) →
    ∃ w u2, z = w ++ rbrace :: u2 ∧ AllB isPyWs w ∧
      (scanM mOpenBrace stU () z).dropWhile isPyWs =
        rbrace :: scanM mOpenBrace stU () u2 := by
  intro n
  induction n with
  | zero =>
    intro z hlen hq
    have : z = [] := List.length_eq_zero.mp (Nat.le_zero.mp hlen)
    subst this
    exact absurd hq notCloseAt_nil
  | succ n ih =>
    intro z hlen hq
    cases z with
    | nil => exact absurd hq notCloseAt_nil
    | cons c rest =>
      have hlen' : rest.length ≤ n := by simp only [List.length_cons] at hlen; omega
      by_cases hcl : c = lbrace
      · subst hcl
        rw [scanM_match mOpenBrace stU mOpenBrace_shrink (mOpen_some rest)] at hq
        exact absurd hq (notCloseAt_lbrace _)
      · have hsc := scanM_nomatch mOpenBrace stU (mOpen_none rest hcl)
        rw [hsc] at hq
        by_cases hw : isPyWs c = true
        · rcases closeAt_cons_elim hq with ⟨-, h2⟩ | ⟨hnw, -⟩
          · obtain ⟨w, u2, heq, hall, hdw⟩ := ih rest hlen' h2
            refine ⟨c :: w, u2, by rw [heq]; rfl, ?_, ?_⟩
            · intro x hx
              rcases List.mem_cons.mp hx with h1 | h1
              · rw [h1]; exact hw
              · exact hall x h1
            · rw [hsc, List.dropWhile_cons_of_pos hw]
              exact hdw
          · rw [hw] at hnw
            exact absurd hnw (by simp)
        · rcases closeAt_cons_elim hq with ⟨hw2, -⟩ | ⟨-, h2⟩
          · exact absurd hw2 hw
          · subst h2
            refine ⟨[], rest, rfl, fun x hx => absurd hx (List.not_mem_nil x), ?_⟩
            rw [hsc, List.dropWhile_cons_of_neg (by decide)]

theorem req_one {z : List Char} (hg : GoodReq z) :
    scanM mCloseBrace stU () (scanM mOpenBrace stU () z) = z := by
  induction hg with
  | nil => rfl
  | copy c z' hgz hcl hncl ihz =>
    rw [scanM_nomatch mOpenBrace stU (mOpen_none z' hcl)]
    have hnc2 : ¬ CloseAt (c :: scanM mOpenBrace stU () z') := by
      intro hcc
      rcases closeAt_cons_elim hcc with ⟨hw, h2⟩ | ⟨hnw, h2⟩
      · exact hncl (closeAt_ws_cons hw
          (TCloseF z'.length z' le_rfl h2))
      · subst h2
        exact hncl (closeAt_rbrace z')
    rw [scanM_nomatch mCloseBrace stU (mClose_none_of_not hnc2), ihz]
  | openBlk z' hgz hz ihz =>
    have hdwz : ('\n' :: ' ' :: ' ' :: z').dropWhile isPyWs = z' := by
      rw [List.dropWhile_cons_of_pos (by decide), List.dropWhile_cons_of_pos (by decide),
        List.dropWhile_cons_of_pos (by decide)]
      rcases hz with h | ⟨c0, t0, hct, hnw, -⟩
      · rw [h]; rfl
      · rw [hct, List.dropWhile_cons_of_neg (by simp [hnw])]
    have hm := mOpen_some ('\n' :: ' ' :: ' ' :: z')
    rw [hdwz] at hm
    rw [scanM_match mOpenBrace stU mOpenBrace_shrink hm]
    have hncz : ¬ CloseAt (scanM mOpenBrace stU () z') := by
      intro hcl
      have := TCloseF z'.length z' le_rfl hcl
      rcases hz with h | ⟨c0, t0, hct, hnw, hcr⟩
      · rw [h] at this
        exact notCloseAt_nil this
      · rw [hct] at this
        exact notCloseAt_head hnw hcr this
    have h3 : ¬ CloseAt (' ' :: scanM mOpenBrace stU () z') :=
      notCloseAt_ws_cons (by decide) hncz
    have h2 : ¬ CloseAt (' ' :: ' ' :: scanM mOpenBrace stU () z') :=
      notCloseAt_ws_cons (by decide) h3
    have h1 : ¬ CloseAt ('\n' :: ' ' :: ' ' :: scanM mOpenBrace stU () z') :=
      notCloseAt_ws_cons (by decide) h2
    rw [show [lbrace, '\n', ' ', ' '] ++ scanM mOpenBrace stU () z' =
      lbrace :: '\n' :: ' ' :: ' ' :: scanM mOpenBrace stU () z' from rfl]
    rw [scanM_nomatch mCloseBrace stU (mClose_none_of_not (notCloseAt_lbrace _)),
      scanM_nomatch mCloseBrace stU (mClose_none_of_not h1),
      scanM_nomatch mCloseBrace stU (mClose_none_of_not h2),
      scanM_nomatch mCloseBrace stU (mClose_none_of_not h3), ihz]
  | openClose z' hgz ihz =>
    have hdwz : ('\n' :: rbrace :: z').dropWhile isPyWs = rbrace :: z' := by
      rw [List.dropWhile_cons_of_pos (by decide), List.dropWhile_cons_of_neg (by decide)]
    have hm := mOpen_some ('\n' :: rbrace :: z')
    rw [hdwz] at hm
    rw [scanM_match mOpenBrace stU mOpenBrace_shrink hm,
      scanM_nomatch mOpenBrace stU (mOpen_none z' (by decide))]
    have hm2 : mCloseBrace () ('\n' :: ' ' :: ' ' :: rbrace :: scanM mOpenBrace stU () z') =
        some (['\n', rbrace], (), scanM mOpenBrace stU () z') := by
      apply mClose_some_of
      rw [List.dropWhile_cons_of_pos (by decide), List.dropWhile_cons_of_pos (by decide),
        List.dropWhile_cons_of_pos (by decide), List.dropWhile_cons_of_neg (by decide)]
    rw [show [lbrace, '\n', ' ', ' '] ++ rbrace :: scanM mOpenBrace stU () z' =
      lbrace :: '\n' :: ' ' :: ' ' :: rbrace :: scanM mOpenBrace stU () z' from rfl]
    rw [scanM_nomatch mCloseBrace stU (mClose_none_of_not (notCloseAt_lbrace _)),
      scanM_match mCloseBrace stU mCloseBrace_shrink hm2, ihz]
    rfl
  | closeBlk z' hgz ihz =>
    rw [scanM_nomatch mOpenBrace stU (mOpen_none (rbrace :: z') (by decide)),
      scanM_nomatch mOpenBrace stU (mOpen_none z' (by decide))]
    have hm2 : mCloseBrace () ('\n' :: rbrace :: scanM mOpenBrace stU () z') =
        some (['\n', rbrace], (), scanM mOpenBrace stU () z') := by
      apply mClose_some_of
      rw [List.dropWhile_cons_of_pos (by decide), List.dropWhile_cons_of_neg (by decide)]
    rw [scanM_match mCloseBrace stU mCloseBrace_shrink hm2, ihz]
    rfl

theorem req_two : ∀ n s, s.length ≤ n →
    GoodReq (scanM mCloseBrace stU () (scanM mOpenBrace stU () s)) := by
  intro n
  induction n with
  | zero =>
    intro s hlen
    have : s = [] := List.length_eq_zero.mp (Nat.le_zero.mp hlen)
    subst this
    exact GoodReq.nil
  | succ n ih =>
    intro s hlen
    cases s with
    | nil => exact GoodReq.nil
    | cons c rest =>
      have hlen' : rest.length ≤ n := by simp only [List.length_cons] at hlen; omega
      by_cases hclose : CloseAt (scanM mOpenBrace stU () (c :: rest))
      · obtain ⟨w, u2, heq, hall, hdw⟩ :=
          closeShape (c :: rest).length (c :: rest) le_rfl hclose
        have hm := mClose_some_of hdw
        have hAne : scanM mOpenBrace stU () (c :: rest) ≠ [] := by
          intro h0
          rw [h0] at hdw
          simp at hdw
        rw [scanM_match_ne mCloseBrace stU mCloseBrace_shrink hAne hm]
        have hl := congrArg List.length heq
        simp only [List.length_cons, List.length_append] at hl
        have hlen2 : u2.length ≤ n := by
          simp only [List.length_cons] at hlen
          omega
        exact GoodReq.closeBlk _ (ih u2 hlen2)
      · by_cases hcl : c = lbrace
        · subst hcl
          rw [scanM_match mOpenBrace stU mOpenBrace_shrink (mOpen_some rest)]
          cases hu4 : rest.dropWhile isPyWs with
          | nil =>
            rw [scanM_nil, List.append_nil]
            rw [show scanM mCloseBrace stU () [lbrace, '\n', ' ', ' '] =
              [lbrace, '\n', ' ', ' '] from rfl]
            exact GoodReq.openBlk [] GoodReq.nil (Or.inl rfl)
          | cons c0 u2 =>
            have hnw0 : isPyWs c0 = false := dropWhile_head_false hu4
            have h5 := length_dropWhile_le isPyWs rest
            rw [hu4] at h5
            simp only [List.length_cons] at h5
            by_cases hc0r : c0 = rbrace
            · subst hc0r
              rw [scanM_nomatch mOpenBrace stU (mOpen_none u2 (by decide))]
              rw [show [lbrace, '\n', ' ', ' '] ++ rbrace :: scanM mOpenBrace stU () u2 =
                lbrace :: '\n' :: ' ' :: ' ' :: rbrace :: scanM mOpenBrace stU () u2
                from rfl]
              have hm2 : mCloseBrace ()
                  ('\n' :: ' ' :: ' ' :: rbrace :: scanM mOpenBrace stU () u2) =
                  some (['\n', rbrace], (), scanM mOpenBrace stU () u2) := by
                apply mClose_some_of
                rw [List.dropWhile_cons_of_pos (by decide),
                  List.dropWhile_cons_of_pos (by decide),
                  List.dropWhile_cons_of_pos (by decide),
                  List.dropWhile_cons_of_neg (by decide)]
              rw [scanM_nomatch mCloseBrace stU (mClose_none_of_not (notCloseAt_lbrace _)),
                scanM_match mCloseBrace stU mCloseBrace_shrink hm2]
              exact GoodReq.openClose _ (ih u2 (by omega))
            · have hgood := ih (c0 :: u2) (by simp only [List.length_cons]; omega)
              have hAhead : ∃ a t', scanM mOpenBrace stU () (c0 :: u2) = a :: t' ∧
                  isPyWs a = false ∧ ¬ a = rbrace := by
                by_cases hc0l : c0 = lbrace
                · subst hc0l
                  rw [scanM_match mOpenBrace stU mOpenBrace_shrink (mOpen_some u2)]
                  exact ⟨lbrace, '\n' :: ' ' :: ' ' :: scanM mOpenBrace stU ()
                    (u2.dropWhile isPyWs), rfl, by decide, by decide⟩
                · rw [scanM_nomatch mOpenBrace stU (mOpen_none u2 hc0l)]
                  exact ⟨c0, scanM mOpenBrace stU () u2, rfl, hnw0, hc0r⟩
              obtain ⟨a, t', hAeq, hanw, har⟩ := hAhead
              have hncAu : ¬ CloseAt (scanM mOpenBrace stU () (c0 :: u2)) := by
                rw [hAeq]
                exact notCloseAt_head hanw har
              have h3 : ¬ CloseAt (' ' :: scanM mOpenBrace stU () (c0 :: u2)) :=
                notCloseAt_ws_cons (by decide) hncAu
              have h2 : ¬ CloseAt (' ' :: ' ' :: scanM mOpenBrace stU () (c0 :: u2)) :=
                notCloseAt_ws_cons (by decide) h3
              have h1 : ¬ CloseAt ('\n' :: ' ' :: ' ' :: scanM mOpenBrace stU ()
                  (c0 :: u2)) :=
                notCloseAt_ws_cons (by decide) h2
              rw [show [lbrace, '\n', ' ', ' '] ++ scanM mOpenBrace stU () (c0 :: u2) =
                lbrace :: '\n' :: ' ' :: ' ' :: scanM mOpenBrace stU () (c0 :: u2)
                from rfl]
              rw [scanM_nomatch mCloseBrace stU (mClose_none_of_not (notCloseAt_lbrace _)),
                scanM_nomatch mCloseBrace stU (mClose_none_of_not h1),
                scanM_nomatch mCloseBrace stU (mClose_none_of_not h2),
                scanM_nomatch mCloseBrace stU (mClose_none_of_not h3)]
              apply GoodReq.openBlk _ hgood
              right
              rw [hAeq, scanM_nomatch mCloseBrace stU
                (mClose_none_of_not (notCloseAt_head hanw har))]
              exact ⟨a, scanM mCloseBrace stU () t', rfl, hanw, har⟩
        · rw [scanM_nomatch mOpenBrace stU (mOpen_none rest hcl)]
          have hnc : ¬ CloseAt (c :: scanM mOpenBrace stU () rest) := by
            intro h
            apply hclose
            rw [scanM_nomatch mOpenBrace stU (mOpen_none rest hcl)]
            exact h
          rw [scanM_nomatch mCloseBrace stU (mClose_none_of_not hnc)]
          apply GoodReq.copy _ _ (ih rest hlen') hcl
          intro hcc
          rcases closeAt_cons_elim hcc with ⟨hw, h2⟩ | ⟨hnw, h2⟩
          · apply hnc
            apply closeAt_ws_cons hw
            exact TCloseB (scanM mOpenBrace stU () rest).length _ le_rfl h2
          · subst h2
            exact hnc (closeAt_rbrace _)

theorem fix_requirement_diagram_idem (s : List Char) :
    fix_requirement_diagram (fix_requirement_diagram s) = fix_requirement_diagram s := by
  simp only [fix_requirement_diagram]
  exact req_one (req_two s.length s le_rfl)

/-! ### Idempotence of the class-diagram repair -/

theorem word_not_newline {c : Char} (h : isWordChar c = true) : ¬ c = '\n' := by
  intro he
  rw [he] at h
  exact absurd h (by decide)

theorem marker_not_newline {c : Char} (h : isMarker c = true) : ¬ c = '\n' := by
  rcases marker_cases h with h1 | h1 | h1 <;> subst h1 <;> decide

theorem marker_ne_c {c : Char} (h : isMarker c = true) : ¬ c = 'c' := by
  rcases marker_cases h with h1 | h1 | h1 <;> subst h1 <;> decide

theorem ws_ne_c {c : Char} (h : isPyWs c = true) : ¬ c = 'c' := by
  rcases ws_cases h with h1 | h1 | h1 | h1 | h1 | h1 <;> subst h1 <;> decide

theorem dropWhile_all_append (p : Char → Bool) :
    ∀ a b, AllB p a → (a ++ b).dropWhile p = b.dropWhile p := by
  intro a
  induction a with
  | nil => intro b _; rfl
  | cons c a' ih =>
    intro b hall
    rw [List.cons_append,
      List.dropWhile_cons_of_pos (hall c (List.mem_cons_self c a')),
      ih b (fun d hd => hall d (List.mem_cons_of_mem c hd))]

theorem mClass_false_none (s : List Char) : mClass false s = none := rfl

theorem mClass_none_nopre {s : List Char}
    (h : (chars "class").isPrefixOf s = false) : mClass true s = none := by
  simp [mClass, h]

theorem mClass_none_now {s : List Char}
    (h : (s.drop 5).takeWhile isPyWs = []) : mClass true s = none := by
  simp [mClass, h]

theorem mClass_none_noword {s : List Char}
    (h : ((s.drop 5).dropWhile isPyWs).takeWhile isWordChar = []) :
    mClass true s = none := by
  simp [mClass, h]

theorem mClass_none_marker {s : List Char} {c : Char} {X : List Char}
    (hdw : ((s.drop 5).dropWhile isPyWs).dropWhile isWordChar = c :: X)
    (hc : isMarker c = false) : mClass true s = none := by
  simp [mClass, hdw, hc]

theorem mClass_none_head {c : Char} {Y : List Char} (hc : ¬ c = 'c') (q : Bool) :
    mClass q (c :: Y) = none := by
  cases q with
  | false => rfl
  | true =>
    apply mClass_none_nopre
    rw [show chars "class" = 'c' :: chars "lass" from rfl]
    exact isPrefixOf_cons_false (fun h => hc h.symm)

theorem mClass_match_build (w wd : List Char) (mk : Char) (tl u : List Char)
    (hwne : w ≠ []) (hwall : AllB isPyWs w) (hwdne : wd ≠ []) (hwdall : AllB isWordChar wd)
    (hmk : isMarker mk = true) (htlne : tl ≠ []) (htlall : AllB (fun c => !(c = '\n')) tl)
    (hu : LineEndAt u) :
    mClass true (chars "class" ++ w ++ wd ++ mk :: tl ++ u) =
      some (classBlk w wd mk tl, false, u) := by
  obtain ⟨d, wd', hwd⟩ : ∃ d wd', wd = d :: wd' := by
    cases wd with
    | nil => exact absurd rfl hwdne
    | cons a b => exact ⟨a, b, rfl⟩
  have hshape : chars "class" ++ w ++ wd ++ mk :: tl ++ u =
      chars "class" ++ (w ++ (wd ++ (mk :: (tl ++ u)))) := by
    simp [List.append_assoc]
  have hpre : (chars "class").isPrefixOf (chars "class" ++ w ++ wd ++ mk :: tl ++ u) =
      true := by
    rw [hshape]
    exact isPrefixOf_append_self _ _
  have h5 : (chars "class" ++ w ++ wd ++ mk :: tl ++ u).drop 5 =
      w ++ (wd ++ (mk :: (tl ++ u))) := by
    rw [hshape]
    exact drop5_tok (show (chars "class").length = 5 from rfl) _
  have hws : (w ++ (wd ++ (mk :: (tl ++ u)))).takeWhile isPyWs = w ∧
      (w ++ (wd ++ (mk :: (tl ++ u)))).dropWhile isPyWs = wd ++ (mk :: (tl ++ u)) := by
    apply takeWhile_append_of_all isPyWs w _ hwall
    right
    exact ⟨d, wd' ++ (mk :: (tl ++ u)), by rw [hwd]; rfl,
      word_not_ws (hwdall d (by rw [hwd]; exact List.mem_cons_self d wd'))⟩
  have hwd2 : (wd ++ (mk :: (tl ++ u))).takeWhile isWordChar = wd ∧
      (wd ++ (mk :: (tl ++ u))).dropWhile isWordChar = mk :: (tl ++ u) := by
    apply takeWhile_append_of_all isWordChar wd _ hwdall
    right
    exact ⟨mk, tl ++ u, rfl, marker_not_word hmk⟩
  have htl2 : (tl ++ u).takeWhile (fun c => !(c = '\n')) = tl ∧
      (tl ++ u).dropWhile (fun c => !(c = '\n')) = u := by
    apply takeWhile_append_of_all _ tl u htlall
    rcases hu with h | ⟨t, ht⟩
    · exact Or.inl h
    · exact Or.inr ⟨'\n', t, ht, by decide⟩
  simp only [mClass, if_true]
  rw [hpre]
  simp only [if_true]
  rw [h5, hws.1]
  rw [if_neg hwne, hws.2, hwd2.1, if_neg hwdne, hwd2.2]
  split
  next mk2 s3 heq =>
    have hmk2 : mk = mk2 := List.head_eq_of_cons_eq heq
    have hs3 : tl ++ u = s3 := List.tail_eq_of_cons_eq heq
    subst hmk2
    subst hs3
    rw [hmk]
    simp only [if_true]
    rw [htl2.1, if_neg htlne, htl2.2]
    rfl
  next heq => exact absurd heq (by simp)

theorem mClass_some_elim {q : Bool} {s r : List Char} {q2 : Bool} {u : List Char}
    (hm : mClass q s = some (r, q2, u)) :
    q = true ∧ ∃ w wd mk tl, s = chars "class" ++ w ++ wd ++ mk :: tl ++ u ∧
      w ≠ [] ∧ AllB isPyWs w ∧ wd ≠ [] ∧ AllB isWordChar wd ∧ isMarker mk = true ∧
      tl ≠ [] ∧ AllB (fun c => !(c = '\n')) tl ∧ LineEndAt u ∧ q2 = false ∧
      r = classBlk w wd mk tl := by
  cases q with
  | false => exact absurd hm (by simp [mClass])
  | true =>
    refine ⟨rfl, ?_⟩
    simp only [mClass, if_true] at hm
    split at hm
    next hp =>
      split at hm
      next => exact absurd hm (by simp)
      next hwne =>
        split at hm
        next => exact absurd hm (by simp)
        next hwdne =>
          split at hm
          next mk s3 hdw2 =>
            split at hm
            next hmk =>
              split at hm
              next => exact absurd hm (by simp)
              next htlne =>
                simp only [Option.some.injEq, Prod.mk.injEq] at hm
                obtain ⟨hr, hq2, hu⟩ := hm
                obtain ⟨rest1, hrest1⟩ := isPrefixOf_decomp hp
                have h5 : s.drop 5 = rest1 := by
                  rw [hrest1]
                  exact drop5_tok (show (chars "class").length = 5 from rfl) _
                rw [h5] at hwne hwdne hdw2 hr
                set w := rest1.takeWhile isPyWs with hwdef
                set s2 := rest1.dropWhile isPyWs with hs2def
                set wd := s2.takeWhile isWordChar with hwddef
                set tl := s3.takeWhile (fun c => !(c = '\n')) with htldef
                refine ⟨w, wd, mk, tl, ?_, hwne, allB_takeWhile _ _, hwdne,
                  allB_takeWhile _ _, hmk, htlne, allB_takeWhile _ _, ?_, hq2.symm, ?_⟩
                · -- s = chars "class" ++ w ++ wd ++ mk :: tl ++ u
                  have e1 : rest1 = w ++ s2 :=
                    (List.takeWhile_append_dropWhile isPyWs rest1).symm
                  have e2 : s2 = wd ++ (mk :: s3) := by
                    rw [hwddef, hs2def]
                    rw [← hdw2]
                    exact (List.takeWhile_append_dropWhile isWordChar _).symm
                  have e3 : s3 = tl ++ u := by
                    rw [htldef, ← hu]
                    exact (List.takeWhile_append_dropWhile _ s3).symm
                  rw [hrest1, e1, e2, e3]
                  simp [List.append_assoc]
                · -- LineEndAt u
                  rw [← hu]
                  cases hdr : s3.dropWhile (fun c => !(c = '\n')) with
                  | nil => exact Or.inl rfl
                  | cons e t =>
                    have he : e = '\n' := by simpa using dropWhile_head_shape hdr
                    exact Or.inr ⟨t, by rw [he]⟩
                · rw [← hr]
                  rfl
            next => exact absurd hm (by simp)
          next => exact absurd hm (by simp)
    next => exact absurd hm (by simp)

theorem mClass_g0_rematch {w wd : List Char} {mk : Char} {tl : List Char} (Z : List Char)
    (hwne : w ≠ []) (hwall : AllB isPyWs w) (hwdne : wd ≠ []) (hwdall : AllB isWordChar wd)
    (hmk : isMarker mk = true) (htlne : tl ≠ []) (htlall : AllB (fun c => !(c = '\n')) tl)
    (hZ : LineEndAt Z)
    (hcont : (chars "class" ++ w ++ wd ++ mk :: tl).contains lbrace = true) :
    mClass true ((chars "class" ++ w ++ wd ++ mk :: tl) ++ Z) =
      some (chars "class" ++ w ++ wd ++ mk :: tl, false, Z) := by
  have hb := mClass_match_build w wd mk tl Z hwne hwall hwdne hwdall hmk htlne htlall hZ
  rw [show chars "class" ++ w ++ wd ++ mk :: tl ++ Z =
    (chars "class" ++ w ++ wd ++ mk :: tl) ++ Z by simp [List.append_assoc]] at hb
  rw [hb]
  simp only [classBlk]
  rw [if_pos hcont]

theorem scanC_lineEnd {u : List Char} (h : LineEndAt u) :
    LineEndAt (scanM mClass stLine false u) := by
  rcases h with h | ⟨t, ht⟩
  · subst h
    exact Or.inl rfl
  · subst ht
    rw [scanM_nomatch mClass stLine (mClass_false_none _)]
    exact Or.inr ⟨_, rfl⟩

theorem NMS_cons_intro {σ : Type} {m : Matcher σ} {st : σ → Char → σ} {q : σ} {c : Char}
    {a t : List Char} (h1 : m q (c :: (a ++ t)) = none)
    (h2 : NoMatchSeg m st (st q c) a t) : NoMatchSeg m st q (c :: a) t :=
  ⟨h1, h2⟩

theorem NMS_append {σ : Type} {m : Matcher σ} {st : σ → Char → σ} :
    ∀ (a : List Char) (b : List Char) (q : σ) (t : List Char),
      NoMatchSeg m st q a (b ++ t) → NoMatchSeg m st (a.foldl st q) b t →
      NoMatchSeg m st q (a ++ b) t := by
  intro a
  induction a with
  | nil => intro b q t _ h2; exact h2
  | cons c a' ih =>
    intro b q t h1 h2
    obtain ⟨h0, h1'⟩ := h1
    refine ⟨?_, ih b (st q c) t h1' h2⟩
    show m q (c :: ((a' ++ b) ++ t)) = none
    rw [List.append_assoc]
    exact h0

theorem NMS_noC : ∀ (a : List Char), (∀ ch ∈ a, ¬ ch = 'c') →
    ∀ (q : Bool) (t : List Char), NoMatchSeg mClass stLine q a t := by
  intro a
  induction a with
  | nil => intro _ q t; exact trivial
  | cons c a' ih =>
    intro h q t
    exact ⟨mClass_none_head (h c (List.mem_cons_self c a')) q,
      ih (fun d hd => h d (List.mem_cons_of_mem c hd)) (stLine q c) t⟩

theorem NMS_false : ∀ (a : List Char), AllB (fun c => !(c = '\n')) a →
    ∀ (t : List Char), NoMatchSeg mClass stLine false a t := by
  intro a
  induction a with
  | nil => intro _ t; exact trivial
  | cons c a' ih =>
    intro h t
    refine ⟨mClass_false_none _, ?_⟩
    have hc : stLine false c = false := by
      have := h c (List.mem_cons_self c a')
      simp only [Bool.not_eq_true', decide_eq_true_eq] at this
      simp [stLine, this]
    rw [hc]
    exact ih (fun d hd => h d (List.mem_cons_of_mem c hd)) t

theorem mClass_true_word_sp_none (wd X' : List Char) (hne : wd ≠ [])
    (hall : AllB isWordChar wd) :
    mClass true (wd ++ ' ' :: lbrace :: X') = none := by
  cases hp : (chars "class").isPrefixOf (wd ++ ' ' :: lbrace :: X') with
  | false => exact mClass_none_nopre hp
  | true =>
    rcases Nat.lt_or_ge wd.length 5 with hlt | hge
    · exfalso
      have hwdpre : wd <+: chars "class" := by
        apply List.prefix_of_prefix_length_le ⟨' ' :: lbrace :: X', rfl⟩
          (List.isPrefixOf_iff_prefix.mp hp)
        exact Nat.le_of_lt hlt
      obtain ⟨r, hr⟩ := hwdpre
      cases r with
      | nil =>
        rw [List.append_nil] at hr
        rw [hr] at hlt
        exact absurd hlt (by decide)
      | cons r0 r' =>
        obtain ⟨T2, hT2⟩ := isPrefixOf_decomp hp
        rw [← hr, List.append_assoc] at hT2
        have hcan := List.append_cancel_left hT2
        have hr0 : r0 = ' ' := by
          rw [List.cons_append] at hcan
          exact (List.head_eq_of_cons_eq hcan).symm
        have hmem : r0 ∈ chars "class" := by
          rw [← hr]
          exact List.mem_append.mpr (Or.inr (List.mem_cons_self r0 r'))
        rw [hr0] at hmem
        exact absurd hmem (by decide)
    · have hcpre : chars "class" <+: wd :=
        List.prefix_of_prefix_length_le (List.isPrefixOf_iff_prefix.mp hp)
          ⟨' ' :: lbrace :: X', rfl⟩ hge
      obtain ⟨wd', hwd'⟩ := hcpre
      have h5 : (wd ++ ' ' :: lbrace :: X').drop 5 = wd' ++ ' ' :: lbrace :: X' := by
        rw [← hwd', List.append_assoc]
        exact drop5_tok (show (chars "class").length = 5 from rfl) _
      cases wd' with
      | nil =>
        apply mClass_none_noword
        rw [h5, List.nil_append,
          List.dropWhile_cons_of_pos (show isPyWs ' ' = true by decide),
          List.dropWhile_cons_of_neg (show ¬ isPyWs lbrace = true by decide)]
        exact List.takeWhile_cons_of_neg (show ¬ isWordChar lbrace = true by decide)
      | cons d wd'' =>
        apply mClass_none_now
        rw [h5]
        have hd : isWordChar d = true := by
          apply hall
          rw [← hwd']
          exact List.mem_append.mpr (Or.inr (List.mem_cons_self d wd''))
        exact List.takeWhile_cons_of_neg (by simp [word_not_ws hd])

theorem NMS_wd : ∀ (wd : List Char) (q : Bool) (X' : List Char), AllB isWordChar wd →
    NoMatchSeg mClass stLine q wd (' ' :: lbrace :: X') := by
  intro wd
  induction wd with
  | nil => intro q X' _; exact trivial
  | cons d wd' ih =>
    intro q X' hall
    refine ⟨?_, ih (stLine q d) X' (fun e he => hall e (List.mem_cons_of_mem d he))⟩
    cases q with
    | false => exact mClass_false_none _
    | true =>
      have hn := mClass_true_word_sp_none (d :: wd') X' (by simp) hall
      rw [List.cons_append] at hn
      exact hn

theorem blk2_none (w wd : List Char) (mk : Char) (tl Z : List Char)
    (hwall : AllB isPyWs w) (hwdne : wd ≠ []) (hwdall : AllB isWordChar wd) :
    mClass true (((chars "class" ++ w ++ wd) ++ (' ' :: lbrace :: chars "\n  ") ++
      (mk :: tl) ++ ['\n', rbrace]) ++ Z) = none := by
  obtain ⟨d, wd', hwd⟩ : ∃ d wd', wd = d :: wd' := by
    cases wd with
    | nil => exact absurd rfl hwdne
    | cons a b => exact ⟨a, b, rfl⟩
  have hd : isWordChar d = true := by
    apply hwdall
    rw [hwd]
    exact List.mem_cons_self d wd'
  have hresh : ((chars "class" ++ w ++ wd) ++ (' ' :: lbrace :: chars "\n  ") ++
      (mk :: tl) ++ ['\n', rbrace]) ++ Z =
      chars "class" ++ (w ++ (wd ++ (' ' :: lbrace :: '\n' :: ' ' :: ' ' ::
        (mk :: (tl ++ '\n' :: rbrace :: Z))))) := by
    simp [chars, List.append_assoc]
  have h5 : (((chars "class" ++ w ++ wd) ++ (' ' :: lbrace :: chars "\n  ") ++
      (mk :: tl) ++ ['\n', rbrace]) ++ Z).drop 5 =
      w ++ (wd ++ (' ' :: lbrace :: '\n' :: ' ' :: ' ' ::
        (mk :: (tl ++ '\n' :: rbrace :: Z)))) := by
    rw [hresh]
    exact drop5_tok (show (chars "class").length = 5 from rfl) _
  have hdw2 : ((((chars "class" ++ w ++ wd) ++ (' ' :: lbrace :: chars "\n  ") ++
      (mk :: tl) ++ ['\n', rbrace]) ++ Z).drop 5).dropWhile isPyWs =
      wd ++ (' ' :: lbrace :: '\n' :: ' ' :: ' ' ::
        (mk :: (tl ++ '\n' :: rbrace :: Z))) := by
    rw [h5, dropWhile_all_append isPyWs w _ hwall, hwd, List.cons_append,
      List.dropWhile_cons_of_neg (by simp [word_not_ws hd]), ← List.cons_append, ← hwd]
  have hdw3 : (((((chars "class" ++ w ++ wd) ++ (' ' :: lbrace :: chars "\n  ") ++
      (mk :: tl) ++ ['\n', rbrace]) ++ Z).drop 5).dropWhile isPyWs).dropWhile
        isWordChar =
      ' ' :: (lbrace :: '\n' :: ' ' :: ' ' :: (mk :: (tl ++ '\n' :: rbrace :: Z))) := by
    rw [hdw2, dropWhile_all_append isWordChar wd _ hwdall,
      List.dropWhile_cons_of_neg (show ¬ isWordChar ' ' = true by decide)]
  exact mClass_none_marker hdw3 (by decide)

theorem NMS_blk2 (w wd : List Char) (mk : Char) (tl Z : List Char)
    (hwall : AllB isPyWs w) (hwdne : wd ≠ []) (hwdall : AllB isWordChar wd)
    (hmk : isMarker mk = true) (htlall : AllB (fun c => !(c = '\n')) tl) :
    NoMatchSeg mClass stLine true ((chars "class" ++ w ++ wd) ++
      (' ' :: lbrace :: chars "\n  ") ++ (mk :: tl) ++ ['\n', rbrace]) Z := by
  apply NMS_append
  · apply NMS_append
    · apply NMS_append
      · -- NMS true (chars "class" ++ w ++ wd) (five ++ (g2 ++ (two ++ Z)))
        apply NMS_append
        · apply NMS_append
          · -- NMS true (chars "class") (w ++ (wd ++ T))
            refine ⟨?_, NMS_noC (chars "lass") (by decide) _ _⟩
            show mClass true ('c' :: (chars "lass" ++ (w ++ (wd ++
              ((' ' :: lbrace :: chars "\n  ") ++ ((mk :: tl) ++ (['\n', rbrace] ++ Z))))))) =
              none
            have hb := blk2_none w wd mk tl Z hwall hwdne hwdall
            rw [show (((chars "class" ++ w ++ wd) ++ (' ' :: lbrace :: chars "\n  ") ++
              (mk :: tl) ++ ['\n', rbrace]) ++ Z) =
              'c' :: (chars "lass" ++ (w ++ (wd ++ ((' ' :: lbrace :: chars "\n  ") ++
                ((mk :: tl) ++ (['\n', rbrace] ++ Z)))))) by
              simp [chars, List.append_assoc]] at hb
            exact hb
          · exact NMS_noC w (fun ch hch => ws_ne_c (hwall ch hch)) _ _
        · -- NMS _ wd (five ++ (g2 ++ (two ++ Z)))
          have hn := NMS_wd wd ((chars "class" ++ w).foldl stLine true)
            ('\n' :: ' ' :: ' ' :: ((mk :: tl) ++ (['\n', rbrace] ++ Z))) hwdall
          rw [show (' ' :: lbrace :: '\n' :: ' ' :: ' ' ::
            ((mk :: tl) ++ (['\n', rbrace] ++ Z))) =
            ((' ' :: lbrace :: chars "\n  ") ++ ((mk :: tl) ++ (['\n', rbrace] ++ Z))) by
            simp [chars]] at hn
          exact hn
      · -- NMS _ five (g2 ++ (two ++ Z))
        exact NMS_noC (' ' :: lbrace :: chars "\n  ") (by decide) _ _
    · -- NMS _ (mk :: tl) (two ++ Z) : state is false
      have hst : ((chars "class" ++ w ++ wd) ++
          (' ' :: lbrace :: chars "\n  ")).foldl stLine true = false := by
        rw [List.foldl_append]
        rfl
      rw [hst]
      apply NMS_false
      intro x hx
      rcases List.mem_cons.mp hx with h1 | h1
      · subst h1
        simp [marker_not_newline hmk]
      · exact htlall x h1
  · exact NMS_noC ['\n', rbrace] (by decide) _ _

theorem scanC_blk2_rescan (w wd : List Char) (mk : Char) (tl Z : List Char)
    (hwall : AllB isPyWs w) (hwdne : wd ≠ []) (hwdall : AllB isWordChar wd)
    (hmk : isMarker mk = true) (htlall : AllB (fun c => !(c = '\n')) tl) :
    scanM mClass stLine true (((chars "class" ++ w ++ wd) ++
      (' ' :: lbrace :: chars "\n  ") ++ (mk :: tl) ++ ['\n', rbrace]) ++ Z) =
      ((chars "class" ++ w ++ wd) ++ (' ' :: lbrace :: chars "\n  ") ++
        (mk :: tl) ++ ['\n', rbrace]) ++ scanM mClass stLine false Z := by
  rw [scanM_seg mClass stLine _ true Z
    (NMS_blk2 w wd mk tl Z hwall hwdne hwdall hmk htlall)]
  have hst : (((chars "class" ++ w ++ wd) ++ (' ' :: lbrace :: chars "\n  ") ++
      (mk :: tl) ++ ['\n', rbrace])).foldl stLine true = false := by
    rw [List.foldl_append]
    rfl
  rw [hst]

theorem scanC_g0_rescan {w wd : List Char} {mk : Char} {tl : List Char} (Z : List Char)
    (hwne : w ≠ []) (hwall : AllB isPyWs w) (hwdne : wd ≠ []) (hwdall : AllB isWordChar wd)
    (hmk : isMarker mk = true) (htlne : tl ≠ []) (htlall : AllB (fun c => !(c = '\n')) tl)
    (hZ : LineEndAt Z)
    (hcont : (chars "class" ++ w ++ wd ++ mk :: tl).contains lbrace = true) :
    scanM mClass stLine true ((chars "class" ++ w ++ wd ++ mk :: tl) ++ Z) =
      (chars "class" ++ w ++ wd ++ mk :: tl) ++ scanM mClass stLine false Z := by
  have hne : (chars "class" ++ w ++ wd ++ mk :: tl) ++ Z ≠ [] := by simp [chars]
  exact scanM_match_ne mClass stLine mClass_shrink hne
    (mClass_g0_rematch Z hwne hwall hwdne hwdall hmk htlne htlall hZ hcont)

theorem CT_iff {s : List Char} : CT s ↔ ∃ d X, s = d :: X ∧ ¬ d = '\n' := by
  constructor
  · rintro ⟨tl, u, heq, htlne, htlall, -⟩
    obtain ⟨e, tl', het⟩ : ∃ e tl', tl = e :: tl' := by
      cases tl with
      | nil => exact absurd rfl htlne
      | cons a b => exact ⟨a, b, rfl⟩
    subst het
    refine ⟨e, tl' ++ u, by rw [heq]; rfl, ?_⟩
    have := htlall e (List.mem_cons_self e tl')
    simpa using this
  · rintro ⟨d, X, heq, hd⟩
    refine ⟨(d :: X).takeWhile (fun c => !(c = '\n')),
      (d :: X).dropWhile (fun c => !(c = '\n')), ?_, ?_, allB_takeWhile _ _, ?_⟩
    · rw [heq, List.takeWhile_append_dropWhile]
    · rw [List.takeWhile_cons_of_pos (by simp [hd])]
      simp
    · cases hdr : (d :: X).dropWhile (fun c => !(c = '\n')) with
      | nil => exact Or.inl rfl
      | cons e t =>
        have he : e = '\n' := by simpa using dropWhile_head_shape hdr
        exact Or.inr ⟨t, by rw [he]⟩

theorem ws_not_marker {c : Char} (h : isPyWs c = true) : isMarker c = false := by
  rcases ws_cases h with h1 | h1 | h1 | h1 | h1 | h1 <;> subst h1 <;> decide

theorem cwd_peel {x : Char} {T wd2 : List Char} {mk2 : Char} {Y : List Char}
    (heq : x :: T = wd2 ++ mk2 :: Y) (hword : AllB isWordChar wd2)
    (hmk : isMarker mk2 = true) (hxmk : isMarker x = false) :
    ∃ wd3, T = wd3 ++ mk2 :: Y ∧ AllB isWordChar wd3 ∧ isWordChar x = true := by
  cases wd2 with
  | nil =>
    rw [List.nil_append] at heq
    have hx : x = mk2 := List.head_eq_of_cons_eq heq
    rw [hx, hmk] at hxmk
    exact absurd hxmk (by simp)
  | cons y wd3 =>
    rw [List.cons_append] at heq
    have hxy : x = y := List.head_eq_of_cons_eq heq
    refine ⟨wd3, List.tail_eq_of_cons_eq heq,
      fun e he => hword e (List.mem_cons_of_mem y he), ?_⟩
    rw [hxy]
    exact hword y (List.mem_cons_self y wd3)

theorem no_CWd_blkhead (w0 : Char) (R : List Char) (hw0 : isPyWs w0 = true) :
    ¬ CWd (chars "class" ++ w0 :: R) := by
  rintro ⟨wd2, mk2, tl2, u2, heq, hword, hmk, -, -, -⟩
  rw [show chars "class" ++ w0 :: R =
    'c' :: 'l' :: 'a' :: 's' :: 's' :: w0 :: R by simp [chars]] at heq
  rw [List.append_assoc, List.cons_append] at heq
  obtain ⟨w1, heq, hword, -⟩ := cwd_peel heq hword hmk (by decide)
  obtain ⟨w2, heq, hword, -⟩ := cwd_peel heq hword hmk (by decide)
  obtain ⟨w3, heq, hword, -⟩ := cwd_peel heq hword hmk (by decide)
  obtain ⟨w4, heq, hword, -⟩ := cwd_peel heq hword hmk (by decide)
  obtain ⟨w5, heq, hword, -⟩ := cwd_peel heq hword hmk (by decide)
  obtain ⟨w6, heq, hword, hwordw0⟩ := cwd_peel heq hword hmk (ws_not_marker hw0)
  rw [ws_not_word hw0] at hwordw0
  exact absurd hwordw0 (by simp)

theorem classBlk_head (w wd : List Char) (mk : Char) (tl : List Char) :
    ∃ T, classBlk w wd mk tl = 'c' :: T := by
  simp only [classBlk]
  split
  · exact ⟨chars "lass" ++ w ++ wd ++ mk :: tl, by simp [chars]⟩
  · exact ⟨chars "lass" ++ w ++ wd ++ (' ' :: lbrace :: chars "\n  ") ++
      (mk :: tl) ++ ['\n', rbrace], by simp [chars, List.append_assoc]⟩

theorem classBlk_shape {w : List Char} {w0 : Char} {w' wd : List Char} {mk : Char}
    {tl : List Char} (Z : List Char) (hw : w = w0 :: w') :
    ∃ R, classBlk w wd mk tl ++ Z = chars "class" ++ w0 :: R := by
  simp only [classBlk]
  split
  · exact ⟨w' ++ (wd ++ (mk :: (tl ++ Z))), by rw [hw]; simp [List.append_assoc]⟩
  · exact ⟨w' ++ (wd ++ (' ' :: lbrace :: '\n' :: ' ' :: ' ' ::
      (mk :: (tl ++ ('\n' :: rbrace :: Z))))), by rw [hw]; simp [chars, List.append_assoc]⟩

theorem CLit_nil_iff (z : List Char) : CLit [] z ↔ CW z := by
  constructor
  · rintro ⟨rest, hz, hq⟩
    rw [List.nil_append] at hz
    rw [hz]
    exact hq
  · intro hq
    exact ⟨z, rfl, hq⟩

theorem CLit_cons_iff {l0 : Char} {lit' : List Char} {x : Char} {z : List Char} :
    CLit (l0 :: lit') (x :: z) ↔ x = l0 ∧ CLit lit' z := by
  constructor
  · rintro ⟨rest, hz, hq⟩
    rw [List.cons_append] at hz
    refine ⟨List.head_eq_of_cons_eq hz, rest, List.tail_eq_of_cons_eq hz, hq⟩
  · rintro ⟨hx, rest, hz, hq⟩
    exact ⟨rest, by rw [hx, hz]; rfl, hq⟩

theorem class_suffix_cases {lit : List Char} (h : lit <:+ chars "class") :
    lit = [] ∨ lit = chars "class" ∨ ∃ c0 t0, lit = c0 :: t0 ∧ ¬ c0 = 'c' := by
  rw [show chars "class" = 'c' :: chars "lass" from rfl] at h
  rcases List.suffix_cons_iff.mp h with h1 | h
  · right; left; exact h1
  rcases List.suffix_cons_iff.mp h with h1 | h
  · right; right; exact ⟨_, _, h1, by decide⟩
  rcases List.suffix_cons_iff.mp h with h1 | h
  · right; right; exact ⟨_, _, h1, by decide⟩
  rcases List.suffix_cons_iff.mp h with h1 | h
  · right; right; exact ⟨_, _, h1, by decide⟩
  rcases List.suffix_cons_iff.mp h with h1 | h
  · right; right; exact ⟨_, _, h1, by decide⟩
  left
  exact List.suffix_nil.mp h

theorem classTT : ∀ (s : List Char) (q0 : Bool),
    CT (scanM mClass stLine q0 s) → CT s := by
  intro s q0 hq
  cases s with
  | nil => exact hq
  | cons c rest =>
    cases hm : mClass q0 (c :: rest) with
    | some val =>
      obtain ⟨r, q2, u⟩ := val
      obtain ⟨hq0, w, wd, mk, tl, heq, -⟩ := mClass_some_elim hm
      rw [CT_iff]
      refine ⟨c, rest, rfl, ?_⟩
      rw [show chars "class" ++ w ++ wd ++ mk :: tl ++ u =
        'c' :: (chars "lass" ++ (w ++ (wd ++ ((mk :: tl) ++ u)))) by
        simp [chars, List.append_assoc]] at heq
      rw [List.head_eq_of_cons_eq heq]
      decide
    | none =>
      rw [scanM_nomatch mClass stLine hm] at hq
      rw [CT_iff] at hq ⊢
      obtain ⟨d, X, heq2, hd⟩ := hq
      refine ⟨c, rest, rfl, ?_⟩
      rw [List.head_eq_of_cons_eq heq2]
      exact hd

theorem classTWd : ∀ n s q0, s.length ≤ n →
    CWd (scanM mClass stLine q0 s) → CWd s := by
  intro n
  induction n with
  | zero =>
    intro s q0 hlen hq
    have : s = [] := List.length_eq_zero.mp (Nat.le_zero.mp hlen)
    subst this
    exact hq
  | succ n ih =>
    intro s q0 hlen hq
    cases s with
    | nil => exact hq
    | cons c rest =>
      have hlen' : rest.length ≤ n := by simp only [List.length_cons] at hlen; omega
      cases hm : mClass q0 (c :: rest) with
      | some val =>
        obtain ⟨r, q2, u⟩ := val
        obtain ⟨hq0, w, wd, mk, tl, heq, hwne, hwall, hwdne, hwdall, hmk, htlne,
          htlall, hle, hq2, hr⟩ := mClass_some_elim hm
        subst hq0
        have hsc := scanM_match mClass stLine mClass_shrink hm
        rw [hr, hq2] at hsc
        rw [hsc] at hq
        obtain ⟨w0, w', hw0⟩ : ∃ w0 w', w = w0 :: w' := by
          cases w with
          | nil => exact absurd rfl hwne
          | cons a b => exact ⟨a, b, rfl⟩
        obtain ⟨R, hR⟩ := classBlk_shape (scanM mClass stLine false u) hw0
        rw [hR] at hq
        exact absurd hq (no_CWd_blkhead w0 R
          (hwall w0 (by rw [hw0]; exact List.mem_cons_self w0 w')))
      | none =>
        rw [scanM_nomatch mClass stLine hm] at hq
        obtain ⟨wd2, mk2, tl2, u2, heq, hword2, hmk2, htlne2, htlall2, hle2⟩ := hq
        rw [List.append_assoc, List.cons_append] at heq
        cases wd2 with
        | nil =>
          rw [List.nil_append] at heq
          have hc : c = mk2 := List.head_eq_of_cons_eq heq
          have htl : scanM mClass stLine (stLine q0 c) rest = tl2 ++ u2 :=
            List.tail_eq_of_cons_eq heq
          have hct : CT rest := by
            apply classTT rest (stLine q0 c)
            rw [htl]
            exact ⟨tl2, u2, rfl, htlne2, htlall2, hle2⟩
          obtain ⟨tl3, u3, heq3, htlne3, htlall3, hle3⟩ := hct
          refine ⟨[], c, tl3, u3, ?_, fun x hx => absurd hx (List.not_mem_nil x),
            by rw [hc]; exact hmk2, htlne3, htlall3, hle3⟩
          rw [heq3]
          simp
        | cons d wd2' =>
          rw [List.cons_append] at heq
          have hcd : c = d := List.head_eq_of_cons_eq heq
          have htl : scanM mClass stLine (stLine q0 c) rest =
              wd2' ++ (mk2 :: (tl2 ++ u2)) := List.tail_eq_of_cons_eq heq
          have hrec : CWd rest := by
            apply ih rest (stLine q0 c) hlen'
            refine ⟨wd2', mk2, tl2, u2, ?_,
              fun e he => hword2 e (List.mem_cons_of_mem d he), hmk2, htlne2,
              htlall2, hle2⟩
            rw [htl]
            simp [List.append_assoc]
          obtain ⟨wd3, mk3, tl3, u3, heq3, hword3, hmk3, htlne3, htlall3, hle3⟩ := hrec
          refine ⟨c :: wd3, mk3, tl3, u3, ?_, ?_, hmk3, htlne3, htlall3, hle3⟩
          · rw [heq3]
            simp [List.append_assoc]
          · intro x hx
            rcases List.mem_cons.mp hx with h1 | h1
            · rw [h1, hcd]
              exact hword2 d (List.mem_cons_self d wd2')
            · exact hword3 x h1

theorem classTS : ∀ n s q0, s.length ≤ n →
    CS (scanM mClass stLine q0 s) → CS s := by
  intro n
  induction n with
  | zero =>
    intro s q0 hlen hq
    have : s = [] := List.length_eq_zero.mp (Nat.le_zero.mp hlen)
    subst this
    exact hq
  | succ n ih =>
    intro s q0 hlen hq
    cases s with
    | nil => exact hq
    | cons c rest =>
      have hlen' : rest.length ≤ n := by simp only [List.length_cons] at hlen; omega
      cases hm : mClass q0 (c :: rest) with
      | some val =>
        obtain ⟨r, q2, u⟩ := val
        obtain ⟨hq0, w, wd, mk, tl, heq, hwne, hwall, hwdne, hwdall, hmk, htlne,
          htlall, hle, hq2, hr⟩ := mClass_some_elim hm
        subst hq0
        have hsc := scanM_match mClass stLine mClass_shrink hm
        rw [hr, hq2] at hsc
        rw [hsc] at hq
        obtain ⟨w0, w', hw0⟩ : ∃ w0 w', w = w0 :: w' := by
          cases w with
          | nil => exact absurd rfl hwne
          | cons a b => exact ⟨a, b, rfl⟩
        obtain ⟨R, hR⟩ := classBlk_shape (scanM mClass stLine false u) hw0
        rw [hR] at hq
        obtain ⟨w2, wd2, mk2, tl2, u2, heq2, hwall2, hwdne2, hword2, hmk2, htlne2,
          htlall2, hle2⟩ := hq
        exfalso
        cases w2 with
        | nil =>
          rw [List.nil_append] at heq2
          exact no_CWd_blkhead w0 R
            (hwall w0 (by rw [hw0]; exact List.mem_cons_self w0 w'))
            ⟨wd2, mk2, tl2, u2, heq2, hword2, hmk2, htlne2, htlall2, hle2⟩
        | cons v w2' =>
          rw [show chars "class" ++ w0 :: R =
            'c' :: (chars "lass" ++ w0 :: R) by simp [chars]] at heq2
          rw [show (v :: w2') ++ wd2 ++ mk2 :: tl2 ++ u2 =
            v :: (w2' ++ wd2 ++ mk2 :: tl2 ++ u2) by simp [List.append_assoc]] at heq2
          have hv : 'c' = v := List.head_eq_of_cons_eq heq2
          have := hwall2 v (List.mem_cons_self v w2')
          rw [← hv] at this
          exact absurd this (by decide)
      | none =>
        rw [scanM_nomatch mClass stLine hm] at hq
        obtain ⟨w2, wd2, mk2, tl2, u2, heq2, hwall2, hwdne2, hword2, hmk2, htlne2,
          htlall2, hle2⟩ := hq
        cases w2 with
        | nil =>
          rw [List.nil_append] at heq2
          obtain ⟨e, wd2'', he⟩ : ∃ e wd2'', wd2 = e :: wd2'' := by
            cases wd2 with
            | nil => exact absurd rfl hwdne2
            | cons a b => exact ⟨a, b, rfl⟩
          have hcword : isWordChar c = true := by
            rw [he, show (e :: wd2'') ++ mk2 :: tl2 ++ u2 =
              e :: (wd2'' ++ mk2 :: tl2 ++ u2) by simp [List.append_assoc]] at heq2
            rw [List.head_eq_of_cons_eq heq2]
            exact hword2 e (by rw [he]; exact List.mem_cons_self e wd2'')
          have hcwd : CWd (c :: rest) := by
            apply classTWd (c :: rest).length (c :: rest) q0 le_rfl
            rw [scanM_nomatch mClass stLine hm]
            exact ⟨wd2, mk2, tl2, u2, heq2, hword2, hmk2, htlne2, htlall2, hle2⟩
          obtain ⟨wd3, mk3, tl3, u3, heq3, hword3, hmk3, htlne3, htlall3, hle3⟩ := hcwd
          cases hwd3 : wd3 with
          | nil =>
            rw [hwd3, List.nil_append] at heq3
            have hcmk : c = mk3 := by
              rw [show mk3 :: tl3 ++ u3 = mk3 :: (tl3 ++ u3) by simp] at heq3
              exact List.head_eq_of_cons_eq heq3
            rw [hcmk, marker_not_word hmk3] at hcword
            exact absurd hcword (by simp)
          | cons e3 wd3' =>
            exact ⟨[], wd3, mk3, tl3, u3, by rw [List.nil_append]; exact heq3,
              fun x hx => absurd hx (List.not_mem_nil x), by rw [hwd3]; simp,
              hword3, hmk3, htlne3, htlall3, hle3⟩
        | cons v w2' =>
          rw [show (v :: w2') ++ wd2 ++ mk2 :: tl2 ++ u2 =
            v :: (w2' ++ wd2 ++ mk2 :: tl2 ++ u2) by simp [List.append_assoc]] at heq2
          have hcv : c = v := List.head_eq_of_cons_eq heq2
          have htl : scanM mClass stLine (stLine q0 c) rest =
              w2' ++ wd2 ++ mk2 :: tl2 ++ u2 := by
            have := List.tail_eq_of_cons_eq heq2
            rw [this]
          have hrec : CS rest := by
            apply ih rest (stLine q0 c) hlen'
            exact ⟨w2', wd2, mk2, tl2, u2, htl,
              fun x hx => hwall2 x (List.mem_cons_of_mem v hx), hwdne2, hword2,
              hmk2, htlne2, htlall2, hle2⟩
          obtain ⟨w3, wd3, mk3, tl3, u3, heq3, hwall3, hwdne3, hword3, hmk3, htlne3,
            htlall3, hle3⟩ := hrec
          refine ⟨c :: w3, wd3, mk3, tl3, u3, ?_, ?_, hwdne3, hword3, hmk3, htlne3,
            htlall3, hle3⟩
          · rw [heq3]
            simp [List.append_assoc]
          · intro x hx
            rcases List.mem_cons.mp hx with h1 | h1
            · rw [h1, hcv]
              exact hwall2 v (List.mem_cons_self v w2')
            · exact hwall3 x h1

theorem classTW : ∀ n s q0, s.length ≤ n →
    CW (scanM mClass stLine q0 s) → CW s := by
  intro n
  induction n with
  | zero =>
    intro s q0 hlen hq
    have : s = [] := List.length_eq_zero.mp (Nat.le_zero.mp hlen)
    subst this
    exact hq
  | succ n ih =>
    intro s q0 hlen hq
    cases s with
    | nil => exact hq
    | cons c rest =>
      have hlen' : rest.length ≤ n := by simp only [List.length_cons] at hlen; omega
      cases hm : mClass q0 (c :: rest) with
      | some val =>
        obtain ⟨r, q2, u⟩ := val
        obtain ⟨hq0, w, wd, mk, tl, heq, hwne, hwall, hwdne, hwdall, hmk, htlne,
          htlall, hle, hq2, hr⟩ := mClass_some_elim hm
        subst hq0
        have hsc := scanM_match mClass stLine mClass_shrink hm
        rw [hr, hq2] at hsc
        rw [hsc] at hq
        obtain ⟨w0, w', hw0⟩ : ∃ w0 w', w = w0 :: w' := by
          cases w with
          | nil => exact absurd rfl hwne
          | cons a b => exact ⟨a, b, rfl⟩
        obtain ⟨R, hR⟩ := classBlk_shape (scanM mClass stLine false u) hw0
        rw [hR] at hq
        obtain ⟨w2, wd2, mk2, tl2, u2, heq2, hwne2, hwall2, hwdne2, hword2, hmk2,
          htlne2, htlall2, hle2⟩ := hq
        exfalso
        obtain ⟨v, w2', hv⟩ : ∃ v w2', w2 = v :: w2' := by
          cases w2 with
          | nil => exact absurd rfl hwne2
          | cons a b => exact ⟨a, b, rfl⟩
        rw [hv, show chars "class" ++ w0 :: R =
          'c' :: (chars "lass" ++ w0 :: R) by simp [chars],
          show (v :: w2') ++ wd2 ++ mk2 :: tl2 ++ u2 =
            v :: (w2' ++ wd2 ++ mk2 :: tl2 ++ u2) by simp [List.append_assoc]] at heq2
        have hvc : 'c' = v := List.head_eq_of_cons_eq heq2
        have := hwall2 v (by rw [hv]; exact List.mem_cons_self v w2')
        rw [← hvc] at this
        exact absurd this (by decide)
      | none =>
        rw [scanM_nomatch mClass stLine hm] at hq
        obtain ⟨w2, wd2, mk2, tl2, u2, heq2, hwne2, hwall2, hwdne2, hword2, hmk2,
          htlne2, htlall2, hle2⟩ := hq
        obtain ⟨v, w2', hv⟩ : ∃ v w2', w2 = v :: w2' := by
          cases w2 with
          | nil => exact absurd rfl hwne2
          | cons a b => exact ⟨a, b, rfl⟩
        rw [hv, show (v :: w2') ++ wd2 ++ mk2 :: tl2 ++ u2 =
          v :: (w2' ++ wd2 ++ mk2 :: tl2 ++ u2) by simp [List.append_assoc]] at heq2
        have hcv : c = v := List.head_eq_of_cons_eq heq2
        have htl : scanM mClass stLine (stLine q0 c) rest =
            w2' ++ wd2 ++ mk2 :: tl2 ++ u2 := by
          have := List.tail_eq_of_cons_eq heq2
          rw [this]
        have hrec : CS rest := by
          apply classTS rest.length rest (stLine q0 c) le_rfl
          exact ⟨w2', wd2, mk2, tl2, u2, htl,
            fun x hx => hwall2 x (by rw [hv]; exact List.mem_cons_of_mem v hx),
            hwdne2, hword2, hmk2, htlne2, htlall2, hle2⟩
        obtain ⟨w3, wd3, mk3, tl3, u3, heq3, hwall3, hwdne3, hword3, hmk3, htlne3,
          htlall3, hle3⟩ := hrec
        refine ⟨c :: w3, wd3, mk3, tl3, u3, ?_, by simp, ?_, hwdne3, hword3, hmk3,
          htlne3, htlall3, hle3⟩
        · rw [heq3]
          simp [List.append_assoc]
        · intro x hx
          rcases List.mem_cons.mp hx with h1 | h1
          · rw [h1, hcv]
            exact hwall2 v (by rw [hv]; exact List.mem_cons_self v w2')
          · exact hwall3 x h1

theorem classTL : ∀ n s lit q0, s.length ≤ n → lit <:+ chars "class" →
    CLit lit (scanM mClass stLine q0 s) → CLit lit s := by
  intro n
  induction n with
  | zero =>
    intro s lit q0 hlen _ hq
    have : s = [] := List.length_eq_zero.mp (Nat.le_zero.mp hlen)
    subst this
    exact hq
  | succ n ih =>
    intro s lit q0 hlen hsuf hq
    rcases class_suffix_cases hsuf with hnil | hfull | ⟨c0, t0, hct, hc0⟩
    · subst hnil
      rw [CLit_nil_iff] at hq ⊢
      exact classTW s.length s q0 le_rfl hq
    · subst hfull
      cases s with
      | nil => exact hq
      | cons c rest =>
        have hlen' : rest.length ≤ n := by simp only [List.length_cons] at hlen; omega
        cases hm : mClass q0 (c :: rest) with
        | some val =>
          obtain ⟨r, q2, u⟩ := val
          obtain ⟨hq0, w, wd, mk, tl, heq, hwne, hwall, hwdne, hwdall, hmk, htlne,
            htlall, hle, hq2, hr⟩ := mClass_some_elim hm
          refine ⟨w ++ wd ++ mk :: tl ++ u, ?_, w, wd, mk, tl, u, rfl, hwne, hwall,
            hwdne, hwdall, hmk, htlne, htlall, hle⟩
          rw [heq]
          simp [List.append_assoc]
        | none =>
          rw [scanM_nomatch mClass stLine hm] at hq
          rw [show chars "class" = 'c' :: chars "lass" from rfl, CLit_cons_iff]
            at hq ⊢
          exact ⟨hq.1, ih rest (chars "lass") (stLine q0 c) hlen'
            ⟨['c'], by simp [chars]⟩ hq.2⟩
    · subst hct
      cases s with
      | nil => exact hq
      | cons c rest =>
        have hlen' : rest.length ≤ n := by simp only [List.length_cons] at hlen; omega
        cases hm : mClass q0 (c :: rest) with
        | some val =>
          obtain ⟨r, q2, u⟩ := val
          obtain ⟨hq0, w, wd, mk, tl, heq, hwne, hwall, hwdne, hwdall, hmk, htlne,
            htlall, hle, hq2, hr⟩ := mClass_some_elim hm
          subst hq0
          have hsc := scanM_match mClass stLine mClass_shrink hm
          rw [hr, hq2] at hsc
          rw [hsc] at hq
          obtain ⟨T, hT⟩ := classBlk_head w wd mk tl
          rw [hT, List.cons_append, CLit_cons_iff] at hq
          exact absurd hq.1.symm hc0
        | none =>
          rw [scanM_nomatch mClass stLine hm] at hq
          rw [CLit_cons_iff] at hq ⊢
          have hsuf' : t0 <:+ chars "class" := by
            obtain ⟨pre, hpre⟩ := hsuf
            exact ⟨pre ++ [c0], by rw [← hpre]; simp⟩
          exact ⟨hq.1, ih rest t0 (stLine q0 c) hlen' hsuf' hq.2⟩

theorem CLit_full_some {s : List Char} (h : CLit (chars "class") s) :
    ∃ r u, mClass true s = some (r, false, u) := by
  obtain ⟨rest, hs, w, wd, mk, tl, u, hrest, hwne, hwall, hwdne, hwdall, hmk, htlne,
    htlall, hle⟩ := h
  refine ⟨classBlk w wd mk tl, u, ?_⟩
  have hb := mClass_match_build w wd mk tl u hwne hwall hwdne hwdall hmk htlne htlall hle
  rw [show s = chars "class" ++ w ++ wd ++ mk :: tl ++ u by
    rw [hs, hrest]; simp [List.append_assoc]]
  exact hb

theorem class_idem_aux : ∀ n s q, s.length ≤ n →
    scanM mClass stLine q (scanM mClass stLine q s) = scanM mClass stLine q s := by
  intro n
  induction n with
  | zero =>
    intro s q hlen
    have : s = [] := List.length_eq_zero.mp (Nat.le_zero.mp hlen)
    subst this
    rfl
  | succ n ih =>
    intro s q hlen
    cases s with
    | nil => rfl
    | cons c rest =>
      have hlen' : rest.length ≤ n := by simp only [List.length_cons] at hlen; omega
      cases hm : mClass q (c :: rest) with
      | some val =>
        obtain ⟨r, q2, u⟩ := val
        obtain ⟨hq0, w, wd, mk, tl, heq, hwne, hwall, hwdne, hwdall, hmk, htlne,
          htlall, hle, hq2, hr⟩ := mClass_some_elim hm
        subst hq0
        have hsc := scanM_match mClass stLine mClass_shrink hm
        rw [hr, hq2] at hsc
        have hul : u.length ≤ n := by
          have := mClass_shrink true (c :: rest) r q2 u hm
          simp only [List.length_cons] at this hlen
          omega
        have hZ : LineEndAt (scanM mClass stLine false u) := scanC_lineEnd hle
        by_cases hcont : (chars "class" ++ w ++ wd ++ mk :: tl).contains lbrace = true
        · have hblk : classBlk w wd mk tl = chars "class" ++ w ++ wd ++ mk :: tl := by
            simp only [classBlk]
            rw [if_pos hcont]
          rw [hsc, hblk,
            scanC_g0_rescan (scanM mClass stLine false u) hwne hwall hwdne hwdall hmk
              htlne htlall hZ hcont,
            ih u false hul]
        · have hblk : classBlk w wd mk tl =
              (chars "class" ++ w ++ wd) ++ (' ' :: lbrace :: chars "\n  ") ++
                (mk :: tl) ++ ['\n', rbrace] := by
            simp only [classBlk]
            rw [if_neg hcont]
          rw [hsc, hblk,
            scanC_blk2_rescan w wd mk tl (scanM mClass stLine false u) hwall hwdne
              hwdall hmk htlall,
            ih u false hul]
      | none =>
        rw [scanM_nomatch mClass stLine hm]
        have hm2 : mClass q (c :: scanM mClass stLine (stLine q c) rest) = none := by
          cases hm2 : mClass q (c :: scanM mClass stLine (stLine q c) rest) with
          | none => rfl
          | some val2 =>
            exfalso
            obtain ⟨r2, q22, u2⟩ := val2
            obtain ⟨hq0, w2, wd2, mk2, tl2, heq2, hwne2, hwall2, hwdne2, hwdall2,
              hmk2, htlne2, htlall2, hle2, -, -⟩ := mClass_some_elim hm2
            subst hq0
            have hcl : CLit (chars "class")
                (c :: scanM mClass stLine (stLine true c) rest) := by
              refine ⟨w2 ++ wd2 ++ mk2 :: tl2 ++ u2, ?_, w2, wd2, mk2, tl2, u2, rfl,
                hwne2, hwall2, hwdne2, hwdall2, hmk2, htlne2, htlall2, hle2⟩
              rw [heq2]
              simp [List.append_assoc]
            rw [← scanM_nomatch mClass stLine hm] at hcl
            have hcl2 : CLit (chars "class") (c :: rest) :=
              classTL (c :: rest).length (c :: rest) (chars "class") true le_rfl
                (List.suffix_refl _) hcl
            obtain ⟨r3, u3, hm3⟩ := CLit_full_some hcl2
            rw [hm3] at hm
            exact absurd hm (by simp)
        rw [scanM_nomatch mClass stLine hm2, ih rest (stLine q c) hlen']

theorem fix_class_idem (s : List Char) :
    fix_class_diagram_syntax ( fix_class_diagram_syntax s) =
      fix_class_diagram_syntax s :=
  class_idem_aux s.length s true le_rfl

/-- C5 counterexample: `fix_journey` is not idempotent.  On `"a\n\n"` the
first application trims the trailing empty line (via `splitlines`/join)
and returns `"a\n"`; the second application trims again and returns
`"a"`. -/
theorem fix_journey_not_idempotent :
    fix_journey (fix_journey (chars "a\n\n")) ≠ fix_journey (chars "a\n\n") := by
  decide

/-- C5 as amended: the five repairs `fix_class_diagram_syntax`,
`fix_quadrant_chart`, `fix_sankey`, `fix_xy_chart` and
`fix_requirement_diagram` are idempotent on every text; `fix_journey` is
not idempotent in general (a trailing line terminator is trimmed by each
pass), but re-applying it to a text it leaves unchanged changes nothing
further. -/
theorem repair_idempotence :
    (∀ s, fix_class_diagram_syntax ( fix_class_diagram_syntax s) =
      fix_class_diagram_syntax s) ∧
    (∀ s, fix_quadrant_chart (fix_quadrant_chart s) = fix_quadrant_chart s) ∧
    (∀ s, fix_sankey (fix_sankey s) = fix_sankey s) ∧
    (∀ s, fix_xy_chart (fix_xy_chart s) = fix_xy_chart s) ∧
    (∀ s, fix_requirement_diagram (fix_requirement_diagram s) =
      fix_requirement_diagram s) ∧
    (∀ s, fix_journey s = s → fix_journey (fix_journey s) = fix_journey s) :=
  ⟨fix_class_idem, fix_quadrant_chart_idem, fix_sankey_idem, fix_xy_chart_idem,
    fix_requirement_diagram_idem, fun s h => by rw [h, h]⟩

/-- Witness for C5's journey clause at the one-line text `a`. -/
theorem repair_idempotence_witness :
    fix_journey (chars "a") = chars "a" ∧
    fix_journey (fix_journey (chars "a")) = fix_journey (chars "a") :=
  ⟨by decide, repair_idempotence.2.2.2.2.2 (chars "a") (by decide)⟩
